import Mathlib

/-!
Verification of the hooks-manager CLI (claude-code-hooks-manager).

This file shallowly embeds the core of the TypeScript source:
  * the untrusted JSON data model produced by `jsonc.parse` (`JVal`),
    with JavaScript property-access / truthiness / `includes` semantics,
  * the hook-matching functions `areHooksEqual`, `areMatchersEqual`,
    `findMatchersToRemove`,
  * the structural semantics of the `jsonc.modify`/`applyEdits` calls the
    source performs (set a field, remove a field, remove an array element),
  * the removal operations `removeHooksWithDefinition` and
    `removeHooksWithBinary`,
  * `addHooks`, the discovery walk `discoverClaudeDirectories`, and the
    uninstall orchestrators (as effect-trace functions).

Conventions: a JavaScript value that may be `undefined` is `Option JVal`
(`none` = `undefined`); a computation that can raise a TypeError/Error is
`Except JsErr _`.  Object field lists model post-`jsonc.parse` JavaScript
objects and are duplicate-free in every run the source can produce; the
theorems that need this take it as an explicit `Nodup` hypothesis.
-/

namespace HooksMgr

/-- Untrusted JSON value, as produced by `jsonc.parse`. -/
inductive JVal where
  | null : JVal
  | bool (b : Bool) : JVal
  | num (n : Int) : JVal
  | str (s : String) : JVal
  | arr (xs : List JVal) : JVal
  | obj (fields : List (String × JVal)) : JVal
deriving Repr

/-- `undefined`-or-value, the result of a JavaScript property access. -/
abbrev JsVal := Option JVal

/-- The JavaScript exceptions the embedded code can raise: a `TypeError`
from accessing a property of `undefined`/`null` or calling a missing
method, or the `Error` thrown by `jsonc-parser`'s `setProperty` when an
edit path does not fit the document. -/
inductive JsErr where
  | typeError : JsErr
  | editError : JsErr
deriving DecidableEq, Repr

/-- JavaScript truthiness of a defined value (`NaN` cannot occur in
parsed JSON, so `num` is falsy exactly at `0`). -/
def jTruthy : JVal → Bool
  | .null => false
  | .bool b => b
  | .num n => n != 0
  | .str s => s != ""
  | _ => true

/-- Truthiness of a possibly-`undefined` value (`undefined` is falsy). -/
def jTruthyV : JsVal → Bool
  | none => false
  | some v => jTruthy v

/-- `s` is a canonical array-index string (`"0"`, `"17"`, but not `"05"`),
the only strings under which JavaScript array element access hits an
element. -/
def isCanonicalIndex (s : String) : Bool :=
  s.length > 0 && s.all Char.isDigit && (s == "0" || !(s.startsWith "0"))

/-- Property access `v[k]` on a non-`null` value.  Objects look the key
up; arrays yield the element at a canonical numeric index; all other
receivers yield `undefined`.  (A string receiver would yield a
single-character string at a numeric index; every such access in the
source is immediately guarded by `Array.isArray`, for which a
single-character string and `undefined` behave identically, so it is
modelled as `undefined`.) -/
def jProp (v : JVal) (k : String) : JsVal :=
  match v with
  | .obj fs => fs.lookup k
  | .arr xs => if isCanonicalIndex k then xs.get? k.toNat! else none
  | _ => none

/-- Property access `v.k` with JavaScript error semantics: accessing a
property of `undefined` or `null` throws a TypeError. -/
def jsGetProp (v : JsVal) (k : String) : Except JsErr JsVal :=
  match v with
  | none => .error .typeError
  | some .null => .error .typeError
  | some w => .ok (jProp w k)

/-- `typeof v === 'object'` and `v != null` combined, the shape guard the
source uses before touching properties of untrusted data. -/
def isObjectLike : JVal → Bool
  | .obj _ => true
  | .arr _ => true
  | _ => false

/-- Number of keys `Object.keys(v)` yields: own enumerable properties
(object fields, array indices, string character indices). -/
def jKeysCount : JVal → Nat
  | .obj fs => fs.length
  | .arr xs => xs.length
  | .str s => s.length
  | _ => 0

/-- `Object.entries(v)`: key/value pairs of an object, or index/element
pairs of an array.  (For a string receiver every entry value is a
one-character string, which the `Array.isArray` guard at the only use
site rejects exactly as it rejects an empty entry list, so strings are
modelled as having no entries.) -/
def jEntries : JVal → List (String × JVal)
  | .obj fs => fs
  | .arr xs => (List.range xs.length).zip xs |>.map fun p => (toString p.1, p.2)
  | _ => []

/-- Substring containment, `String.prototype.includes`. -/
def strContains (s b : String) : Bool :=
  decide (b.toList <:+: s.toList)

/-- `v.includes(b)` for a truthy `v`: substring test on strings, element
membership (SameValueZero) on arrays, a TypeError on any other truthy
receiver, which has no `includes` method. -/
def jsIncludes (v : JVal) (b : String) : Except JsErr Bool :=
  match v with
  | .str s => .ok (strContains s b)
  | .arr xs => .ok (xs.any fun x => match x with | .str t => t == b | _ => false)
  | _ => .error .typeError

/-! ## Typed hook model (`src/types.ts`) -/

/-- `Hook` from `types.ts`: `{ type: 'command', command: string }`.  The
`type` field is a string at runtime (the TypeScript literal type only
constrains well-typed callers). -/
structure Hook where
  type : String
  command : String
deriving DecidableEq, Repr

/-- `HookMatcher` from `types.ts`: a pattern plus its ordered hooks. -/
structure HookMatcher where
  matcher : String
  hooks : List Hook
deriving DecidableEq, Repr

/-- `Hooks` from `types.ts` is an object mapping event names to matcher
arrays; `Object.entries` of such an object, which is what the removal and
install loops iterate, is a duplicate-key-free association list. -/
abbrev HooksDef := List (String × List HookMatcher)

/-- JSON value a `Hook` serializes to when `jsonc.modify` inserts it. -/
def hookToJ (h : Hook) : JVal :=
  .obj [("type", .str h.type), ("command", .str h.command)]

/-- JSON value a `HookMatcher` serializes to. -/
def matcherToJ (m : HookMatcher) : JVal :=
  .obj [("matcher", .str m.matcher), ("hooks", .arr (m.hooks.map hookToJ))]

/-- JSON value an event's matcher list serializes to. -/
def hooksConfigToJ (ms : List HookMatcher) : JVal :=
  .arr (ms.map matcherToJ)

/-! ## Hook matching (`areHooksEqual`, `areMatchersEqual`,
`findMatchersToRemove`) -/

/-- `s === v` between a known string and an untrusted value. -/
def strictEqStr (s : String) (v : JsVal) : Bool :=
  match v with
  | some (.str t) => s == t
  | _ => false

/-- `areHooksEqual(hook1, hook2)`: `hook2` must pass the
`hook2 == null || typeof hook2 !== 'object'` guard and then agree with
`hook1` on `type` and `command` under strict equality. -/
def areHooksEqual (h1 : Hook) (h2 : JVal) : Bool :=
  isObjectLike h2 &&
    strictEqStr h1.type (jProp h2 "type") &&
    strictEqStr h1.command (jProp h2 "command")

/-- The indexed `for` loop inside `areMatchersEqual`, combined with the
preceding `typedMatcher.hooks.length !== untypedMatcher.hooks.length`
check: pairwise `areHooksEqual`, failing on any length mismatch. -/
def hooksListEqual : List Hook → List JVal → Bool
  | [], [] => true
  | t :: ts, u :: us => areHooksEqual t u && hooksListEqual ts us
  | _, _ => false

/-- `areMatchersEqual(typedMatcher, untypedMatcher)`: guard against
non-objects, compare the `matcher` string strictly, require an array
`hooks` field of equal length, then compare hooks pairwise. -/
def areMatchersEqual (tm : HookMatcher) (um : JVal) : Bool :=
  isObjectLike um &&
    strictEqStr tm.matcher (jProp um "matcher") &&
    (match jProp um "hooks" with
     | some (.arr uhs) => hooksListEqual tm.hooks uhs
     | _ => false)

/-- Index scan shared by both removal loops: the indices (in iteration
order, starting at `i`) of the elements satisfying `p`. -/
def idxsWhere (p : JVal → Bool) (i : Nat) : List JVal → List Nat
  | [] => []
  | x :: xs => if p x then i :: idxsWhere p (i + 1) xs else idxsWhere p (i + 1) xs

/-- The `definitionMatchers.some(...)` test `findMatchersToRemove` runs
on one settings entry. -/
def defMatchPred (dms : List HookMatcher) (m : JVal) : Bool :=
  dms.any fun dm => areMatchersEqual dm m

/-- `findMatchersToRemove(definitionMatchers, settingsMatchers)`: the
`for` loop pushes `settingsIndex` exactly when some definition matcher
equals the entry, so the result is the ascending index list of exactly
matching entries. -/
def findMatchersToRemove (dms : List HookMatcher) (sms : List JVal) : List Nat :=
  idxsWhere (defMatchPred dms) 0 sms

/-! ## Structural semantics of the `jsonc.modify`/`applyEdits` calls

The source edits document *text*; everything the claims quantify over is
the structural content, so edits are modelled on the parsed tree.  The
error cases reproduce `jsonc-parser`'s `setProperty`: a path segment that
does not fit the node it addresses (string key into an array or
primitive, missing parent on a delete) throws. -/

/-- Set key `k` of an association list: replace the first occurrence in
place, else append (how `setProperty` inserts a new property). -/
def setF (fs : List (String × JVal)) (k : String) (v : JVal) : List (String × JVal) :=
  match fs with
  | [] => [(k, v)]
  | (k', v') :: rest => if k' == k then (k, v) :: rest else (k', v') :: setF rest k v

/-- Remove the first occurrence of key `k` (how `setProperty` deletes the
property `findNodeAtLocation` finds). -/
def removeF (fs : List (String × JVal)) (k : String) : List (String × JVal) :=
  match fs with
  | [] => []
  | (k', v') :: rest => if k' == k then rest else (k', v') :: removeF rest k

/-- `jsonc.modify(content, [k], value)` with a defined value: the root
must be an object, otherwise `setProperty` throws. -/
def jsoncSetField (doc : JVal) (k : String) (v : JVal) : Except JsErr JVal :=
  match doc with
  | .obj fs => .ok (.obj (setF fs k v))
  | _ => .error .editError

/-- `jsonc.modify(content, [k1, k2], value)` with a defined value: the
root must be an object; if `k1` is present its value must be an object,
else `setProperty` wraps the value and sets `k1` itself. -/
def jsoncSetField2 (doc : JVal) (k1 k2 : String) (v : JVal) : Except JsErr JVal :=
  match doc with
  | .obj fs =>
    match fs.lookup k1 with
    | some (.obj gs) => .ok (.obj (setF fs k1 (.obj (setF gs k2 v))))
    | some _ => .error .editError
    | none => .ok (.obj (setF fs k1 (.obj [(k2, v)])))
  | _ => .error .editError

/-- `jsonc.modify(content, [k], undefined)`: delete root property `k`
(a delete with no object parent throws). -/
def jsoncRemoveField (doc : JVal) (k : String) : Except JsErr JVal :=
  match doc with
  | .obj fs => .ok (.obj (removeF fs k))
  | _ => .error .editError

/-- `jsonc.modify(content, [k1, k2], undefined)`: delete property `k2`
of the object at root key `k1`; any other shape along the path throws. -/
def jsoncRemoveField2 (doc : JVal) (k1 k2 : String) : Except JsErr JVal :=
  match doc with
  | .obj fs =>
    match fs.lookup k1 with
    | some (.obj gs) => .ok (.obj (setF fs k1 (.obj (removeF gs k2))))
    | _ => .error .editError
  | _ => .error .editError

/-- `jsonc.modify(content, [k1, k2, i], undefined)`: delete element `i`
of the array at `[k1, k2]`; any other shape, or an out-of-range index,
throws. -/
def jsoncRemoveAt2Idx (doc : JVal) (k1 k2 : String) (i : Nat) : Except JsErr JVal :=
  match doc with
  | .obj fs =>
    match fs.lookup k1 with
    | some (.obj gs) =>
      match gs.lookup k2 with
      | some (.arr xs) =>
        if i < xs.length then
          .ok (.obj (setF fs k1 (.obj (setF gs k2 (.arr (xs.eraseIdx i))))))
        else
          .error .editError
      | _ => .error .editError
    | _ => .error .editError
  | _ => .error .editError

/-- Descending insertion used by `sort((a, b) => b - a)`. -/
def insertDesc (i : Nat) : List Nat → List Nat
  | [] => [i]
  | j :: js => if j ≤ i then i :: j :: js else j :: insertDesc i js

/-- `matcherIndicesToRemove.sort((a, b) => b - a)`. -/
def sortDesc : List Nat → List Nat
  | [] => []
  | i :: is => insertDesc i (sortDesc is)

/-! ## The removal operations
(`removeHooksWithDefinition`, `removeHooksWithBinary`)

Both operations share the same per-event three-way branch and the same
final cleanup, so the branch outcome is factored into `EvAction`. -/

/-- What one loop iteration decides to do with an event. -/
inductive EvAction where
  | skip : EvAction
  | mark : EvAction
  | edit (idxs : List Nat) : EvAction
deriving DecidableEq, Repr

/-- The three-way branch both removal loops run after computing
`matcherIndicesToRemove` for an event whose value is an array, plus the
`continue` for a non-array value.  Also returns the count the iteration
adds to `removedCount`. -/
def classifyIdxs (idxs : List Nat) (len : Nat) : EvAction :=
  if idxs.length == len then .mark
  else if 0 < idxs.length then .edit idxs
  else .skip

/-- One event of `removeHooksWithDefinition`: look the event up in the
(unchanged) parsed `hooks` value; `continue` unless it is an array;
otherwise run `findMatchersToRemove`. -/
def defClassify (dms : List HookMatcher) (v : JsVal) : EvAction × Nat :=
  match v with
  | some (.arr ems) =>
    let idxs := findMatchersToRemove dms ems
    (classifyIdxs idxs ems.length, idxs.length)
  | _ => (.skip, 0)

/-- Apply an event's action to the working document: `skip` and `mark`
leave it alone (marked events are deleted after the loop); `edit`
replays the descending sequence of single-element `jsonc.modify`
deletions. -/
def applyEvAction (wd : JVal) (ev : String) : EvAction → Except JsErr JVal
  | .skip => .ok wd
  | .mark => .ok wd
  | .edit idxs => (sortDesc idxs).foldlM (fun d i => jsoncRemoveAt2Idx d "hooks" ev i) wd

/-- Event names a `mark` action appends to `eventTypesToRemove`. -/
def markedOf (ev : String) : EvAction → List String
  | .mark => [ev]
  | _ => []

/-- The main loop of `removeHooksWithDefinition`: iterate the entries of
the typed hook definition; classification always reads the *original*
parsed `hooks` value while edits accumulate on the working document,
exactly as the source computes indices from `existingData` but edits
`workingContent`. -/
def remDefLoop (origHooks : JVal) (wd : JVal) (cnt : Nat) (marked : List String) :
    HooksDef → Except JsErr (JVal × Nat × List String)
  | [] => .ok (wd, cnt, marked)
  | (ev, dms) :: rest => do
    let (a, c) := defClassify dms (jProp origHooks ev)
    let wd' ← applyEvAction wd ev a
    remDefLoop origHooks wd' (cnt + c) (marked ++ markedOf ev a) rest

/-- The tail both operations share: delete every marked event, then
re-parse and delete the `hooks` key when it is truthy with zero keys. -/
def finishRemoval (wd : JVal) (marked : List String) : Except JsErr JVal := do
  let wd ← marked.foldlM (fun d ev => jsoncRemoveField2 d "hooks" ev) wd
  let hv := jProp wd "hooks"
  if jTruthyV hv && (match hv with | some v => jKeysCount v == 0 | none => false) then
    jsoncRemoveField wd "hooks"
  else
    pure wd

/-- `removeHooksWithDefinition(settingsPath, hookDefinition)` on the
parsed settings content.  `parsed` is the result of
`jsonc.parse(content, errors)`: `none` when the text yields no value at
all.  `existingData.hooks` on an `undefined` or `null` parse result
throws a TypeError (there is no try/catch in the source function).  The
returned document is the structural content of `newContent`; the `Nat`
is `removedCount`. -/
def removeHooksWithDefinitionJ (parsed : JsVal) (hd : HooksDef) :
    Except JsErr (JVal × Nat) :=
  match parsed with
  | none => .error .typeError
  | some .null => .error .typeError
  | some doc =>
    match jProp doc "hooks" with
    | none => .ok (doc, 0)
    | some hooksVal =>
      if jTruthy hooksVal then do
        let (wd, cnt, marked) ← remDefLoop hooksVal doc 0 [] hd
        let wd ← finishRemoval wd marked
        .ok (wd, cnt)
      else
        .ok (doc, 0)

/-- `hook.command && hook.command.includes(binaryName)` for one element
of a matcher's `hooks` array.  Accessing `.command` on a `null` element
throws; calling `.includes` on a truthy value without that method
throws. -/
def hookHasBinary (b : String) (h : JVal) : Except JsErr Bool := do
  let cmd ← jsGetProp (some h) "command"
  match cmd with
  | some c => if jTruthy c then jsIncludes c b else pure false
  | none => pure false

/-- `matcher.hooks.some(...)`: left-to-right with short-circuit, so an
element that would throw is never reached after a hit. -/
def jsSomeHasBinary (b : String) : List JVal → Except JsErr Bool
  | [] => pure false
  | h :: hs => do
    if (← hookHasBinary b h) then pure true else jsSomeHasBinary b hs

/-- The body of the `matchers.forEach` in `removeHooksWithBinary` for one
entry: `none` when the entry has no array `hooks` field (the iteration
records nothing for it), otherwise whether some hook mentions the
binary. -/
def matcherHasBinary (b : String) (m : JVal) : Except JsErr (Option Bool) := do
  let hv ← jsGetProp (some m) "hooks"
  match hv with
  | some (.arr hs) => do
    let r ← jsSomeHasBinary b hs
    pure (some r)
  | _ => pure none

/-- The full `forEach` scan of an event's matcher array, collecting the
indices pushed onto `matcherIndicesToRemove` (ascending, like the
iteration order). -/
def binScan (b : String) (i : Nat) : List JVal → Except JsErr (List Nat)
  | [] => pure []
  | m :: ms => do
    let sel ← matcherHasBinary b m
    let rest ← binScan b (i + 1) ms
    match sel with
    | some true => pure (i :: rest)
    | _ => pure rest

/-- One event of `removeHooksWithBinary`: `continue` unless the entry
value is an array, otherwise scan it. -/
def binClassify (b : String) (v : JVal) : Except JsErr (EvAction × Nat) :=
  match v with
  | .arr ems => do
    let idxs ← binScan b 0 ems
    pure (classifyIdxs idxs ems.length, idxs.length)
  | _ => pure (.skip, 0)

/-- The main loop of `removeHooksWithBinary`: iterate
`Object.entries(existingData.hooks)`; each entry carries its own value. -/
def remBinLoop (b : String) (wd : JVal) (cnt : Nat) (marked : List String) :
    List (String × JVal) → Except JsErr (JVal × Nat × List String)
  | [] => .ok (wd, cnt, marked)
  | (ev, v) :: rest => do
    let (a, c) ← binClassify b v
    let wd' ← applyEvAction wd ev a
    remBinLoop b wd' (cnt + c) (marked ++ markedOf ev a) rest

/-- `removeHooksWithBinary(settingsPath, binaryName)` on the parsed
settings content; same conventions as `removeHooksWithDefinitionJ`. -/
def removeHooksWithBinaryJ (parsed : JsVal) (b : String) :
    Except JsErr (JVal × Nat) :=
  match parsed with
  | none => .error .typeError
  | some .null => .error .typeError
  | some doc =>
    match jProp doc "hooks" with
    | none => .ok (doc, 0)
    | some hooksVal =>
      if jTruthy hooksVal then do
        let (wd, cnt, marked) ← remBinLoop b doc 0 [] (jEntries hooksVal)
        let wd ← finishRemoval wd marked
        .ok (wd, cnt)
      else
        .ok (doc, 0)

/-! ## `addHooks` (`install-phase.ts`) -/

/-- The `for (const [hookType, hookConfig] of Object.entries(hooks))`
loop: one `jsonc.modify(content, ['hooks', hookType], hookConfig)` per
event. -/
def addHooksSeq (start : JVal) (hd : HooksDef) : Except JsErr JVal :=
  hd.foldlM (fun d p => jsoncSetField2 d "hooks" p.1 (hooksConfigToJ p.2)) start

/-- The body of `addHooks`'s `try` block after a successful read:
`existingData.hooks` (throws on an `undefined`/`null` parse result), the
`if (!existingData.hooks)` creation of an empty `hooks` object, then the
per-event loop. -/
def addHooksCore (parsed : JsVal) (hd : HooksDef) : Except JsErr JVal :=
  match parsed with
  | none => .error .typeError
  | some .null => .error .typeError
  | some doc => do
    let doc1 ←
      if jTruthyV (jProp doc "hooks") then pure doc
      else jsoncSetField doc "hooks" (.obj [])
    addHooksSeq doc1 hd

/-- The `catch` branch of `addHooks`: rebuild from the literal `'{}'`,
add an empty `hooks` object, then add each event. -/
def freshBuildE (hd : HooksDef) : Except JsErr JVal := do
  let c1 ← jsoncSetField (.obj []) "hooks" (.obj [])
  addHooksSeq c1 hd

/-- `addHooks(settingsPath, hooks)` as a document transform.  `file` is
`none` when `fs.readFile` throws (no settings file); otherwise it holds
the `jsonc.parse` result of the file's content.  Any throw inside the
`try` block falls into the `catch` branch, which discards the document
and rebuilds from scratch. -/
def addHooksModel (file : Option JsVal) (hd : HooksDef) : Except JsErr JVal :=
  match file with
  | none => freshBuildE hd
  | some parsed =>
    match addHooksCore parsed hd with
    | .ok d => .ok d
    | .error _ => freshBuildE hd

/-! ## Directory discovery (`discovery-phase.ts`)

Absolute paths are modelled as segment lists under the filesystem root
(`[]` is `/`); `path.dirname` is `List.dropLast`.  The filesystem is an
oracle for the two `stat` probes the source makes; a failed `stat` and a
non-directory result both land in the same not-found branch. -/

/-- Filesystem oracle: whether `dir/.claude` exists as a directory, and
whether `dir/.claude/settings.local.json` exists. -/
structure Fs where
  hasClaudeDir : List String → Bool
  hasSettingsFile : List String → Bool

/-- `DiscoveryResult` from `discovery-phase.ts`. -/
structure DiscoveryResult where
  claudeDirectoryFound : Bool
  claudeDirectoryPath : Option (List String)
  settingsFileExists : Option Bool
  isInCurrentDirectory : Option Bool
  candidateDirectories : List (List String)
  searchedDirectories : List (List String)
deriving Repr

/-- The upward `while` loop of `discoverClaudeDirectories`: step to the
parent first, stop on reaching the home directory (before recording it)
or the root; record every visited directory; remember the first
directory whose `.claude` probe succeeds, together with its settings
probe. -/
def walkUpAux (fs : Fs) (home : List String) :
    Nat → List String → List (List String) × Option (List String × Bool)
  | 0, _ => ([], none)
  | fuel + 1, searchDir =>
    if searchDir = [] then ([], none)
    else
      let d := searchDir.dropLast
      if d = home then ([], none)
      else
        let foundHere : Option (List String × Bool) :=
          if fs.hasClaudeDir d then some (d, fs.hasSettingsFile d) else none
        let rest := walkUpAux fs home fuel d
        (d :: rest.1, foundHere.orElse fun _ => rest.2)

/-- The loop of `discoverClaudeDirectories`, started with enough fuel:
each iteration replaces `searchDir` by `dirname searchDir`, which drops
one segment, so `searchDir.length` iterations always reach the root
(`[]`), where the loop condition `searchDir !== path.dirname(searchDir)`
stops; the fuel never runs out first. -/
def walkUp (fs : Fs) (home : List String) (searchDir : List String) :
    List (List String) × Option (List String × Bool) :=
  walkUpAux fs home searchDir.length searchDir

/-- `discoverClaudeDirectories()` as a function of the working directory,
the home directory and the filesystem.  The current directory is pushed
onto both lists before its probe; a hit there returns immediately with
`isInCurrentDirectory = true`; otherwise the walk runs, and when nothing
is found the candidate list is reversed (the source comment reads "Most
specific to least specific"). -/
def discover (fs : Fs) (currentDir home : List String) : DiscoveryResult :=
  if fs.hasClaudeDir currentDir then
    { claudeDirectoryFound := true
      claudeDirectoryPath := some currentDir
      settingsFileExists := some (fs.hasSettingsFile currentDir)
      isInCurrentDirectory := some true
      candidateDirectories := [currentDir]
      searchedDirectories := [currentDir] }
  else
    let w := walkUp fs home currentDir
    match w.2 with
    | some (p, s) =>
      { claudeDirectoryFound := true
        claudeDirectoryPath := some p
        settingsFileExists := some s
        isInCurrentDirectory := some false
        candidateDirectories := currentDir :: w.1
        searchedDirectories := currentDir :: w.1 }
    | none =>
      { claudeDirectoryFound := false
        claudeDirectoryPath := none
        settingsFileExists := none
        isInCurrentDirectory := none
        candidateDirectories := (currentDir :: w.1).reverse
        searchedDirectories := currentDir :: w.1 }

/-- The choice values `offerToCreateNew` builds: one per candidate
directory in order, then the cancel sentinel (`none`); the prompt's
default is the last entry, i.e. cancel. -/
def offerChoiceValues (disc : DiscoveryResult) : List (Option (List String)) :=
  disc.candidateDirectories.map some ++ [none]

/-! ## Uninstall orchestration

`performUninstallation` exists twice in the repository: the variant in
`install-phase.ts` (the one `commands/uninstall.ts` calls), which takes
the hook definition and has no parent-directory gate, and the legacy
variant in `uninstall-phase.ts` / the unnamed module, which takes a
`requiresConfirmation` flag, prompts before anything else when it is
set, and removes by the hard-coded binary name.  Both are embedded as
functions from an environment (file state plus the outcomes of the
external collaborators) to a result and a trace of effects.  An
exception anywhere inside the `try` block lands in the outer `catch`,
which returns a failure result; effects already performed stay in the
trace. -/

/-- Observable effects of one uninstall run. -/
inductive UEv where
  | statSettings : UEv
  | promptParent : UEv
  | readSettings : UEv
  | computeRemoval : UEv
  | tempDirCreate : UEv
  | tempFileWrite : UEv
  | diffInvoke : UEv
  | diffFallbackPrint : UEv
  | promptDiff : UEv
  | settingsWrite : UEv
  | tempDirRemove : UEv
deriving DecidableEq, Repr

/-- Environment of one uninstall run: the file state and the behaviour
of the prompt provider, diff tool and final write.  A prompt answer is
`none` when the user cancels the prompt (the `prompts` library then
resolves with no value, which every guard treats as a negative). -/
structure UWorld where
  settingsExists : Bool
  parsed : JsVal
  promptParentAnswer : Option Bool
  promptDiffAnswer : Option Bool
  diffToolThrows : Bool
  promptDiffThrows : Bool
  writeSettingsThrows : Bool

/-- The `try` body of `performUninstallation` from `install-phase.ts`:
stat, removal by definition, the zero-count early return, temp
file + diff + confirm, conditional write, temp-dir cleanup.  Errors
carry the trace accumulated so far. -/
def runIP (w : UWorld) (hd : HooksDef) : Except (List UEv) (Bool × List UEv) :=
  let tr := [UEv.statSettings]
  if !w.settingsExists then .ok (true, tr)
  else
    let tr := tr ++ [UEv.readSettings, UEv.computeRemoval]
    match removeHooksWithDefinitionJ w.parsed hd with
    | .error _ => .error tr
    | .ok (_, cnt) =>
      if cnt == 0 then .ok (true, tr)
      else
        let tr := tr ++ [UEv.tempDirCreate, UEv.tempFileWrite, UEv.diffInvoke]
        let tr := if w.diffToolThrows then tr ++ [UEv.diffFallbackPrint] else tr
        if w.promptDiffThrows then .error (tr ++ [UEv.promptDiff])
        else
          let tr := tr ++ [UEv.promptDiff]
          if w.promptDiffAnswer = some true then
            if w.writeSettingsThrows then .error (tr ++ [UEv.settingsWrite])
            else .ok (true, tr ++ [UEv.settingsWrite, UEv.tempDirRemove])
          else
            .ok (true, tr ++ [UEv.tempDirRemove])

/-- `performUninstallation` from `install-phase.ts` with its outer
`catch`: a thrown error becomes a failure result, with no further
effects. -/
def performUninstallationIP (w : UWorld) (hd : HooksDef) : Bool × List UEv :=
  match runIP w hd with
  | .ok r => r
  | .error tr => (false, tr)

/-- The `try` body of the legacy `performUninstallation`
(`uninstall-phase.ts` and the unnamed module): stat, then — only when
`requiresConfirmation` is set — the parent-directory confirmation
prompt, whose refusal returns a failure before any other step; then
removal by the hard-coded binary name, and the same diff-and-confirm
tail, except that a declined diff confirmation returns a failure after
removing the temp directory. -/
def runUP (w : UWorld) (requiresConfirmation : Bool) : Except (List UEv) (Bool × List UEv) :=
  let tr := [UEv.statSettings]
  if !w.settingsExists then .ok (true, tr)
  else
    if requiresConfirmation && !(w.promptParentAnswer = some true) then
      .ok (false, tr ++ [UEv.promptParent])
    else
      let tr := if requiresConfirmation then tr ++ [UEv.promptParent] else tr
      let tr := tr ++ [UEv.readSettings, UEv.computeRemoval]
      match removeHooksWithBinaryJ w.parsed "happy-coder-hooks" with
      | .error _ => .error tr
      | .ok (_, cnt) =>
        if cnt == 0 then .ok (true, tr)
        else
          let tr := tr ++ [UEv.tempDirCreate, UEv.tempFileWrite, UEv.diffInvoke]
          let tr := if w.diffToolThrows then tr ++ [UEv.diffFallbackPrint] else tr
          if w.promptDiffThrows then .error (tr ++ [UEv.promptDiff])
          else
            let tr := tr ++ [UEv.promptDiff]
            if w.promptDiffAnswer = some true then
              if w.writeSettingsThrows then .error (tr ++ [UEv.settingsWrite])
              else .ok (true, tr ++ [UEv.settingsWrite, UEv.tempDirRemove])
            else
              .ok (false, tr ++ [UEv.tempDirRemove])

/-- Legacy `performUninstallation` with its outer `catch`. -/
def performUninstallationUP (w : UWorld) (requiresConfirmation : Bool) : Bool × List UEv :=
  match runUP w requiresConfirmation with
  | .ok r => r
  | .error tr => (false, tr)

/-- `uninstallHooks` from `commands/uninstall.ts`: discovery gates
(`claudeDirectoryFound`, then the falsy check on `settingsFileExists`),
then the `install-phase.ts` `performUninstallation` — called with the
target directory, the hook definition and options only; nothing derived
from `isInCurrentDirectory` is passed. -/
def uninstallHooksRun (disc : DiscoveryResult) (w : UWorld) (hd : HooksDef) :
    Bool × List UEv :=
  if !disc.claudeDirectoryFound then (true, [])
  else if !(disc.settingsFileExists = some true) then (true, [])
  else performUninstallationIP w hd

/-- `addHooks` as an effect trace, over the same world and event
alphabet as the uninstall runs so that a confirmation prompt *could*
appear in the trace.  The `try` block issues the read (the call is made
even when the missing file makes it throw), parses, edits the content in
memory and ends with `fs.writeFile`; any throw inside the `try` block —
missing file, TypeError from `existingData.hooks` on an
`undefined`/`null` parse result, a `setProperty` throw on a wrong-shaped
path, or the write itself — lands in the `catch` block, which rebuilds
the content from the literal `'{}'` and issues the write again.  The
world's prompt answers are never consulted.  A throwing write is
modelled as persistent (both attempts fail); the `Bool` is whether
`addHooks` resolves without throwing. -/
def addHooksRun (w : UWorld) (hd : HooksDef) : Bool × List UEv :=
  if w.settingsExists then
    match addHooksCore w.parsed hd with
    | .ok _ =>
      if w.writeSettingsThrows then
        (false, [UEv.readSettings, UEv.settingsWrite, UEv.settingsWrite])
      else (true, [UEv.readSettings, UEv.settingsWrite])
    | .error _ =>
      if w.writeSettingsThrows then (false, [UEv.readSettings, UEv.settingsWrite])
      else (true, [UEv.readSettings, UEv.settingsWrite])
  else
    if w.writeSettingsThrows then (false, [UEv.readSettings, UEv.settingsWrite])
    else (true, [UEv.readSettings, UEv.settingsWrite])

/-! ## Spec-side definitions

The definitions in this section are written from the words of the
specification's claims, to be compared with the embedded code; they are
deliberately independent of the code's control flow. -/

/-- The value a document's `hooks` section associates with an event
name. -/
def eventValue (doc : JVal) (ev : String) : JsVal :=
  match jProp doc "hooks" with
  | some h => jProp h ev
  | none => none

/-- The matcher entries a document stores under an event name. -/
def eventEntries (doc : JVal) (ev : String) : List JVal :=
  match eventValue doc ev with
  | some (.arr ms) => ms
  | _ => []

/-- Spec wording (claim C3, tolerant reading): the entry is an object,
its `matcher` field is exactly the wanted matcher string, its `hooks`
field is an array of the same length whose hooks are pairwise equal in
order by `(type, command)`. -/
def specExactMatch (w : HookMatcher) (e : JVal) : Prop :=
  isObjectLike e = true ∧
  jProp e "matcher" = some (.str w.matcher) ∧
  ∃ hs : List JVal, jProp e "hooks" = some (.arr hs) ∧
    List.Forall₂
      (fun (t : Hook) (u : JVal) =>
        isObjectLike u = true ∧
        jProp u "type" = some (.str t.type) ∧
        jProp u "command" = some (.str t.command))
      w.hooks hs

/-- The object's own keys are all among `ks` (vacuous for
non-objects). -/
def hasOnlyKeys : JVal → List String → Bool
  | .obj fs, ks => fs.all fun p => ks.contains p.1
  | _, _ => true

/-- Spec wording (claim C3, strict reading): exact equality that in
addition "tolerates no extra properties" on the entry or on its hooks. -/
def specExactMatchStrict (w : HookMatcher) (e : JVal) : Prop :=
  specExactMatch w e ∧
  hasOnlyKeys e ["matcher", "hooks"] = true ∧
  ∀ hs : List JVal, jProp e "hooks" = some (.arr hs) →
    ∀ u ∈ hs, hasOnlyKeys u ["type", "command"] = true

/-- Claim C3 as stated: `findMatchersToRemove` selects exactly the
entries that strictly (no extra properties) match some wanted matcher. -/
def claimC3Exactness : Prop :=
  ∀ (W : List HookMatcher) (E : List JVal) (i : Nat),
    i ∈ findMatchersToRemove W E ↔
      ∃ e, E.get? i = some e ∧ ∃ w ∈ W, specExactMatchStrict w e

/-- Claim C4 as stated, for `removeHooksWithDefinition`: every produced
document has no event key mapping to an empty array and no `hooks` key
whose value is an empty object. -/
def claimC4Cleanup : Prop :=
  ∀ (parsed : JsVal) (hd : HooksDef) (out : JVal × Nat),
    removeHooksWithDefinitionJ parsed hd = .ok out →
    (∀ ev : String, eventValue out.1 ev ≠ some (.arr [])) ∧
    jProp out.1 "hooks" ≠ some (.obj [])

/-- Spec wording (claim C10 as stated): the entry has a hook whose
`command` is a *string* containing the binary name as a substring. -/
def specStringSelected (b : String) (m : JVal) : Bool :=
  match jProp m "hooks" with
  | some (.arr hs) =>
    hs.any fun h =>
      match jProp h "command" with
      | some (.str c) => strContains c b
      | _ => false
  | _ => false

/-- Number of matcher entries of the document that claim C10 as stated
says `removeHooksWithBinary` removes. -/
def countStringSelected (doc : JVal) (b : String) : Nat :=
  match jProp doc "hooks" with
  | some h =>
    ((jEntries h).map fun p =>
      match p.2 with
      | .arr ms => (ms.filter fun m => specStringSelected b m).length
      | _ => 0).sum
  | none => 0

/-- Claim C10 as stated entails: `removedCount` equals the number of
entries whose hooks include a command *string* containing the binary
name. -/
def claimC10Count : Prop :=
  ∀ (doc : JVal) (b : String) (out : JVal × Nat),
    removeHooksWithBinaryJ (some doc) b = .ok out →
    out.2 = countStringSelected doc b

/-- `v.includes(b)` as a pure predicate (amended claim C10): substring
containment for strings, string-element membership for arrays, false
otherwise. -/
def includesSem (c : JVal) (b : String) : Bool :=
  match c with
  | .str s => strContains s b
  | .arr xs => xs.any fun x => match x with | .str t => t == b | _ => false
  | _ => false

/-- Amended claim C10 wording, per hook: the hook's `command` is present,
truthy, and includes the binary name. -/
def specHookSel (b : String) (h : JVal) : Bool :=
  match jProp h "command" with
  | some c => jTruthy c && includesSem c b
  | none => false

/-- Amended claim C10 wording: the entry has an array `hooks` field with
some hook whose truthy `command` includes the binary name under
JavaScript `includes` semantics. -/
def specBinSelected (b : String) (m : JVal) : Bool :=
  match jProp m "hooks" with
  | some (.arr hs) => hs.any (specHookSel b)
  | _ => false

/-- Claim C2 as stated: `addHooks` keeps every key outside `hooks`
unchanged and keeps every pre-existing matcher entry that is not part of
the installed definition, including entries stored under the very event
names being installed. -/
def claimC2Additive : Prop :=
  ∀ (parsed : JsVal) (hd : HooksDef) (out : JVal) (doc : JVal),
    addHooksModel (some parsed) hd = .ok out →
    parsed = some doc →
    (∀ k, k ≠ "hooks" → jProp out k = jProp doc k) ∧
    (∀ ev m, m ∈ eventEntries doc ev →
      (∀ pr ∈ hd, m ∉ pr.2.map matcherToJ) →
      m ∈ eventEntries out ev)

/-- The `hooks` value of a settings document every real run of
`addHooks`'s happy path sees: absent, falsy, or an object.  A truthy
non-object `hooks` value makes `jsonc.modify` throw, which sends
`addHooks` into its rebuild-from-scratch `catch` branch. -/
def hooksFieldOkay : JsVal → Bool
  | none => true
  | some (.obj _) => true
  | some v => !jTruthy v

/-- Claim C1 as stated: in the wired uninstall flow, whenever discovery
found the root in a parent directory and the user would answer the
parent-directory confirmation negatively, no hook matching, temp-file
creation or settings write happens. -/
def claimC1ParentGate : Prop :=
  ∀ (disc : DiscoveryResult) (w : UWorld) (hd : HooksDef),
    disc.claudeDirectoryFound = true →
    disc.isInCurrentDirectory = some false →
    w.promptParentAnswer ≠ some true →
    UEv.computeRemoval ∉ (uninstallHooksRun disc w hd).2 ∧
    UEv.tempDirCreate ∉ (uninstallHooksRun disc w hd).2 ∧
    UEv.settingsWrite ∉ (uninstallHooksRun disc w hd).2

/-- Claim C7 as stated: discovery never returns a root at or above the
home directory and never lists the home directory as a candidate, for
every start directory. -/
def claimC7HomeBoundary : Prop :=
  ∀ (fs : Fs) (start home : List String),
    (∀ p, (discover fs start home).claudeDirectoryPath = some p → ¬ p <+: home) ∧
    home ∉ (discover fs start home).candidateDirectories

/-- Whether one uninstall environment counts as "the user explicitly
confirms the prompt shown after the diff preview": the prompt resolves
(does not throw) and the confirm value is `true`. -/
def userConfirmsDiff (w : UWorld) : Prop :=
  w.promptDiffThrows = false ∧ w.promptDiffAnswer = some true

/-- Entries of an event list that amended claim C10 predicts selected,
summed into the predicted `removedCount`. -/
def countBinSelected (gs : List (String × JVal)) (b : String) : Nat :=
  (gs.map fun p =>
    match p.2 with
    | .arr ms => (ms.filter fun m => specBinSelected b m).length
    | _ => 0).sum

/-- Elements kept at indices not listed in `S`, scanning from offset
`n`: the net structural effect of deleting a descending list of array
indices one at a time. -/
def keepOff (S : List Nat) : Nat → List JVal → List JVal
  | _, [] => []
  | n, x :: xs => if n ∈ S then keepOff S (n + 1) xs else x :: keepOff S (n + 1) xs

/-- The event value `removeHooksWithDefinition` leaves in the `hooks`
object for an event of the definition before marked events are deleted:
arrays lose exactly their exactly-matching entries, everything else is
untouched. -/
def defEvKeep (dms : List HookMatcher) (v : JVal) : JVal :=
  match v with
  | .arr ems => .arr (ems.filter fun e => !defMatchPred dms e)
  | _ => v

/-- Whether `removeHooksWithDefinition` marks an event of the definition
for whole-event deletion: its value is an array all of whose entries
match (vacuously so for an empty array). -/
def defEvMarks (dms : List HookMatcher) (v : JVal) : Bool :=
  match v with
  | .arr ems => (ems.filter fun e => defMatchPred dms e).length == ems.length
  | _ => false

/-- The event value `removeHooksWithBinary` leaves for an event before
marked events are deleted: arrays lose exactly their selected entries. -/
def binEvKeep (b : String) (v : JVal) : JVal :=
  match v with
  | .arr ms => .arr (ms.filter fun m => !specBinSelected b m)
  | _ => v

/-- Whether `removeHooksWithBinary` marks an event for whole-event
deletion: an array value all of whose entries are selected. -/
def binEvMarks (b : String) (v : JVal) : Bool :=
  match v with
  | .arr ms => (ms.filter fun m => specBinSelected b m).length == ms.length
  | _ => false

/-- `defEvMarks` lifted to a possibly-missing event value. -/
def defEvMarksO (dms : List HookMatcher) : Option JVal → Bool
  | some v => defEvMarks dms v
  | none => false

/-- The `eventTypesToRemove` list `removeHooksWithDefinition` builds, in
iteration order. -/
def defMarkedEvents (origHooks : JVal) (hd : HooksDef) : List String :=
  (hd.filter fun p => defEvMarksO p.2 (jProp origHooks p.1)).map Prod.fst

/-- The `eventTypesToRemove` list `removeHooksWithBinary` builds, in
iteration order. -/
def binMarkedEvents (b : String) (entries : List (String × JVal)) : List String :=
  (entries.filter fun p => binEvMarks b p.2).map Prod.fst

/-! ## Concrete instances used by counterexamples and witnesses -/

/-- The `PreToolUse` matcher of `HOOKS_TO_INSTALL`. -/
def hmStar : HookMatcher :=
  { matcher := "*", hooks := [{ type := "command", command := "happy-coder-hooks PreToolUse" }] }

/-- A user-authored matcher bound to a different pattern and tool. -/
def hmBash : HookMatcher :=
  { matcher := "Bash", hooks := [{ type := "command", command := "other-tool check" }] }

/-- A settings entry equal to `hmStar` on `matcher` and `hooks` but
carrying an extra `timeout` property. -/
def entryExtraProp : JVal :=
  .obj [("matcher", .str "*"),
        ("hooks", .arr [.obj [("type", .str "command"),
                              ("command", .str "happy-coder-hooks PreToolUse")]]),
        ("timeout", .num 5)]

/-- A document whose `hooks` maps an event to an empty array. -/
def docEmptyEvent : JVal :=
  .obj [("hooks", .obj [("SessionStart", .arr [])])]

/-- A hook definition naming only an event absent from
`docEmptyEvent`. -/
def hdOther : HooksDef := [("PreToolUse", [hmStar])]

/-- A hook whose `command` is an *array* containing the binary name. -/
def hookCmdArr : JVal :=
  .obj [("type", .str "command"), ("command", .arr [.str "happy-coder-hooks"])]

/-- A settings document with a single matcher entry whose only hook has
the array-valued command above. -/
def docCmdArr : JVal :=
  .obj [("hooks", .obj [("PreToolUse", .arr [.obj [("matcher", .str "*"),
                                                   ("hooks", .arr [hookCmdArr])]])])]

/-- A settings document with an unrelated key and a user-authored
matcher under `PreToolUse`. -/
def docC2 : JVal :=
  .obj [("keep", .num 1),
        ("hooks", .obj [("PreToolUse", .arr [matcherToJ hmBash])])]

/-- The definition `install` writes. -/
def hdHappy : HooksDef := [("PreToolUse", [hmStar])]

/-- A settings document holding exactly the installed definition. -/
def docHappy : JVal :=
  .obj [("hooks", .obj [("PreToolUse", hooksConfigToJ [hmStar])])]

/-- A home directory used by the discovery scenarios. -/
def homeDir : List String := ["home", "u"]

/-- A start directory two levels below `homeDir`. -/
def startC6 : List String := ["home", "u", "proj", "sub"]

/-- A filesystem with no `.claude` directory anywhere. -/
def fsNone : Fs := ⟨fun _ => false, fun _ => false⟩

/-- A filesystem whose only `.claude` directory sits in the home
directory itself. -/
def fsHomeOnly : Fs := ⟨fun d => d == homeDir, fun _ => false⟩

/-- A parent-scope discovery result (root found one level up). -/
def discParent : DiscoveryResult :=
  { claudeDirectoryFound := true
    claudeDirectoryPath := some ["home", "u", "proj"]
    settingsFileExists := some true
    isInCurrentDirectory := some false
    candidateDirectories := [["home", "u", "proj", "sub"], ["home", "u", "proj"]]
    searchedDirectories := [["home", "u", "proj", "sub"], ["home", "u", "proj"]] }

/-- Environment: settings file with the installed definition; the user
would refuse a parent-directory confirmation but confirm the diff. -/
def wParentNo : UWorld :=
  { settingsExists := true, parsed := some docHappy,
    promptParentAnswer := some false, promptDiffAnswer := some true,
    diffToolThrows := false, promptDiffThrows := false, writeSettingsThrows := false }

/-- Environment: the user declines the diff confirmation. -/
def wDecline : UWorld :=
  { settingsExists := true, parsed := some docHappy,
    promptParentAnswer := none, promptDiffAnswer := some false,
    diffToolThrows := false, promptDiffThrows := false, writeSettingsThrows := false }

/-- Environment: the user confirms, and the final settings write throws
(e.g. the disk is full). -/
def wWriteFails : UWorld :=
  { settingsExists := true, parsed := some docHappy,
    promptParentAnswer := none, promptDiffAnswer := some true,
    diffToolThrows := false, promptDiffThrows := false, writeSettingsThrows := true }

/-!
# Theorems

Everything below is proof: claim theorems, their witnesses and
counterexamples, and the helper lemmas they share.
-/

/-- Claim C9 (code bug): on settings content that is not parseable at
all (e.g. the empty file, where `jsonc.parse` produces no value), both
removal operations throw a TypeError while reading `.hooks` of the
`undefined` parse result, instead of returning the input unchanged with
`removedCount` 0. -/
theorem c9_unparseable_input_throws :
    removeHooksWithDefinitionJ none hdHappy = .error .typeError ∧
    removeHooksWithBinaryJ none "happy-coder-hooks" = .error .typeError :=
  ⟨rfl, rfl⟩

/-- Claim C6 (code bug): with no configuration root anywhere and a start
directory two levels below home, discovery returns its candidates
farthest-first — the parent directory is the head, the start directory
is last — so the Decision Engine's choice list shows the current
directory *after* farther ancestors, contradicting the nearest-first
order the claim (and the code's own comment) states. -/
theorem c6_candidates_farthest_first :
    (discover fsNone startC6 homeDir).claudeDirectoryFound = false ∧
    (discover fsNone startC6 homeDir).candidateDirectories =
      [["home", "u", "proj"], startC6] ∧
    (discover fsNone startC6 homeDir).candidateDirectories.head? ≠ some startC6 ∧
    offerChoiceValues (discover fsNone startC6 homeDir) =
      [some ["home", "u", "proj"], some startC6, none] :=
  ⟨rfl, rfl, by decide, rfl⟩

/-- Claim C8 (code bug): a run of `performUninstallation` that creates
the temporary diff directory and whose final settings write throws
returns through the outer catch without ever removing the temporary
directory — cleanup is not a guaranteed-on-exit action. -/
theorem c8_temp_dir_leak_on_write_failure :
    (performUninstallationIP wWriteFails hdHappy).1 = false ∧
    UEv.tempDirCreate ∈ (performUninstallationIP wWriteFails hdHappy).2 ∧
    UEv.tempDirRemove ∉ (performUninstallationIP wWriteFails hdHappy).2 :=
  ⟨rfl, by decide, by decide⟩

/-- Claim C1 is false as stated: in the wired uninstall flow a run whose
discovery found the root in a parent directory, and whose user would
answer the parent confirmation negatively, still reaches hook matching,
temp-file creation and the settings write — no parent gate exists on
that path. -/
theorem c1_counterexample : ¬ claimC1ParentGate := by
  intro h
  have hc := h discParent wParentNo hdHappy rfl rfl (by decide)
  exact hc.2.2 (by decide)

/-- Claim C4 is false as stated: a document whose `hooks` maps an event
to an empty array keeps that empty array when the removal instruction
names only other events. -/
theorem c4_counterexample : ¬ claimC4Cleanup := by
  intro h
  exact (h (some docEmptyEvent) hdOther (docEmptyEvent, 0) rfl).1 "SessionStart" rfl

/-- Claim C10 is false as stated: an entry whose only hook has an
*array-valued* `command` containing the binary name is removed and
counted (`Array.prototype.includes` membership), although no hook has a
command *string* containing the binary name. -/
theorem c10_counterexample : ¬ claimC10Count := by
  intro h
  exact Nat.one_ne_zero (h docCmdArr "happy-coder-hooks" (.obj [], 1) rfl)

/-- Claim C7 is false as stated: started in the home directory itself
with a `.claude` directory there, discovery returns the home directory
as the configuration root (and lists it as a candidate). -/
theorem c7_counterexample : ¬ claimC7HomeBoundary := by
  intro h
  exact ((h fsHomeOnly homeDir homeDir).1 homeDir rfl) (List.prefix_refl homeDir)

/-- Claim C3 is false as stated: an entry equal to a wanted matcher on
`matcher` and `hooks` but carrying an extra `timeout` property is still
selected — the code's equality tolerates extra properties. -/
theorem c3_counterexample : ¬ claimC3Exactness := by
  intro h
  have hm : 0 ∈ findMatchersToRemove [hmStar] [entryExtraProp] := by decide
  obtain ⟨e, he, w, hw, hstrict⟩ := (h [hmStar] [entryExtraProp] 0).mp hm
  have he' : entryExtraProp = e := Option.some.inj he
  obtain ⟨-, honly, -⟩ := hstrict
  rw [← he'] at honly
  exact absurd honly (by decide)

/-- Claim C1 amended: only the legacy `performUninstallation` variant
implements the parent-scope gate, and only when its
`requiresConfirmation` flag is set: a non-positive answer to the
parent-directory confirmation ends the run right after the settings
stat, with a failure result and before any hook matching, diff preview,
temp-file creation or write. -/
theorem c1_amended_legacy_gate (w : UWorld)
    (h1 : w.settingsExists = true) (h2 : w.promptParentAnswer ≠ some true) :
    performUninstallationUP w true = (false, [UEv.statSettings, UEv.promptParent]) := by
  unfold performUninstallationUP runUP
  simp [h1, h2]

/-- Witness for `c1_amended_legacy_gate` at a concrete environment. -/
theorem c1_amended_witness :
    performUninstallationUP wParentNo true = (false, [UEv.statSettings, UEv.promptParent]) :=
  c1_amended_legacy_gate wParentNo rfl (by decide)

/-- A strict prefix survives `dropLast`. -/
theorem prefix_dropLast {home s : List String} (h : home <+: s) (hne : home ≠ s) :
    home <+: s.dropLast := by
  obtain ⟨t, rfl⟩ := h
  cases t with
  | nil => exact absurd (List.append_nil home).symm hne
  | cons a t' =>
    rw [List.dropLast_append_cons]
    exact ⟨(a :: t').dropLast, rfl⟩

/-- A strict extension of `home` is not a prefix of `home`. -/
theorem not_prefix_of_strict {home d : List String} (h : home <+: d) (hne : home ≠ d) :
    ¬ d <+: home := by
  intro hd
  exact hne (h.eq_of_length (Nat.le_antisymm h.length_le hd.length_le))

/-- Every directory the upward walk records or finds, starting strictly
below the home directory, is itself strictly below the home directory. -/
theorem walkUpAux_boundary (fs : Fs) (home : List String) :
    ∀ (fuel : Nat) (s : List String), home <+: s → home ≠ s →
      (∀ d ∈ (walkUpAux fs home fuel s).1, home <+: d ∧ home ≠ d) ∧
      (∀ p b, (walkUpAux fs home fuel s).2 = some (p, b) → home <+: p ∧ home ≠ p) := by
  intro fuel
  induction fuel with
  | zero =>
    intro s _ _
    exact ⟨by simp [walkUpAux], by simp [walkUpAux]⟩
  | succ n ih =>
    intro s hpre hne
    by_cases hs : s = []
    · subst hs
      exact ⟨by simp [walkUpAux], by simp [walkUpAux]⟩
    · by_cases hd : s.dropLast = home
      · constructor
        · intro d hdm
          simp [walkUpAux, hs, hd] at hdm
        · intro p b hpb
          simp [walkUpAux, hs, hd] at hpb
      · have hdp : home <+: s.dropLast := prefix_dropLast hpre hne
        have hdne : home ≠ s.dropLast := fun hh => hd hh.symm
        obtain ⟨ih1, ih2⟩ := ih s.dropLast hdp hdne
        constructor
        · intro d hdm
          simp only [walkUpAux, if_neg hs, if_neg hd, List.mem_cons] at hdm
          rcases hdm with rfl | hdm
          · exact ⟨hdp, hdne⟩
          · exact ih1 d hdm
        · intro p b hpb
          simp only [walkUpAux, if_neg hs, if_neg hd] at hpb
          by_cases hcl : fs.hasClaudeDir s.dropLast
          · simp [hcl, Option.orElse] at hpb
            obtain ⟨rfl, -⟩ := hpb
            exact ⟨hdp, hdne⟩
          · simp [hcl, Option.orElse] at hpb
            exact ih2 p b hpb

/-- Claim C7 amended: when the start directory is a *strict descendant*
of the home directory, discovery never returns a root at or above home
and never lists home as a candidate.  (Started at home itself — or
outside home's subtree — the current-directory probe and the walk can
reach home or its ancestors, per `c7_counterexample`.) -/
theorem c7_amended_home_boundary (fs : Fs) (start home : List String)
    (h1 : home <+: start) (h2 : home ≠ start) :
    (∀ p, (discover fs start home).claudeDirectoryPath = some p → ¬ p <+: home) ∧
    home ∉ (discover fs start home).candidateDirectories := by
  obtain ⟨hw1, hw2⟩ := walkUpAux_boundary fs home start.length start h1 h2
  unfold discover
  by_cases hcl : fs.hasClaudeDir start
  · simp only [hcl, if_pos]
    constructor
    · intro p hp
      simp at hp
      subst hp
      exact not_prefix_of_strict h1 h2
    · simp
      exact fun hh => h2 hh
  · simp only [hcl, if_neg, Bool.false_eq_true, not_false_eq_true]
    rcases hfound : (walkUp fs home start).2 with _ | ⟨p, b⟩
    · simp only [hfound]
      constructor
      · intro p hp
        simp at hp
      · simp only [List.mem_reverse, List.mem_cons, not_or]
        refine ⟨fun hh => h2 hh, ?_⟩
        intro hmem
        exact (hw1 home hmem).2 rfl
    · simp only [hfound]
      constructor
      · intro q hq
        simp at hq
        subst hq
        have h3 := hw2 _ _ hfound
        exact not_prefix_of_strict h3.1 h3.2
      · simp only [List.mem_cons, not_or]
        refine ⟨fun hh => h2 hh, ?_⟩
        intro hmem
        exact (hw1 home hmem).2 rfl

/-- Witness for `c7_amended_home_boundary`: a start directory two levels
below home. -/
theorem c7_amended_witness :
    (∀ p, (discover fsHomeOnly startC6 homeDir).claudeDirectoryPath = some p →
      ¬ p <+: homeDir) ∧
    homeDir ∉ (discover fsHomeOnly startC6 homeDir).candidateDirectories :=
  c7_amended_home_boundary fsHomeOnly startC6 homeDir ⟨["proj", "sub"], rfl⟩ (by decide)

/-- Claim C5 (confirmed): the wired uninstall phase performs the
settings write exactly when the settings file exists, the removal
computation succeeds with a positive `removedCount`, and the user
explicitly confirms the post-diff prompt; when `removedCount` is zero it
returns before creating any temporary file and without writing; and on
decline or cancellation it writes nothing and, if the temporary diff
directory was created, removes it. -/
theorem c5_uninstall_write_gating (w : UWorld) (hd : HooksDef) :
    (UEv.settingsWrite ∈ (performUninstallationIP w hd).2 ↔
      w.settingsExists = true ∧
      (∃ r : JVal × Nat, removeHooksWithDefinitionJ w.parsed hd = .ok r ∧ 0 < r.2) ∧
      userConfirmsDiff w) ∧
    (∀ r : JVal × Nat, removeHooksWithDefinitionJ w.parsed hd = .ok r → r.2 = 0 →
      UEv.tempDirCreate ∉ (performUninstallationIP w hd).2 ∧
      UEv.settingsWrite ∉ (performUninstallationIP w hd).2) ∧
    (w.promptDiffThrows = false → w.promptDiffAnswer ≠ some true →
      UEv.settingsWrite ∉ (performUninstallationIP w hd).2 ∧
      (UEv.tempDirCreate ∈ (performUninstallationIP w hd).2 →
        UEv.tempDirRemove ∈ (performUninstallationIP w hd).2)) := by
  unfold performUninstallationIP runIP
  cases hse : w.settingsExists with
  | false =>
    simp [userConfirmsDiff]
  | true =>
    rcases hrem : removeHooksWithDefinitionJ w.parsed hd with e | ⟨d, cnt⟩
    · simp [hrem]
    · rcases hcnt : cnt with _ | cnt'
      · simp [hrem]
      · by_cases hpt : w.promptDiffThrows
        · by_cases hdt : w.diffToolThrows <;>
            simp [hrem, hpt, hdt, userConfirmsDiff]
        · by_cases hans : w.promptDiffAnswer = some true
          · by_cases hwf : w.writeSettingsThrows <;>
              by_cases hdt : w.diffToolThrows <;>
                simp [hrem, hpt, hdt, hans, hwf, userConfirmsDiff]
          · by_cases hdt : w.diffToolThrows <;>
              simp [hrem, hpt, hdt, hans, userConfirmsDiff]

/-- Witness for `c5_uninstall_write_gating`: the declined run on the
installed-definition document writes nothing and removes the temp
directory. -/
theorem c5_witness :
    UEv.settingsWrite ∉ (performUninstallationIP wDecline hdHappy).2 ∧
    UEv.tempDirRemove ∈ (performUninstallationIP wDecline hdHappy).2 := by
  have h := (c5_uninstall_write_gating wDecline hdHappy).2.2 rfl (by decide)
  exact ⟨h.1, h.2 (by decide)⟩

theorem strictEqStr_iff (s : String) (v : JsVal) :
    strictEqStr s v = true ↔ v = some (.str s) := by
  rcases v with _ | u
  · simp [strictEqStr]
  · cases u <;> simp [strictEqStr]
    exact ⟨fun h => h.symm, fun h => h.symm⟩

theorem areHooksEqual_iff (h : Hook) (u : JVal) :
    areHooksEqual h u = true ↔
      (isObjectLike u = true ∧ jProp u "type" = some (.str h.type) ∧
        jProp u "command" = some (.str h.command)) := by
  simp [areHooksEqual, Bool.and_eq_true, strictEqStr_iff, and_assoc]

theorem hooksListEqual_iff : ∀ (ths : List Hook) (us : List JVal),
    hooksListEqual ths us = true ↔
      List.Forall₂
        (fun (t : Hook) (u : JVal) =>
          isObjectLike u = true ∧ jProp u "type" = some (.str t.type) ∧
          jProp u "command" = some (.str t.command)) ths us
  | [], [] => by simp [hooksListEqual]
  | _ :: _, [] => by simp [hooksListEqual]
  | [], _ :: _ => by simp [hooksListEqual]
  | t :: ts, u :: us => by
    simp only [hooksListEqual, Bool.and_eq_true, List.forall₂_cons]
    rw [hooksListEqual_iff ts us, areHooksEqual_iff]

theorem areMatchersEqual_iff (tm : HookMatcher) (um : JVal) :
    areMatchersEqual tm um = true ↔ specExactMatch tm um := by
  constructor
  · intro h
    simp only [areMatchersEqual, Bool.and_eq_true] at h
    obtain ⟨⟨hobj, hmat⟩, hrest⟩ := h
    rcases hh : jProp um "hooks" with _ | v
    · rw [hh] at hrest
      simp at hrest
    · rw [hh] at hrest
      cases v <;> simp at hrest
      case arr uhs =>
        exact ⟨hobj, (strictEqStr_iff _ _).mp hmat, uhs, hh,
          (hooksListEqual_iff _ _).mp hrest⟩
  · rintro ⟨hobj, hmat, hs, hh, hf⟩
    simp only [areMatchersEqual, Bool.and_eq_true]
    refine ⟨⟨hobj, (strictEqStr_iff _ _).mpr hmat⟩, ?_⟩
    rw [hh]
    exact (hooksListEqual_iff _ _).mpr hf

theorem idxsWhere_ge (p : JVal → Bool) :
    ∀ (xs : List JVal) (i : Nat), ∀ j ∈ idxsWhere p i xs, i ≤ j := by
  intro xs
  induction xs with
  | nil => intro i j hj; simp [idxsWhere] at hj
  | cons x xs ih =>
    intro i j hj
    by_cases hp : p x
    · simp only [idxsWhere, if_pos hp, List.mem_cons] at hj
      rcases hj with rfl | hj
      · exact le_refl j
      · exact Nat.le_of_succ_le (ih (i + 1) j hj)
    · simp only [idxsWhere, if_neg hp] at hj
      exact Nat.le_of_succ_le (ih (i + 1) j hj)

theorem idxsWhere_mem_add (p : JVal → Bool) :
    ∀ (xs : List JVal) (i j : Nat),
      (i + j) ∈ idxsWhere p i xs ↔ ∃ e, xs.get? j = some e ∧ p e = true := by
  intro xs
  induction xs with
  | nil => intro i j; simp [idxsWhere]
  | cons x xs ih =>
    intro i j
    by_cases hp : p x
    · simp only [idxsWhere, if_pos hp, List.mem_cons]
      cases j with
      | zero => simp [hp]
      | succ j' =>
        have hne : i + (j' + 1) ≠ i := by omega
        have : i + (j' + 1) = (i + 1) + j' := by omega
        rw [this]
        simp only [hne, false_or, ih (i + 1) j', List.get?]
        constructor
        · intro hh
          rcases hh with hh | hh
          · exact absurd hh (by omega)
          · exact hh
        · intro hh
          exact Or.inr hh
    · simp only [idxsWhere, if_neg hp]
      cases j with
      | zero =>
        constructor
        · intro hh
          exact absurd (idxsWhere_ge p xs (i + 1) (i + 0) hh) (by omega)
        · rintro ⟨e, he, hpe⟩
          simp only [Nat.add_zero, List.get?] at he
          obtain rfl := Option.some.inj he
          exact absurd hpe hp
      | succ j' =>
        have : i + (j' + 1) = (i + 1) + j' := by omega
        rw [this, ih (i + 1) j']
        simp [List.get?]

/-- Claim C3 amended: `findMatchersToRemove` selects index `i` iff the
entry at `i` exactly equals some wanted matcher — same matcher string,
an array `hooks` field of the same length, hooks pairwise-equal in order
by `(type, command)` — with extra properties on the entry or its hooks
ignored; malformed entries (non-objects, non-array `hooks`, mismatched
lengths) never match, and the selection is a total function, so no entry
causes an error. -/
theorem c3_amended_exact_selection (W : List HookMatcher) (E : List JVal) (i : Nat) :
    i ∈ findMatchersToRemove W E ↔
      ∃ e, E.get? i = some e ∧ ∃ w ∈ W, specExactMatch w e := by
  rw [findMatchersToRemove]
  have hmem := idxsWhere_mem_add (defMatchPred W) E 0 i
  rw [Nat.zero_add] at hmem
  rw [hmem]
  constructor
  · rintro ⟨e, he, hpe⟩
    simp only [defMatchPred, List.any_eq_true] at hpe
    obtain ⟨w, hw, hmw⟩ := hpe
    exact ⟨e, he, w, hw, (areMatchersEqual_iff w e).mp hmw⟩
  · rintro ⟨e, he, w, hw, hspec⟩
    refine ⟨e, he, ?_⟩
    simp only [defMatchPred, List.any_eq_true]
    exact ⟨w, hw, (areMatchersEqual_iff w e).mpr hspec⟩


/-! ### Association-list lemmas for the jsonc edit model -/

theorem lookup_setF_self (fs : List (String × JVal)) (k : String) (v : JVal) :
    (setF fs k v).lookup k = some v := by
  induction fs with
  | nil => simp [setF, List.lookup]
  | cons p fs ih =>
    obtain ⟨k', v'⟩ := p
    by_cases h : k' = k
    · have hb : (k' == k) = true := beq_iff_eq.mpr h
      simp [setF, hb, List.lookup]
    · have hb : (k' == k) = false := beq_eq_false_iff_ne.mpr h
      have hb2 : (k == k') = false := beq_eq_false_iff_ne.mpr (fun hh => h hh.symm)
      simp only [setF, hb, Bool.false_eq_true, if_false, List.lookup, hb2]
      exact ih

theorem lookup_setF_ne (fs : List (String × JVal)) (k k' : String) (v : JVal)
    (h : k' ≠ k) : (setF fs k v).lookup k' = fs.lookup k' := by
  have hb : (k' == k) = false := beq_eq_false_iff_ne.mpr h
  induction fs with
  | nil => simp [setF, List.lookup, hb]
  | cons p fs ih =>
    obtain ⟨k0, v0⟩ := p
    by_cases h0 : k0 = k
    · have hb0 : (k0 == k) = true := beq_iff_eq.mpr h0
      have hb1 : (k' == k0) = false := beq_eq_false_iff_ne.mpr (h0 ▸ h)
      simp [setF, hb0, List.lookup, hb1, hb]
    · have hb0 : (k0 == k) = false := beq_eq_false_iff_ne.mpr h0
      by_cases h1 : k' = k0
      · have hb1 : (k' == k0) = true := beq_iff_eq.mpr h1
        simp [setF, hb0, List.lookup, hb1]
      · have hb1 : (k' == k0) = false := beq_eq_false_iff_ne.mpr h1
        simp only [setF, hb0, Bool.false_eq_true, if_false, List.lookup, hb1]
        exact ih

theorem keys_setF_of_lookup (fs : List (String × JVal)) (k : String) (v w : JVal)
    (h : fs.lookup k = some w) : (setF fs k v).map Prod.fst = fs.map Prod.fst := by
  induction fs with
  | nil => simp [List.lookup] at h
  | cons p fs ih =>
    obtain ⟨k0, v0⟩ := p
    by_cases h0 : k0 = k
    · have hb0 : (k0 == k) = true := beq_iff_eq.mpr h0
      simp [setF, hb0, h0]
    · have hb0 : (k0 == k) = false := beq_eq_false_iff_ne.mpr h0
      have hb0' : (k == k0) = false := beq_eq_false_iff_ne.mpr (fun hh => h0 hh.symm)
      simp only [List.lookup, hb0'] at h
      simp only [setF, hb0, Bool.false_eq_true, if_false, List.map_cons]
      rw [ih h]

theorem lookup_removeF_ne (fs : List (String × JVal)) (k k' : String)
    (h : k' ≠ k) : (removeF fs k).lookup k' = fs.lookup k' := by
  induction fs with
  | nil => simp [removeF]
  | cons p fs ih =>
    obtain ⟨k0, v0⟩ := p
    by_cases h0 : k0 = k
    · have hb0 : (k0 == k) = true := beq_iff_eq.mpr h0
      have hb1 : (k' == k0) = false := beq_eq_false_iff_ne.mpr (h0 ▸ h)
      simp [removeF, hb0, List.lookup, hb1]
    · have hb0 : (k0 == k) = false := beq_eq_false_iff_ne.mpr h0
      by_cases h1 : k' = k0
      · have hb1 : (k' == k0) = true := beq_iff_eq.mpr h1
        simp [removeF, hb0, List.lookup, hb1]
      · have hb1 : (k' == k0) = false := beq_eq_false_iff_ne.mpr h1
        simp only [removeF, hb0, Bool.false_eq_true, if_false, List.lookup, hb1]
        exact ih

theorem lookup_eq_none_of_not_mem (fs : List (String × JVal)) (k : String)
    (h : k ∉ fs.map Prod.fst) : fs.lookup k = none := by
  induction fs with
  | nil => simp [List.lookup]
  | cons p fs ih =>
    obtain ⟨k0, v0⟩ := p
    simp only [List.map_cons, List.mem_cons, not_or] at h
    have hb : (k == k0) = false := beq_eq_false_iff_ne.mpr h.1
    simp only [List.lookup, hb]
    exact ih h.2

theorem keys_removeF_sublist (fs : List (String × JVal)) (k : String) :
    ((removeF fs k).map Prod.fst).Sublist (fs.map Prod.fst) := by
  induction fs with
  | nil => simp [removeF]
  | cons p fs ih =>
    obtain ⟨k0, v0⟩ := p
    by_cases h0 : k0 = k
    · have hb0 : (k0 == k) = true := beq_iff_eq.mpr h0
      simp only [removeF, hb0, if_true, List.map_cons]
      exact List.sublist_cons_self k0 (fs.map Prod.fst)
    · have hb0 : (k0 == k) = false := beq_eq_false_iff_ne.mpr h0
      simp only [removeF, hb0, Bool.false_eq_true, if_false, List.map_cons]
      exact ih.cons₂ k0

theorem lookup_removeF_self (fs : List (String × JVal)) (k : String)
    (h : (fs.map Prod.fst).Nodup) : (removeF fs k).lookup k = none := by
  induction fs with
  | nil => simp [removeF, List.lookup]
  | cons p fs ih =>
    obtain ⟨k0, v0⟩ := p
    simp only [List.map_cons, List.nodup_cons] at h
    by_cases h0 : k0 = k
    · subst h0
      simp only [removeF, beq_self_eq_true, if_true]
      exact lookup_eq_none_of_not_mem fs k0 h.1
    · have hb0 : (k0 == k) = false := beq_eq_false_iff_ne.mpr h0
      have hb1 : (k == k0) = false := beq_eq_false_iff_ne.mpr (fun hh => h0 hh.symm)
      simp only [removeF, hb0, Bool.false_eq_true, if_false, List.lookup, hb1]
      exact ih h.2


/-! ### Index-scan and element-deletion lemmas -/

theorem idxsWhere_pairwise (p : JVal → Bool) :
    ∀ (xs : List JVal) (i : Nat), List.Pairwise (· < ·) (idxsWhere p i xs) := by
  intro xs
  induction xs with
  | nil => intro i; simp [idxsWhere]
  | cons x xs ih =>
    intro i
    by_cases hp : p x
    · simp only [idxsWhere, if_pos hp]
      refine List.pairwise_cons.mpr ⟨?_, ih (i + 1)⟩
      intro j hj
      exact Nat.lt_of_lt_of_le (Nat.lt_succ_self i) (idxsWhere_ge p xs (i + 1) j hj)
    · simp only [idxsWhere, if_neg hp]
      exact ih (i + 1)

theorem idxsWhere_lt (p : JVal → Bool) :
    ∀ (xs : List JVal) (i : Nat), ∀ j ∈ idxsWhere p i xs, j < i + xs.length := by
  intro xs
  induction xs with
  | nil => intro i j hj; simp [idxsWhere] at hj
  | cons x xs ih =>
    intro i j hj
    by_cases hp : p x
    · simp only [idxsWhere, if_pos hp, List.mem_cons] at hj
      rcases hj with rfl | hj
      · simp
      · have := ih (i + 1) j hj
        simpa [Nat.add_comm, Nat.add_left_comm, Nat.add_assoc] using
          Nat.lt_of_lt_of_le this (by simp [Nat.succ_add]; omega)
    · simp only [idxsWhere, if_neg hp] at hj
      have := ih (i + 1) j hj
      simp only [List.length_cons]
      omega

theorem idxsWhere_length (p : JVal → Bool) :
    ∀ (xs : List JVal) (i : Nat),
      (idxsWhere p i xs).length = (xs.filter p).length := by
  intro xs
  induction xs with
  | nil => intro i; simp [idxsWhere]
  | cons x xs ih =>
    intro i
    by_cases hp : p x
    · simp [idxsWhere, hp, List.filter_cons, ih (i + 1)]
    · simp [idxsWhere, hp, List.filter_cons, ih (i + 1)]

theorem insertDesc_of_lt (i : Nat) :
    ∀ (L : List Nat), (∀ j ∈ L, i < j) → insertDesc i L = L ++ [i] := by
  intro L
  induction L with
  | nil => intro _; simp [insertDesc]
  | cons j L ih =>
    intro h
    have hj : i < j := h j (List.mem_cons_self j L)
    simp only [insertDesc, if_neg (by omega : ¬ j ≤ i), List.cons_append]
    rw [ih fun m hm => h m (List.mem_cons_of_mem j hm)]

theorem sortDesc_of_pairwise_lt :
    ∀ (L : List Nat), List.Pairwise (· < ·) L → sortDesc L = L.reverse := by
  intro L
  induction L with
  | nil => intro _; simp [sortDesc]
  | cons i L ih =>
    intro h
    obtain ⟨hi, hL⟩ := List.pairwise_cons.mp h
    simp only [sortDesc, List.reverse_cons]
    rw [ih hL, insertDesc_of_lt i L.reverse fun j hj => hi j (List.mem_reverse.mp hj)]

theorem insertDesc_ne_nil (i : Nat) (L : List Nat) : insertDesc i L ≠ [] := by
  cases L with
  | nil => simp [insertDesc]
  | cons j L =>
    by_cases h : j ≤ i <;> simp [insertDesc, h]

theorem sortDesc_ne_nil (L : List Nat) (h : L ≠ []) : sortDesc L ≠ [] := by
  cases L with
  | nil => exact absurd rfl h
  | cons i L => exact insertDesc_ne_nil i (sortDesc L)

theorem keepOff_congr (S T : List Nat) :
    ∀ (xs : List JVal) (n : Nat), (∀ m, n ≤ m → (m ∈ S ↔ m ∈ T)) →
      keepOff S n xs = keepOff T n xs := by
  intro xs
  induction xs with
  | nil => intro n _; simp [keepOff]
  | cons x xs ih =>
    intro n h
    have hn := h n (le_refl n)
    by_cases hm : n ∈ S
    · rw [keepOff, keepOff, if_pos hm, if_pos (hn.mp hm)]
      exact ih (n + 1) fun m hm' => h m (Nat.le_of_succ_le hm')
    · rw [keepOff, keepOff, if_neg hm, if_neg (fun hh => hm (hn.mpr hh))]
      rw [ih (n + 1) fun m hm' => h m (Nat.le_of_succ_le hm')]

theorem keepOff_of_all_lt (S : List Nat) :
    ∀ (xs : List JVal) (n : Nat), (∀ j ∈ S, j < n) → keepOff S n xs = xs := by
  intro xs
  induction xs with
  | nil => intro n _; simp [keepOff]
  | cons x xs ih =>
    intro n h
    have hm : n ∉ S := fun hh => absurd (h n hh) (by omega)
    rw [keepOff, if_neg hm, ih (n + 1) fun j hj => Nat.lt_succ_of_lt (h j hj)]

theorem keepOff_filter (p : JVal → Bool) :
    ∀ (xs : List JVal) (n : Nat),
      keepOff (idxsWhere p n xs) n xs = xs.filter fun x => !p x := by
  intro xs
  induction xs with
  | nil => intro n; simp [keepOff]
  | cons x xs ih =>
    intro n
    by_cases hp : p x
    · simp only [idxsWhere, if_pos hp]
      rw [keepOff, if_pos (List.mem_cons_self n _)]
      rw [keepOff_congr (n :: idxsWhere p (n + 1) xs) (idxsWhere p (n + 1) xs) xs (n + 1)
        (by
          intro m hm
          simp only [List.mem_cons]
          constructor
          · intro hh
            rcases hh with rfl | hh
            · omega
            · exact hh
          · intro hh
            exact Or.inr hh)]
      rw [ih (n + 1)]
      simp [List.filter_cons, hp]
    · simp only [idxsWhere, if_neg hp]
      have hnm : n ∉ idxsWhere p (n + 1) xs :=
        fun hh => absurd (idxsWhere_ge p xs (n + 1) n hh) (by omega)
      rw [keepOff, if_neg hnm, ih (n + 1)]
      simp [List.filter_cons, hp]

theorem eraseIdx_keepOff (rest : List Nat) (j : Nat) :
    ∀ (xs : List JVal) (n : Nat), n ≤ j → j - n < xs.length →
      (∀ i ∈ rest, j < i) →
      (keepOff rest n xs).eraseIdx (j - n) = keepOff (j :: rest) n xs := by
  intro xs
  induction xs with
  | nil => intro n _ h2 _; simp at h2
  | cons x xs ih =>
    intro n h1 h2 h3
    have hnrest : n ∉ rest := fun hh => absurd (h3 n hh) (by omega)
    by_cases hnj : n = j
    · subst hnj
      have hz : n - n = 0 := by omega
      rw [keepOff, if_neg hnrest, hz, List.eraseIdx_cons_zero]
      rw [keepOff, if_pos (List.mem_cons_self n rest)]
      exact (keepOff_congr (n :: rest) rest xs (n + 1)
        (by
          intro m hm
          simp only [List.mem_cons]
          constructor
          · intro hh
            rcases hh with rfl | hh
            · omega
            · exact hh
          · intro hh
            exact Or.inr hh)).symm
    · have hlt : n < j := by omega
      have hnotin : n ∉ j :: rest := by
        simp only [List.mem_cons, not_or]
        exact ⟨fun hh => hnj hh, hnrest⟩
      have hsub : j - n = (j - (n + 1)) + 1 := by omega
      rw [keepOff, if_neg hnrest, hsub, List.eraseIdx_cons_succ]
      rw [keepOff, if_neg hnotin]
      rw [ih (n + 1) (by omega) (by simp at h2; omega) h3]

theorem foldl_eraseIdx_keepOff :
    ∀ (S : List Nat) (xs : List JVal), List.Pairwise (· < ·) S →
      (∀ j ∈ S, j < xs.length) →
      S.reverse.foldl (fun a i => a.eraseIdx i) xs = keepOff S 0 xs := by
  intro S
  induction S with
  | nil =>
    intro xs _ _
    rw [List.reverse_nil, List.foldl_nil, keepOff_of_all_lt]
    intro j hj
    simp at hj
  | cons j S' ih =>
    intro xs hpw hbd
    obtain ⟨hj, hS'⟩ := List.pairwise_cons.mp hpw
    rw [List.reverse_cons, List.foldl_append, List.foldl_cons, List.foldl_nil]
    rw [ih xs hS' fun m hm => hbd m (List.mem_cons_of_mem j hm)]
    have := eraseIdx_keepOff S' j xs 0 (Nat.zero_le j)
      (by simpa using hbd j (List.mem_cons_self j S')) hj
    simpa using this


/-! ### The descending deletion fold -/

theorem foldRemove_ok (ev : String) :
    ∀ (D : List Nat), List.Pairwise (· > ·) D →
      ∀ (fs gs : List (String × JVal)) (xs : List JVal),
        fs.lookup "hooks" = some (.obj gs) →
        gs.lookup ev = some (.arr xs) →
        (∀ j ∈ D, j < xs.length) →
        ∃ fs' gs',
          D.foldlM (fun d i => jsoncRemoveAt2Idx d "hooks" ev i) (JVal.obj fs) =
            .ok (.obj fs') ∧
          fs'.map Prod.fst = fs.map Prod.fst ∧
          gs'.map Prod.fst = gs.map Prod.fst ∧
          fs'.lookup "hooks" = some (.obj gs') ∧
          gs'.lookup ev = some (.arr (D.foldl (fun a i => a.eraseIdx i) xs)) ∧
          (∀ k, k ≠ "hooks" → fs'.lookup k = fs.lookup k) ∧
          (∀ e, e ≠ ev → gs'.lookup e = gs.lookup e) := by
  intro D
  induction D with
  | nil =>
    intro _ fs gs xs hfs hgs _
    exact ⟨fs, gs, rfl, rfl, rfl, hfs, by simpa using hgs, fun _ _ => rfl, fun _ _ => rfl⟩
  | cons j D ih =>
    intro hpw fs gs xs hfs hgs hbd
    obtain ⟨hj, hD⟩ := List.pairwise_cons.mp hpw
    have hjlen : j < xs.length := hbd j (List.mem_cons_self j D)
    have hstep : jsoncRemoveAt2Idx (JVal.obj fs) "hooks" ev j =
        .ok (.obj (setF fs "hooks" (.obj (setF gs ev (.arr (xs.eraseIdx j)))))) := by
      simp [jsoncRemoveAt2Idx, hfs, hgs, hjlen]
    have hbd' : ∀ i ∈ D, i < (xs.eraseIdx j).length := by
      intro i hi
      rw [List.length_eraseIdx_of_lt hjlen]
      have := hj i hi
      omega
    obtain ⟨fs', gs', hfold, hkf, hkg, hfs', hgs', hframe, hgframe⟩ :=
      ih hD (setF fs "hooks" (.obj (setF gs ev (.arr (xs.eraseIdx j)))))
        (setF gs ev (.arr (xs.eraseIdx j))) (xs.eraseIdx j)
        (lookup_setF_self fs "hooks" _) (lookup_setF_self gs ev _) hbd'
    refine ⟨fs', gs', ?_, ?_, ?_, hfs', ?_, ?_, ?_⟩
    · rw [List.foldlM_cons, hstep]
      simpa [Bind.bind, Except.bind] using hfold
    · rw [hkf, keys_setF_of_lookup fs "hooks" _ _ hfs]
    · rw [hkg, keys_setF_of_lookup gs ev _ _ hgs]
    · simpa [List.foldl_cons] using hgs'
    · intro k hk
      rw [hframe k hk, lookup_setF_ne fs "hooks" k _ hk]
    · intro e he
      rw [hgframe e he, lookup_setF_ne gs ev e _ he]

theorem applyEdit_spec (ev : String) (S : List Nat) (fs gs : List (String × JVal))
    (xs : List JVal)
    (hfs : fs.lookup "hooks" = some (.obj gs))
    (hgs : gs.lookup ev = some (.arr xs))
    (hpw : List.Pairwise (· < ·) S)
    (hbd : ∀ j ∈ S, j < xs.length) :
    ∃ fs' gs',
      applyEvAction (JVal.obj fs) ev (.edit S) = .ok (.obj fs') ∧
      fs'.map Prod.fst = fs.map Prod.fst ∧
      gs'.map Prod.fst = gs.map Prod.fst ∧
      fs'.lookup "hooks" = some (.obj gs') ∧
      gs'.lookup ev = some (.arr (keepOff S 0 xs)) ∧
      (∀ k, k ≠ "hooks" → fs'.lookup k = fs.lookup k) ∧
      (∀ e, e ≠ ev → gs'.lookup e = gs.lookup e) := by
  have hrev : List.Pairwise (· > ·) S.reverse := by
    rw [List.pairwise_reverse]
    exact hpw
  have hbd' : ∀ j ∈ S.reverse, j < xs.length := fun j hj =>
    hbd j (List.mem_reverse.mp hj)
  obtain ⟨fs', gs', hfold, hkf, hkg, hfs', hgs', hframe, hgframe⟩ :=
    foldRemove_ok ev S.reverse hrev fs gs xs hfs hgs hbd'
  refine ⟨fs', gs', ?_, hkf, hkg, hfs', ?_, hframe, hgframe⟩
  · rw [applyEvAction, sortDesc_of_pairwise_lt S hpw]
    exact hfold
  · rw [hgs', foldl_eraseIdx_keepOff S xs hpw hbd]


/-! ### One event of the shared removal loop, and the definition-variant loop -/

theorem filter_not_of_filter_nil {q : JVal → Bool} {ems : List JVal}
    (h : (ems.filter q).length = 0) : ems.filter (fun x => !q x) = ems := by
  rw [List.length_eq_zero] at h
  rw [List.filter_eq_self]
  intro a ha
  have := List.filter_eq_nil_iff.mp h a ha
  simp [this]

theorem processEvent_spec (ev : String) (q : JVal → Bool)
    (fs gs : List (String × JVal)) (ems : List JVal)
    (hfs : fs.lookup "hooks" = some (.obj gs))
    (hgs : gs.lookup ev = some (.arr ems)) :
    ∃ fs' gs',
      applyEvAction (JVal.obj fs) ev (classifyIdxs (idxsWhere q 0 ems) ems.length) =
        .ok (.obj fs') ∧
      fs'.map Prod.fst = fs.map Prod.fst ∧
      gs'.map Prod.fst = gs.map Prod.fst ∧
      fs'.lookup "hooks" = some (.obj gs') ∧
      gs'.lookup ev =
        some (.arr (if (ems.filter q).length = ems.length then ems
                    else ems.filter fun x => !q x)) ∧
      (∀ k, k ≠ "hooks" → fs'.lookup k = fs.lookup k) ∧
      (∀ e, e ≠ ev → gs'.lookup e = gs.lookup e) := by
  have hlen : (idxsWhere q 0 ems).length = (ems.filter q).length := idxsWhere_length q ems 0
  by_cases hmk : (ems.filter q).length = ems.length
  · have hb : ((idxsWhere q 0 ems).length == ems.length) = true := by
      rw [hlen]
      exact beq_iff_eq.mpr hmk
    refine ⟨fs, gs, ?_, rfl, rfl, hfs, ?_, fun _ _ => rfl, fun _ _ => rfl⟩
    · simp [classifyIdxs, hb, applyEvAction]
    · rw [hgs, if_pos hmk]
  · have hb : ((idxsWhere q 0 ems).length == ems.length) = false := by
      rw [hlen]
      exact beq_eq_false_iff_ne.mpr hmk
    by_cases hpos : 0 < (idxsWhere q 0 ems).length
    · have hact : classifyIdxs (idxsWhere q 0 ems) ems.length = .edit (idxsWhere q 0 ems) := by
        simp [classifyIdxs, hb, hpos]
      rw [hact]
      obtain ⟨fs', gs', happ, hkf, hkg, hfs', hgs', hfr, hgr⟩ :=
        applyEdit_spec ev (idxsWhere q 0 ems) fs gs ems hfs hgs
          (idxsWhere_pairwise q ems 0)
          (fun j hj => by simpa using idxsWhere_lt q ems 0 j hj)
      refine ⟨fs', gs', happ, hkf, hkg, hfs', ?_, hfr, hgr⟩
      rw [hgs', keepOff_filter q ems 0, if_neg hmk]
    · have hact : classifyIdxs (idxsWhere q 0 ems) ems.length = .skip := by
        simp [classifyIdxs, hb, hpos]
      rw [hact]
      refine ⟨fs, gs, by simp [applyEvAction], rfl, rfl, hfs, ?_, fun _ _ => rfl,
        fun _ _ => rfl⟩
      have h0 : (ems.filter q).length = 0 := by
        rw [← hlen]
        omega
      rw [hgs, if_neg hmk, filter_not_of_filter_nil h0]


theorem remDefLoop_spec (origHooks : JVal) :
    ∀ (hd : HooksDef) (fs gs : List (String × JVal)) (cnt : Nat)
      (marked : List String) (out : JVal × Nat × List String),
      (hd.map Prod.fst).Nodup →
      fs.lookup "hooks" = some (.obj gs) →
      (∀ p ∈ hd, gs.lookup p.1 = jProp origHooks p.1) →
      remDefLoop origHooks (JVal.obj fs) cnt marked hd = .ok out →
      ∃ fs' gs',
        out.1 = .obj fs' ∧
        fs'.map Prod.fst = fs.map Prod.fst ∧
        gs'.map Prod.fst = gs.map Prod.fst ∧
        fs'.lookup "hooks" = some (.obj gs') ∧
        (∀ k, k ≠ "hooks" → fs'.lookup k = fs.lookup k) ∧
        (∀ e, e ∉ hd.map Prod.fst → gs'.lookup e = gs.lookup e) ∧
        (∀ p ∈ hd,
          if defEvMarksO p.2 (jProp origHooks p.1) then
            gs'.lookup p.1 = jProp origHooks p.1
          else
            gs'.lookup p.1 = (jProp origHooks p.1).map (defEvKeep p.2)) ∧
        out.2.2 = marked ++ defMarkedEvents origHooks hd := by
  intro hd
  induction hd with
  | nil =>
    intro fs gs cnt marked out _ hfs _ hrun
    simp only [remDefLoop] at hrun
    obtain rfl : (JVal.obj fs, cnt, marked) = out := by
      simpa using hrun
    exact ⟨fs, gs, rfl, rfl, rfl, hfs, fun _ _ => rfl, fun _ _ => rfl, by simp,
      by simp [defMarkedEvents]⟩
  | cons hdp rest ih =>
    obtain ⟨ev, dms⟩ := hdp
    intro fs gs cnt marked out hnd hfs hrel hrun
    simp only [List.map_cons, List.nodup_cons] at hnd
    obtain ⟨hev, hndr⟩ := hnd
    have hrelev : gs.lookup ev = jProp origHooks ev :=
      hrel (ev, dms) (List.mem_cons_self _ _)
    have hrelr : ∀ p ∈ rest, gs.lookup p.1 = jProp origHooks p.1 :=
      fun p hp => hrel p (List.mem_cons_of_mem _ hp)
    rcases hov : jProp origHooks ev with _ | v
    · -- event missing from the original hooks: continue
      have hact : defClassify dms (jProp origHooks ev) = (.skip, 0) := by
        rw [hov]; rfl
      rw [remDefLoop, hact] at hrun
      have hrun2 : (applyEvAction (JVal.obj fs) ev .skip >>= fun wd' =>
          remDefLoop origHooks wd' (cnt + 0) (marked ++ markedOf ev .skip) rest) =
          .ok out := hrun
      have hrun' : remDefLoop origHooks (JVal.obj fs) (cnt + 0)
          (marked ++ markedOf ev .skip) rest = .ok out := by
        simpa [applyEvAction, Bind.bind, Except.bind] using hrun2
      obtain ⟨fs', gs', h1, h2, h3, h4, h5, h6, h7, h8⟩ :=
        ih fs gs (cnt + 0) (marked ++ markedOf ev .skip) out hndr hfs hrelr hrun'
      refine ⟨fs', gs', h1, h2, h3, h4, h5, ?_, ?_, ?_⟩
      · intro e he
        simp only [List.map_cons, List.mem_cons, not_or] at he
        exact h6 e he.2
      · intro p hp
        rcases List.mem_cons.mp hp with rfl | hp
        · simp only [hov, defEvMarksO, Bool.false_eq_true, if_false, Option.map_none']
          rw [h6 ev hev, hrelev, hov]
        · exact h7 p hp
      · rw [h8]
        simp [markedOf, defMarkedEvents, List.filter_cons, defEvMarksO, hov]
    · cases v with
      | arr ems =>
        have hact : defClassify dms (jProp origHooks ev) =
            (classifyIdxs (idxsWhere (defMatchPred dms) 0 ems) ems.length,
              (idxsWhere (defMatchPred dms) 0 ems).length) := by
          rw [hov]; rfl
        rw [remDefLoop, hact] at hrun
        have hgsev : gs.lookup ev = some (.arr ems) := by rw [hrelev, hov]
        obtain ⟨fs1, gs1, happ, hkf1, hkg1, hfs1, hgs1, hfr1, hgr1⟩ :=
          processEvent_spec ev (defMatchPred dms) fs gs ems hfs hgsev
        have hrun2 : (applyEvAction (JVal.obj fs) ev
            (classifyIdxs (idxsWhere (defMatchPred dms) 0 ems) ems.length) >>=
            fun wd' =>
              remDefLoop origHooks wd'
                (cnt + (idxsWhere (defMatchPred dms) 0 ems).length)
                (marked ++ markedOf ev
                  (classifyIdxs (idxsWhere (defMatchPred dms) 0 ems) ems.length))
                rest) = .ok out := hrun
        rw [happ] at hrun2
        have hrun' : remDefLoop origHooks (JVal.obj fs1)
            (cnt + (idxsWhere (defMatchPred dms) 0 ems).length)
            (marked ++ markedOf ev
              (classifyIdxs (idxsWhere (defMatchPred dms) 0 ems) ems.length)) rest =
            .ok out := by
          simpa [Bind.bind, Except.bind] using hrun2
        have hrelr1 : ∀ p ∈ rest, gs1.lookup p.1 = jProp origHooks p.1 := by
          intro p hp
          have hne : p.1 ≠ ev := by
            intro hh
            exact hev (hh ▸ List.mem_map_of_mem Prod.fst hp)
          rw [hgr1 p.1 hne]
          exact hrelr p hp
        obtain ⟨fs', gs', h1, h2, h3, h4, h5, h6, h7, h8⟩ :=
          ih fs1 gs1 _ _ out hndr hfs1 hrelr1 hrun'
        have hmarks : defEvMarksO dms (jProp origHooks ev) =
            ((ems.filter (defMatchPred dms)).length == ems.length) := by
          rw [hov]; rfl
        refine ⟨fs', gs', h1, h2.trans hkf1, h3.trans hkg1, h4, ?_, ?_, ?_, ?_⟩
        · intro k hk
          rw [h5 k hk, hfr1 k hk]
        · intro e he
          simp only [List.map_cons, List.mem_cons, not_or] at he
          rw [h6 e he.2, hgr1 e he.1]
        · intro p hp
          rcases List.mem_cons.mp hp with rfl | hp
          · have hvev : gs'.lookup ev = gs1.lookup ev := h6 ev hev
            by_cases hmk : (ems.filter (defMatchPred dms)).length = ems.length
            · rw [if_pos (by rw [hmarks]; exact beq_iff_eq.mpr hmk)]
              rw [hvev, hgs1, if_pos hmk, hov]
            · rw [if_neg (by rw [hmarks]; simp [hmk])]
              rw [hvev, hgs1, if_neg hmk, hov]
              rfl
          · exact h7 p hp
        · rw [h8]
          have : markedOf ev (classifyIdxs (idxsWhere (defMatchPred dms) 0 ems)
              ems.length) =
              if defEvMarksO dms (jProp origHooks ev) then [ev] else [] := by
            rw [hmarks]
            by_cases hmk : (ems.filter (defMatchPred dms)).length = ems.length
            · have hb : ((idxsWhere (defMatchPred dms) 0 ems).length == ems.length) =
                  true := by
                rw [idxsWhere_length]
                exact beq_iff_eq.mpr hmk
              simp [classifyIdxs, hb, markedOf, beq_iff_eq.mpr hmk]
            · have hb : ((idxsWhere (defMatchPred dms) 0 ems).length == ems.length) =
                  false := by
                rw [idxsWhere_length]
                exact beq_eq_false_iff_ne.mpr hmk
              have hb2 : ((ems.filter (defMatchPred dms)).length == ems.length) =
                  false := beq_eq_false_iff_ne.mpr hmk
              by_cases hpos : 0 < (idxsWhere (defMatchPred dms) 0 ems).length <;>
                simp [classifyIdxs, hb, hpos, markedOf, hb2]
          rw [this]
          simp only [defMarkedEvents, List.filter_cons]
          by_cases hmk : defEvMarksO dms (jProp origHooks ev)
          · simp [hmk, List.map_cons, List.append_assoc]
          · simp [hmk]
      | null =>
        have hact : defClassify dms (jProp origHooks ev) = (.skip, 0) := by
          rw [hov]; rfl
        rw [remDefLoop, hact] at hrun
        have hrun2 : (applyEvAction (JVal.obj fs) ev .skip >>= fun wd' =>
            remDefLoop origHooks wd' (cnt + 0) (marked ++ markedOf ev .skip) rest) =
            .ok out := hrun
        have hrun' : remDefLoop origHooks (JVal.obj fs) (cnt + 0)
            (marked ++ markedOf ev .skip) rest = .ok out := by
          simpa [applyEvAction, Bind.bind, Except.bind] using hrun2
        obtain ⟨fs', gs', h1, h2, h3, h4, h5, h6, h7, h8⟩ :=
          ih fs gs _ _ out hndr hfs hrelr hrun'
        refine ⟨fs', gs', h1, h2, h3, h4, h5, ?_, ?_, ?_⟩
        · intro e he
          simp only [List.map_cons, List.mem_cons, not_or] at he
          exact h6 e he.2
        · intro p hp
          rcases List.mem_cons.mp hp with rfl | hp
          · simp only [hov, defEvMarksO, defEvMarks, Bool.false_eq_true, if_false]
            rw [h6 ev hev, hrelev, hov]
            rfl
          · exact h7 p hp
        · rw [h8]
          simp [markedOf, defMarkedEvents, List.filter_cons, defEvMarksO, defEvMarks, hov]
      | bool bb =>
        have hact : defClassify dms (jProp origHooks ev) = (.skip, 0) := by
          rw [hov]; rfl
        rw [remDefLoop, hact] at hrun
        have hrun2 : (applyEvAction (JVal.obj fs) ev .skip >>= fun wd' =>
            remDefLoop origHooks wd' (cnt + 0) (marked ++ markedOf ev .skip) rest) =
            .ok out := hrun
        have hrun' : remDefLoop origHooks (JVal.obj fs) (cnt + 0)
            (marked ++ markedOf ev .skip) rest = .ok out := by
          simpa [applyEvAction, Bind.bind, Except.bind] using hrun2
        obtain ⟨fs', gs', h1, h2, h3, h4, h5, h6, h7, h8⟩ :=
          ih fs gs _ _ out hndr hfs hrelr hrun'
        refine ⟨fs', gs', h1, h2, h3, h4, h5, ?_, ?_, ?_⟩
        · intro e he
          simp only [List.map_cons, List.mem_cons, not_or] at he
          exact h6 e he.2
        · intro p hp
          rcases List.mem_cons.mp hp with rfl | hp
          · simp only [hov, defEvMarksO, defEvMarks, Bool.false_eq_true, if_false]
            rw [h6 ev hev, hrelev, hov]
            rfl
          · exact h7 p hp
        · rw [h8]
          simp [markedOf, defMarkedEvents, List.filter_cons, defEvMarksO, defEvMarks, hov]
      | num nn =>
        have hact : defClassify dms (jProp origHooks ev) = (.skip, 0) := by
          rw [hov]; rfl
        rw [remDefLoop, hact] at hrun
        have hrun2 : (applyEvAction (JVal.obj fs) ev .skip >>= fun wd' =>
            remDefLoop origHooks wd' (cnt + 0) (marked ++ markedOf ev .skip) rest) =
            .ok out := hrun
        have hrun' : remDefLoop origHooks (JVal.obj fs) (cnt + 0)
            (marked ++ markedOf ev .skip) rest = .ok out := by
          simpa [applyEvAction, Bind.bind, Except.bind] using hrun2
        obtain ⟨fs', gs', h1, h2, h3, h4, h5, h6, h7, h8⟩ :=
          ih fs gs _ _ out hndr hfs hrelr hrun'
        refine ⟨fs', gs', h1, h2, h3, h4, h5, ?_, ?_, ?_⟩
        · intro e he
          simp only [List.map_cons, List.mem_cons, not_or] at he
          exact h6 e he.2
        · intro p hp
          rcases List.mem_cons.mp hp with rfl | hp
          · simp only [hov, defEvMarksO, defEvMarks, Bool.false_eq_true, if_false]
            rw [h6 ev hev, hrelev, hov]
            rfl
          · exact h7 p hp
        · rw [h8]
          simp [markedOf, defMarkedEvents, List.filter_cons, defEvMarksO, defEvMarks, hov]
      | str ss =>
        have hact : defClassify dms (jProp origHooks ev) = (.skip, 0) := by
          rw [hov]; rfl
        rw [remDefLoop, hact] at hrun
        have hrun2 : (applyEvAction (JVal.obj fs) ev .skip >>= fun wd' =>
            remDefLoop origHooks wd' (cnt + 0) (marked ++ markedOf ev .skip) rest) =
            .ok out := hrun
        have hrun' : remDefLoop origHooks (JVal.obj fs) (cnt + 0)
            (marked ++ markedOf ev .skip) rest = .ok out := by
          simpa [applyEvAction, Bind.bind, Except.bind] using hrun2
        obtain ⟨fs', gs', h1, h2, h3, h4, h5, h6, h7, h8⟩ :=
          ih fs gs _ _ out hndr hfs hrelr hrun'
        refine ⟨fs', gs', h1, h2, h3, h4, h5, ?_, ?_, ?_⟩
        · intro e he
          simp only [List.map_cons, List.mem_cons, not_or] at he
          exact h6 e he.2
        · intro p hp
          rcases List.mem_cons.mp hp with rfl | hp
          · simp only [hov, defEvMarksO, defEvMarks, Bool.false_eq_true, if_false]
            rw [h6 ev hev, hrelev, hov]
            rfl
          · exact h7 p hp
        · rw [h8]
          simp [markedOf, defMarkedEvents, List.filter_cons, defEvMarksO, defEvMarks, hov]
      | obj oo =>
        have hact : defClassify dms (jProp origHooks ev) = (.skip, 0) := by
          rw [hov]; rfl
        rw [remDefLoop, hact] at hrun
        have hrun2 : (applyEvAction (JVal.obj fs) ev .skip >>= fun wd' =>
            remDefLoop origHooks wd' (cnt + 0) (marked ++ markedOf ev .skip) rest) =
            .ok out := hrun
        have hrun' : remDefLoop origHooks (JVal.obj fs) (cnt + 0)
            (marked ++ markedOf ev .skip) rest = .ok out := by
          simpa [applyEvAction, Bind.bind, Except.bind] using hrun2
        obtain ⟨fs', gs', h1, h2, h3, h4, h5, h6, h7, h8⟩ :=
          ih fs gs _ _ out hndr hfs hrelr hrun'
        refine ⟨fs', gs', h1, h2, h3, h4, h5, ?_, ?_, ?_⟩
        · intro e he
          simp only [List.map_cons, List.mem_cons, not_or] at he
          exact h6 e he.2
        · intro p hp
          rcases List.mem_cons.mp hp with rfl | hp
          · simp only [hov, defEvMarksO, defEvMarks, Bool.false_eq_true, if_false]
            rw [h6 ev hev, hrelev, hov]
            rfl
          · exact h7 p hp
        · rw [h8]
          simp [markedOf, defMarkedEvents, List.filter_cons, defEvMarksO, defEvMarks, hov]


/-! ### Marked-event deletion and the final empty-hooks check -/

theorem lookup_of_mem_nodup :
    ∀ (gs : List (String × JVal)) (k : String) (v : JVal),
      (gs.map Prod.fst).Nodup → (k, v) ∈ gs → gs.lookup k = some v := by
  intro gs
  induction gs with
  | nil => intro k v _ hm; simp at hm
  | cons p gs ih =>
    intro k v hnd hm
    obtain ⟨k0, v0⟩ := p
    simp only [List.map_cons, List.nodup_cons] at hnd
    rcases List.mem_cons.mp hm with heq | hm2
    · cases heq
      simp [List.lookup]
    · have hne : k ≠ k0 := by
        intro hh
        subst hh
        exact hnd.1 (List.mem_map_of_mem Prod.fst hm2)
      have hb : (k == k0) = false := beq_eq_false_iff_ne.mpr hne
      simp only [List.lookup, hb]
      exact ih k v hnd.2 hm2

theorem nodup_keys_unique {gs : List (String × JVal)} {k : String} {a c : JVal}
    (hnd : (gs.map Prod.fst).Nodup) (ha : (k, a) ∈ gs) (hc : (k, c) ∈ gs) : a = c := by
  have h1 := lookup_of_mem_nodup gs k a hnd ha
  have h2 := lookup_of_mem_nodup gs k c hnd hc
  rw [h1] at h2
  exact Option.some.inj h2

theorem foldl_removeF_spec :
    ∀ (L : List String) (gs : List (String × JVal)), (gs.map Prod.fst).Nodup →
      (∀ e, (L.foldl removeF gs).lookup e =
        if e ∈ L then none else gs.lookup e) ∧
      ((L.foldl removeF gs).map Prod.fst).Sublist (gs.map Prod.fst) := by
  intro L
  induction L with
  | nil => intro gs _; exact ⟨fun e => by simp, List.Sublist.refl _⟩
  | cons k L ih =>
    intro gs hnd
    have hnd1 : ((removeF gs k).map Prod.fst).Nodup :=
      (keys_removeF_sublist gs k).nodup hnd
    obtain ⟨ihl, ihs⟩ := ih (removeF gs k) hnd1
    constructor
    · intro e
      rw [List.foldl_cons, ihl e]
      by_cases he : e ∈ k :: L
      · rcases List.mem_cons.mp he with rfl | heL
        · rw [if_pos he]
          by_cases heL2 : e ∈ L
          · rw [if_pos heL2]
          · rw [if_neg heL2, lookup_removeF_self gs e hnd]
        · rw [if_pos heL, if_pos he]
      · simp only [List.mem_cons, not_or] at he
        rw [if_neg he.2, if_neg (by simp [he.1, he.2]), lookup_removeF_ne gs k e he.1]
    · exact (List.foldl_cons .. ▸ ihs).trans (keys_removeF_sublist gs k)

theorem foldlM_removeField2_spec :
    ∀ (L : List String) (fs gs : List (String × JVal)),
      fs.lookup "hooks" = some (.obj gs) →
      ∃ fs1,
        L.foldlM (fun d ev => jsoncRemoveField2 d "hooks" ev) (JVal.obj fs) =
          .ok (.obj fs1) ∧
        fs1.map Prod.fst = fs.map Prod.fst ∧
        fs1.lookup "hooks" = some (.obj (L.foldl removeF gs)) ∧
        (∀ k, k ≠ "hooks" → fs1.lookup k = fs.lookup k) := by
  intro L
  induction L with
  | nil =>
    intro fs gs hfs
    exact ⟨fs, rfl, rfl, by simpa using hfs, fun _ _ => rfl⟩
  | cons ev L ih =>
    intro fs gs hfs
    have hstep : jsoncRemoveField2 (JVal.obj fs) "hooks" ev =
        .ok (.obj (setF fs "hooks" (.obj (removeF gs ev)))) := by
      simp [jsoncRemoveField2, hfs]
    obtain ⟨fs1, hfold, hk, hl, hf⟩ :=
      ih (setF fs "hooks" (.obj (removeF gs ev))) (removeF gs ev)
        (lookup_setF_self fs "hooks" _)
    refine ⟨fs1, ?_, ?_, ?_, ?_⟩
    · rw [List.foldlM_cons, hstep]
      simpa [Bind.bind, Except.bind] using hfold
    · rw [hk, keys_setF_of_lookup fs "hooks" _ _ hfs]
    · simpa [List.foldl_cons] using hl
    · intro k hk2
      rw [hf k hk2, lookup_setF_ne fs "hooks" k _ hk2]

theorem finishRemoval_obj_spec (fs gs : List (String × JVal)) (marked : List String)
    (hfs : fs.lookup "hooks" = some (.obj gs)) :
    ∃ fs1,
      fs1.map Prod.fst = fs.map Prod.fst ∧
      fs1.lookup "hooks" = some (.obj (marked.foldl removeF gs)) ∧
      (∀ k, k ≠ "hooks" → fs1.lookup k = fs.lookup k) ∧
      ((marked.foldl removeF gs = [] ∧
          finishRemoval (JVal.obj fs) marked = .ok (.obj (removeF fs1 "hooks"))) ∨
        (marked.foldl removeF gs ≠ [] ∧
          finishRemoval (JVal.obj fs) marked = .ok (.obj fs1))) := by
  obtain ⟨fs1, hfold, hk, hl, hf⟩ := foldlM_removeField2_spec marked fs gs hfs
  refine ⟨fs1, hk, hl, hf, ?_⟩
  by_cases hnil : marked.foldl removeF gs = []
  · left
    refine ⟨hnil, ?_⟩
    rw [finishRemoval, hfold]
    have hjp : jProp (JVal.obj fs1) "hooks" = some (.obj (marked.foldl removeF gs)) := hl
    simp [Bind.bind, Except.bind, hjp, hnil, jTruthyV, jTruthy, jKeysCount,
      jsoncRemoveField]
  · right
    refine ⟨hnil, ?_⟩
    rw [finishRemoval, hfold]
    have hjp : jProp (JVal.obj fs1) "hooks" = some (.obj (marked.foldl removeF gs)) := hl
    have hlen : (marked.foldl removeF gs).length ≠ 0 := fun hh =>
      hnil (List.length_eq_zero.mp hh)
    simp [Bind.bind, Except.bind, hjp, jTruthyV, jTruthy, jKeysCount, hlen, pure,
      Except.pure]


/-! ### Runs whose hooks section is not an object -/

theorem markedOf_classifyIdxs (ev : String) (q : JVal → Bool) (ems : List JVal) :
    markedOf ev (classifyIdxs (idxsWhere q 0 ems) ems.length) =
      if (ems.filter q).length = ems.length then [ev] else [] := by
  by_cases hmk : (ems.filter q).length = ems.length
  · have hb : ((idxsWhere q 0 ems).length == ems.length) = true := by
      rw [idxsWhere_length]
      exact beq_iff_eq.mpr hmk
    simp [classifyIdxs, hb, markedOf, hmk]
  · have hb : ((idxsWhere q 0 ems).length == ems.length) = false := by
      rw [idxsWhere_length]
      exact beq_eq_false_iff_ne.mpr hmk
    by_cases hpos : 0 < (idxsWhere q 0 ems).length <;>
      simp [classifyIdxs, hb, hpos, markedOf, hmk]

theorem classifyIdxs_edit_inv (idxs : List Nat) (n : Nat) (S : List Nat)
    (h : classifyIdxs idxs n = .edit S) : S = idxs ∧ 0 < idxs.length := by
  unfold classifyIdxs at h
  by_cases h1 : (idxs.length == n) = true
  · rw [if_pos h1] at h
    exact absurd h (by simp)
  · rw [if_neg h1] at h
    by_cases h2 : 0 < idxs.length
    · rw [if_pos h2] at h
      exact ⟨(EvAction.edit.inj h).symm, h2⟩
    · rw [if_neg h2] at h
      exact absurd h (by simp)

theorem applyEdit_hooks_nonobj (ev : String) (S : List Nat) (fs : List (String × JVal))
    (v : JVal) (hfs : fs.lookup "hooks" = some v) (hnv : ∀ gs, v ≠ .obj gs)
    (hS : S ≠ []) :
    ∀ out, applyEvAction (JVal.obj fs) ev (.edit S) ≠ .ok out := by
  intro out hout
  rw [applyEvAction] at hout
  obtain ⟨j, D, hD⟩ := List.exists_cons_of_ne_nil (sortDesc_ne_nil S hS)
  rw [hD, List.foldlM_cons] at hout
  have hstep : jsoncRemoveAt2Idx (JVal.obj fs) "hooks" ev j = .error .editError := by
    cases v with
    | obj gs => exact absurd rfl (hnv gs)
    | null => simp [jsoncRemoveAt2Idx, hfs]
    | bool b => simp [jsoncRemoveAt2Idx, hfs]
    | num n => simp [jsoncRemoveAt2Idx, hfs]
    | str s => simp [jsoncRemoveAt2Idx, hfs]
    | arr xs => simp [jsoncRemoveAt2Idx, hfs]
  rw [hstep] at hout
  simp [Bind.bind, Except.bind] at hout

theorem remDefLoop_hooks_nonobj (origHooks : JVal) :
    ∀ (hd : HooksDef) (fs : List (String × JVal)) (v : JVal) (cnt : Nat)
      (marked : List String) (out : JVal × Nat × List String),
      fs.lookup "hooks" = some v →
      (∀ gs, v ≠ .obj gs) →
      remDefLoop origHooks (JVal.obj fs) cnt marked hd = .ok out →
      out.1 = .obj fs ∧ out.2.2 = marked ++ defMarkedEvents origHooks hd := by
  intro hd
  induction hd with
  | nil =>
    intro fs v cnt marked out _ _ hrun
    simp only [remDefLoop] at hrun
    obtain rfl : (JVal.obj fs, cnt, marked) = out := by simpa using hrun
    exact ⟨rfl, by simp [defMarkedEvents]⟩
  | cons hdp rest ih =>
    obtain ⟨ev, dms⟩ := hdp
    intro fs v cnt marked out hfs hnv hrun
    rcases hov : jProp origHooks ev with _ | w
    · have hact : defClassify dms (jProp origHooks ev) = (.skip, 0) := by
        rw [hov]; rfl
      rw [remDefLoop, hact] at hrun
      have hrun2 : (applyEvAction (JVal.obj fs) ev .skip >>= fun wd' =>
          remDefLoop origHooks wd' (cnt + 0) (marked ++ markedOf ev .skip) rest) =
          .ok out := hrun
      have hrun' : remDefLoop origHooks (JVal.obj fs) (cnt + 0)
          (marked ++ markedOf ev .skip) rest = .ok out := by
        simpa [applyEvAction, Bind.bind, Except.bind] using hrun2
      obtain ⟨h1, h2⟩ := ih fs v _ _ out hfs hnv hrun'
      refine ⟨h1, ?_⟩
      rw [h2]
      simp [markedOf, defMarkedEvents, List.filter_cons, defEvMarksO, hov]
    · cases w with
      | arr ems =>
        have hact : defClassify dms (jProp origHooks ev) =
            (classifyIdxs (idxsWhere (defMatchPred dms) 0 ems) ems.length,
              (idxsWhere (defMatchPred dms) 0 ems).length) := by
          rw [hov]; rfl
        rw [remDefLoop, hact] at hrun
        have hrun2 : (applyEvAction (JVal.obj fs) ev
            (classifyIdxs (idxsWhere (defMatchPred dms) 0 ems) ems.length) >>=
            fun wd' =>
              remDefLoop origHooks wd'
                (cnt + (idxsWhere (defMatchPred dms) 0 ems).length)
                (marked ++ markedOf ev
                  (classifyIdxs (idxsWhere (defMatchPred dms) 0 ems) ems.length))
                rest) = .ok out := hrun
        have hskip : applyEvAction (JVal.obj fs) ev
            (classifyIdxs (idxsWhere (defMatchPred dms) 0 ems) ems.length) =
            .ok (JVal.obj fs) := by
          rcases hcl : classifyIdxs (idxsWhere (defMatchPred dms) 0 ems) ems.length with
            _ | _ | S
          · rfl
          · rfl
          · exfalso
            obtain ⟨hSeq, hpos⟩ := classifyIdxs_edit_inv _ _ _ hcl
            have hSne : S ≠ [] := by
              subst hSeq
              exact List.ne_nil_of_length_pos hpos
            rcases hres : applyEvAction (JVal.obj fs) ev (.edit S) with e | o
            · rw [hcl] at hrun2
              rw [hres] at hrun2
              simp [Bind.bind, Except.bind] at hrun2
            · exact applyEdit_hooks_nonobj ev S fs v hfs hnv hSne o hres
        rw [hskip] at hrun2
        have hrun' : remDefLoop origHooks (JVal.obj fs)
            (cnt + (idxsWhere (defMatchPred dms) 0 ems).length)
            (marked ++ markedOf ev
              (classifyIdxs (idxsWhere (defMatchPred dms) 0 ems) ems.length)) rest =
            .ok out := by
          simpa [Bind.bind, Except.bind] using hrun2
        obtain ⟨h1, h2⟩ := ih fs v _ _ out hfs hnv hrun'
        refine ⟨h1, ?_⟩
        rw [h2, markedOf_classifyIdxs]
        simp only [defMarkedEvents, List.filter_cons, defEvMarksO, hov, defEvMarks]
        by_cases hmk : (ems.filter (defMatchPred dms)).length = ems.length
        · simp [hmk, List.append_assoc]
        · have hb2 : ((ems.filter (defMatchPred dms)).length == ems.length) = false :=
            beq_eq_false_iff_ne.mpr hmk
          simp [hmk, hb2]
      | null =>
        have hact : defClassify dms (jProp origHooks ev) = (.skip, 0) := by
          rw [hov]; rfl
        rw [remDefLoop, hact] at hrun
        have hrun2 : (applyEvAction (JVal.obj fs) ev .skip >>= fun wd' =>
            remDefLoop origHooks wd' (cnt + 0) (marked ++ markedOf ev .skip) rest) =
            .ok out := hrun
        have hrun' : remDefLoop origHooks (JVal.obj fs) (cnt + 0)
            (marked ++ markedOf ev .skip) rest = .ok out := by
          simpa [applyEvAction, Bind.bind, Except.bind] using hrun2
        obtain ⟨h1, h2⟩ := ih fs v _ _ out hfs hnv hrun'
        refine ⟨h1, ?_⟩
        rw [h2]
        simp [markedOf, defMarkedEvents, List.filter_cons, defEvMarksO, defEvMarks, hov]
      | bool bb =>
        have hact : defClassify dms (jProp origHooks ev) = (.skip, 0) := by
          rw [hov]; rfl
        rw [remDefLoop, hact] at hrun
        have hrun2 : (applyEvAction (JVal.obj fs) ev .skip >>= fun wd' =>
            remDefLoop origHooks wd' (cnt + 0) (marked ++ markedOf ev .skip) rest) =
            .ok out := hrun
        have hrun' : remDefLoop origHooks (JVal.obj fs) (cnt + 0)
            (marked ++ markedOf ev .skip) rest = .ok out := by
          simpa [applyEvAction, Bind.bind, Except.bind] using hrun2
        obtain ⟨h1, h2⟩ := ih fs v _ _ out hfs hnv hrun'
        refine ⟨h1, ?_⟩
        rw [h2]
        simp [markedOf, defMarkedEvents, List.filter_cons, defEvMarksO, defEvMarks, hov]
      | num nn =>
        have hact : defClassify dms (jProp origHooks ev) = (.skip, 0) := by
          rw [hov]; rfl
        rw [remDefLoop, hact] at hrun
        have hrun2 : (applyEvAction (JVal.obj fs) ev .skip >>= fun wd' =>
            remDefLoop origHooks wd' (cnt + 0) (marked ++ markedOf ev .skip) rest) =
            .ok out := hrun
        have hrun' : remDefLoop origHooks (JVal.obj fs) (cnt + 0)
            (marked ++ markedOf ev .skip) rest = .ok out := by
          simpa [applyEvAction, Bind.bind, Except.bind] using hrun2
        obtain ⟨h1, h2⟩ := ih fs v _ _ out hfs hnv hrun'
        refine ⟨h1, ?_⟩
        rw [h2]
        simp [markedOf, defMarkedEvents, List.filter_cons, defEvMarksO, defEvMarks, hov]
      | str ss =>
        have hact : defClassify dms (jProp origHooks ev) = (.skip, 0) := by
          rw [hov]; rfl
        rw [remDefLoop, hact] at hrun
        have hrun2 : (applyEvAction (JVal.obj fs) ev .skip >>= fun wd' =>
            remDefLoop origHooks wd' (cnt + 0) (marked ++ markedOf ev .skip) rest) =
            .ok out := hrun
        have hrun' : remDefLoop origHooks (JVal.obj fs) (cnt + 0)
            (marked ++ markedOf ev .skip) rest = .ok out := by
          simpa [applyEvAction, Bind.bind, Except.bind] using hrun2
        obtain ⟨h1, h2⟩ := ih fs v _ _ out hfs hnv hrun'
        refine ⟨h1, ?_⟩
        rw [h2]
        simp [markedOf, defMarkedEvents, List.filter_cons, defEvMarksO, defEvMarks, hov]
      | obj oo =>
        have hact : defClassify dms (jProp origHooks ev) = (.skip, 0) := by
          rw [hov]; rfl
        rw [remDefLoop, hact] at hrun
        have hrun2 : (applyEvAction (JVal.obj fs) ev .skip >>= fun wd' =>
            remDefLoop origHooks wd' (cnt + 0) (marked ++ markedOf ev .skip) rest) =
            .ok out := hrun
        have hrun' : remDefLoop origHooks (JVal.obj fs) (cnt + 0)
            (marked ++ markedOf ev .skip) rest = .ok out := by
          simpa [applyEvAction, Bind.bind, Except.bind] using hrun2
        obtain ⟨h1, h2⟩ := ih fs v _ _ out hfs hnv hrun'
        refine ⟨h1, ?_⟩
        rw [h2]
        simp [markedOf, defMarkedEvents, List.filter_cons, defEvMarksO, defEvMarks, hov]

theorem finishRemoval_hooks_nonobj (fs : List (String × JVal)) (v : JVal)
    (marked : List String) (out : JVal)
    (hfs : fs.lookup "hooks" = some v) (hnv : ∀ gs, v ≠ .obj gs)
    (hrun : finishRemoval (JVal.obj fs) marked = .ok out) :
    marked = [] ∧
      ((jTruthy v = true ∧ jKeysCount v = 0 ∧ out = .obj (removeF fs "hooks")) ∨
        (¬(jTruthy v = true ∧ jKeysCount v = 0) ∧ out = .obj fs)) := by
  have hmarked : marked = [] := by
    cases marked with
    | nil => rfl
    | cons ev L =>
      exfalso
      rw [finishRemoval] at hrun
      have hstep : jsoncRemoveField2 (JVal.obj fs) "hooks" ev = .error .editError := by
        cases v with
        | obj gs => exact absurd rfl (hnv gs)
        | null => simp [jsoncRemoveField2, hfs]
        | bool b => simp [jsoncRemoveField2, hfs]
        | num n => simp [jsoncRemoveField2, hfs]
        | str s => simp [jsoncRemoveField2, hfs]
        | arr xs => simp [jsoncRemoveField2, hfs]
      rw [List.foldlM_cons, hstep] at hrun
      simp [Bind.bind, Except.bind] at hrun
  subst hmarked
  refine ⟨rfl, ?_⟩
  rw [finishRemoval] at hrun
  have hjp : jProp (JVal.obj fs) "hooks" = some v := hfs
  by_cases hc : jTruthy v = true ∧ jKeysCount v = 0
  · left
    refine ⟨hc.1, hc.2, ?_⟩
    have hb : (jKeysCount v == 0) = true := beq_iff_eq.mpr hc.2
    simp [pure, Except.pure, Bind.bind, Except.bind, hjp, jTruthyV, hc.1, hb,
      jsoncRemoveField] at hrun
    exact hrun.symm
  · right
    refine ⟨hc, ?_⟩
    rcases hb : jTruthy v with _ | _
    · simp [pure, Except.pure, Bind.bind, Except.bind, hjp, jTruthyV, hb] at hrun
      exact hrun.symm
    · have hk : jKeysCount v ≠ 0 := fun hh => hc ⟨hb, hh⟩
      have hkb : (jKeysCount v == 0) = false := beq_eq_false_iff_ne.mpr hk
      simp [pure, Except.pure, Bind.bind, Except.bind, hjp, jTruthyV, hb, hkb] at hrun
      exact hrun.symm



/-! ### Assembling the removal operations: the definition variant -/
theorem jProp_some_obj {doc : JVal} {k : String} {v : JVal}
    (hk : isCanonicalIndex k = false) (h : jProp doc k = some v) :
    ∃ fs, doc = .obj fs ∧ fs.lookup k = some v := by
  cases doc with
  | obj fs => exact ⟨fs, rfl, h⟩
  | arr xs => simp [jProp, hk] at h
  | null => simp [jProp] at h
  | bool b => simp [jProp] at h
  | num n => simp [jProp] at h
  | str s => simp [jProp] at h

theorem removeDef_unfold_truthy (fs : List (String × JVal)) (v : JVal) (hd : HooksDef)
    (hfs : fs.lookup "hooks" = some v) (htr : jTruthy v = true) :
    removeHooksWithDefinitionJ (some (.obj fs)) hd =
      (remDefLoop v (JVal.obj fs) 0 [] hd >>= fun x =>
        match x with
        | (wd, cnt, marked) =>
          finishRemoval wd marked >>= fun wd2 => Except.ok (wd2, cnt)) := by
  show (match jProp (JVal.obj fs) "hooks" with
    | none => Except.ok (JVal.obj fs, 0)
    | some hooksVal =>
      if jTruthy hooksVal then do
        let (wd, cnt, marked) ← remDefLoop hooksVal (JVal.obj fs) 0 [] hd
        let wd ← finishRemoval wd marked
        Except.ok (wd, cnt)
      else Except.ok (JVal.obj fs, 0)) = _
  rw [show jProp (JVal.obj fs) "hooks" = some v from hfs]
  simp only [htr, if_true]



theorem filter_length_of_filter_not_nil {q : JVal → Bool} {ems : List JVal}
    (h : ems.filter (fun x => !q x) = []) : (ems.filter q).length = ems.length := by
  have hall : ∀ a ∈ ems, q a = true := by
    intro a ha
    have := List.filter_eq_nil_iff.mp h a ha
    simpa using this
  rw [List.filter_eq_self.mpr hall]

theorem mem_defMarkedEvents {origHooks : JVal} {hd : HooksDef}
    {p : String × List HookMatcher} (hp : p ∈ hd)
    (hmk : defEvMarksO p.2 (jProp origHooks p.1) = true) :
    p.1 ∈ defMarkedEvents origHooks hd :=
  List.mem_map_of_mem Prod.fst (List.mem_filter.mpr ⟨hp, hmk⟩)

theorem defMarkedEvents_nil {origHooks : JVal} {hd : HooksDef}
    (h : defMarkedEvents origHooks hd = []) :
    ∀ p ∈ hd, defEvMarksO p.2 (jProp origHooks p.1) = false := by
  intro p hp
  by_contra hne
  have hmk : defEvMarksO p.2 (jProp origHooks p.1) = true := by
    revert hne
    cases defEvMarksO p.2 (jProp origHooks p.1) <;> simp
  have := mem_defMarkedEvents hp hmk
  rw [h] at this
  simp at this

theorem removeDef_eq_of_hooks_none (doc : JVal) (hd : HooksDef)
    (hnn : doc ≠ .null) (h : jProp doc "hooks" = none) :
    removeHooksWithDefinitionJ (some doc) hd = .ok (doc, 0) := by
  cases doc with
  | null => exact absurd rfl hnn
  | obj fs => simp [removeHooksWithDefinitionJ, h]
  | arr xs => simp [removeHooksWithDefinitionJ, h]
  | num n => simp [removeHooksWithDefinitionJ, h]
  | str s => simp [removeHooksWithDefinitionJ, h]
  | bool b => simp [removeHooksWithDefinitionJ, h]

theorem removeDef_eq_of_hooks_falsy (doc v : JVal) (hd : HooksDef)
    (hnn : doc ≠ .null) (h : jProp doc "hooks" = some v) (hf : jTruthy v = false) :
    removeHooksWithDefinitionJ (some doc) hd = .ok (doc, 0) := by
  cases doc with
  | null => exact absurd rfl hnn
  | obj fs => simp [removeHooksWithDefinitionJ, h, hf]
  | arr xs => simp [removeHooksWithDefinitionJ, h, hf]
  | num n => simp [removeHooksWithDefinitionJ, h, hf]
  | str s => simp [removeHooksWithDefinitionJ, h, hf]
  | bool b => simp [removeHooksWithDefinitionJ, h, hf]



theorem removeDef_conclusions_nonobj
    (fs : List (String × JVal)) (v wd : JVal) (cnt : Nat) (marked : List String)
    (wd2 : JVal) (hd : HooksDef)
    (hnfs : (fs.map Prod.fst).Nodup)
    (hfs : fs.lookup "hooks" = some v) (hnv : ∀ gs, v ≠ .obj gs)
    (hloop : remDefLoop v (JVal.obj fs) 0 [] hd = .ok (wd, cnt, marked))
    (hfin : finishRemoval wd marked = .ok wd2) :
    (∀ ev ∈ hd.map Prod.fst, eventValue wd2 ev ≠ some (.arr [])) ∧
    jProp wd2 "hooks" ≠ some (.obj []) := by
  obtain ⟨hwd, hmk⟩ :=
    remDefLoop_hooks_nonobj v hd fs v 0 [] (wd, cnt, marked) hfs hnv hloop
  have hwd' : wd = .obj fs := hwd
  subst hwd'
  have hmk' : marked = defMarkedEvents v hd := by simpa using hmk
  obtain ⟨hmnil, hdisj⟩ := finishRemoval_hooks_nonobj fs v marked wd2 hfs hnv hfin
  rcases hdisj with ⟨_, _, hw2⟩ | ⟨_, hw2⟩
  · subst hw2
    have hnone := lookup_removeF_self fs "hooks" hnfs
    constructor
    · intro ev _ hc
      simp [eventValue, jProp, hnone] at hc
    · simp [jProp, hnone]
  · subst hw2
    have hdm : defMarkedEvents v hd = [] := by rw [← hmk']; exact hmnil
    constructor
    · intro ev hev hc
      obtain ⟨p, hp, rfl⟩ := List.mem_map.mp hev
      have hc2 : jProp v p.1 = some (.arr []) := by
        simpa [eventValue, jProp, hfs] using hc
      have hmkf := defMarkedEvents_nil hdm p hp
      rw [hc2] at hmkf
      simp [defEvMarksO, defEvMarks] at hmkf
    · intro hc
      rw [show jProp (JVal.obj fs) "hooks" = some v from hfs] at hc
      exact hnv [] (Option.some.inj hc)



theorem removeDef_conclusions_obj
    (fs gs : List (String × JVal)) (wd : JVal) (cnt : Nat) (marked : List String)
    (wd2 : JVal) (hd : HooksDef)
    (hnfs : (fs.map Prod.fst).Nodup) (hngs : (gs.map Prod.fst).Nodup)
    (hnh : (hd.map Prod.fst).Nodup)
    (hfs : fs.lookup "hooks" = some (.obj gs))
    (hloop : remDefLoop (JVal.obj gs) (JVal.obj fs) 0 [] hd = .ok (wd, cnt, marked))
    (hfin : finishRemoval wd marked = .ok wd2) :
    (∀ ev ∈ hd.map Prod.fst, eventValue wd2 ev ≠ some (.arr [])) ∧
    jProp wd2 "hooks" ≠ some (.obj []) := by
  obtain ⟨fs', gs', hwd, hkf, hkg, hfs', _hframe, _hout, hper, hmarked⟩ :=
    remDefLoop_spec (JVal.obj gs) hd fs gs 0 [] (wd, cnt, marked) hnh hfs
      (fun p _ => rfl) hloop
  have hwd' : wd = .obj fs' := hwd
  subst hwd'
  have hmarked' : marked = defMarkedEvents (JVal.obj gs) hd := by simpa using hmarked
  obtain ⟨fs1, hk1, hl1, _hf1, hdisj⟩ := finishRemoval_obj_spec fs' gs' marked hfs'
  have hnfs' : (fs'.map Prod.fst).Nodup := by rw [hkf]; exact hnfs
  have hngs' : (gs'.map Prod.fst).Nodup := by rw [hkg]; exact hngs
  have hnfs1 : (fs1.map Prod.fst).Nodup := by rw [hk1]; exact hnfs'
  obtain ⟨hGlookup, _⟩ := foldl_removeF_spec marked gs' hngs'
  rcases hdisj with ⟨_hGnil, hfeq⟩ | ⟨hGne, hfeq⟩
  · have hw2 : wd2 = .obj (removeF fs1 "hooks") := Except.ok.inj (hfin.symm.trans hfeq)
    subst hw2
    have hnone := lookup_removeF_self fs1 "hooks" hnfs1
    constructor
    · intro ev _ hc
      simp [eventValue, jProp, hnone] at hc
    · simp [jProp, hnone]
  · have hw2 : wd2 = .obj fs1 := Except.ok.inj (hfin.symm.trans hfeq)
    subst hw2
    constructor
    · intro ev hev hc
      obtain ⟨p, hp, rfl⟩ := List.mem_map.mp hev
      have hc2 : (marked.foldl removeF gs').lookup p.1 = some (.arr []) := by
        simpa [eventValue, jProp, hl1] using hc
      rw [hGlookup p.1] at hc2
      by_cases hevm : p.1 ∈ marked
      · simp [hevm] at hc2
      · simp only [hevm, if_false] at hc2
        have hper2 := hper p hp
        by_cases hmk : defEvMarksO p.2 (jProp (JVal.obj gs) p.1) = true
        · exact hevm (hmarked' ▸ mem_defMarkedEvents hp hmk)
        · have hmkf : defEvMarksO p.2 (jProp (JVal.obj gs) p.1) = false := by
            revert hmk
            cases defEvMarksO p.2 (jProp (JVal.obj gs) p.1) <;> simp
          simp only [hmkf, Bool.false_eq_true, if_false] at hper2
          rw [hper2] at hc2
          rcases hu : jProp (JVal.obj gs) p.1 with _ | u
          · rw [hu] at hc2; simp at hc2
          · rw [hu] at hc2
            have hk2 : defEvKeep p.2 u = .arr [] := by simpa using hc2
            rcases u with _ | b | n | s | xs2 | gs2
            · simp [defEvKeep] at hk2
            · simp [defEvKeep] at hk2
            · simp [defEvKeep] at hk2
            · simp [defEvKeep] at hk2
            · have hfn : (xs2.filter fun e => !defMatchPred p.2 e) = [] := by
                simpa [defEvKeep] using hk2
              have hlen := filter_length_of_filter_not_nil hfn
              have hmm : defEvMarksO p.2 (jProp (JVal.obj gs) p.1) = true := by
                rw [hu]; simp [defEvMarksO, defEvMarks, hlen]
              exact hmk hmm
            · simp [defEvKeep] at hk2
    · intro hc
      rw [show jProp (JVal.obj fs1) "hooks" =
        some (.obj (marked.foldl removeF gs')) from hl1] at hc
      exact hGne (JVal.obj.inj (Option.some.inj hc))



theorem hooks_not_canonical : isCanonicalIndex "hooks" = false := by
  have h : "hooks".all Char.isDigit = false := by rw [String.all_eq]; decide
  simp [isCanonicalIndex, h]

theorem removeDef_no_empty_remnants
    (parsed : JsVal) (hd : HooksDef) (out : JVal × Nat)
    (hnf : ∀ fs, parsed = some (.obj fs) → (fs.map Prod.fst).Nodup)
    (hng : ∀ fs gs, parsed = some (.obj fs) → fs.lookup "hooks" = some (.obj gs) →
      (gs.map Prod.fst).Nodup)
    (hnh : (hd.map Prod.fst).Nodup)
    (hrun : removeHooksWithDefinitionJ parsed hd = .ok out) :
    (∀ ev ∈ hd.map Prod.fst, eventValue out.1 ev ≠ some (.arr [])) ∧
    jProp out.1 "hooks" ≠ some (.obj []) := by
  rcases parsed with _ | doc
  · exact absurd (show (Except.error JsErr.typeError : Except JsErr (JVal × Nat))
      = .ok out from hrun) (by simp)
  by_cases hnull : doc = .null
  · subst hnull
    exact absurd (show (Except.error JsErr.typeError : Except JsErr (JVal × Nat))
      = .ok out from hrun) (by simp)
  rcases hh : jProp doc "hooks" with _ | v
  · rw [removeDef_eq_of_hooks_none doc hd hnull hh] at hrun
    obtain rfl : out = (doc, 0) := (Except.ok.inj hrun).symm
    constructor
    · intro ev _ hc
      simp [eventValue, hh] at hc
    · rw [show jProp (doc, 0).1 "hooks" = none from hh]
      simp
  by_cases htr : jTruthy v = true
  case neg =>
    have hf : jTruthy v = false := by revert htr; cases jTruthy v <;> simp
    rw [removeDef_eq_of_hooks_falsy doc v hd hnull hh hf] at hrun
    obtain rfl : out = (doc, 0) := (Except.ok.inj hrun).symm
    constructor
    · intro ev _ hc
      have hc2 : (match jProp doc "hooks" with
        | some h => jProp h ev
        | none => none) = some (JVal.arr []) := hc
      rw [hh] at hc2
      rcases v with _ | b | n | s | xs | gs2
      · simp [jProp] at hc2
      · simp [jProp] at hc2
      · simp [jProp] at hc2
      · simp [jProp] at hc2
      · simp [jTruthy] at hf
      · simp [jTruthy] at hf
    · intro hc
      rw [show jProp (doc, 0).1 "hooks" = some v from hh] at hc
      obtain rfl := Option.some.inj hc
      simp [jTruthy] at hf
  case pos =>
    obtain ⟨fs, rfl, hfs⟩ := jProp_some_obj hooks_not_canonical hh
    rw [removeDef_unfold_truthy fs v hd hfs htr] at hrun
    rcases hloop : remDefLoop v (JVal.obj fs) 0 [] hd with e | lout
    · rw [hloop] at hrun
      exact absurd hrun (by simp [Bind.bind, Except.bind])
    obtain ⟨wd, cnt, marked⟩ := lout
    rw [hloop] at hrun
    have hrun2 : (finishRemoval wd marked >>= fun wd2 => Except.ok (wd2, cnt))
        = .ok out := by
      simpa [Bind.bind, Except.bind] using hrun
    rcases hfin : finishRemoval wd marked with e | wd2
    · rw [hfin] at hrun2
      exact absurd hrun2 (by simp [Bind.bind, Except.bind])
    rw [hfin] at hrun2
    obtain rfl : out = (wd2, cnt) := by
      have h3 := hrun2
      simp [Bind.bind, Except.bind] at h3
      exact h3.symm
    have hnfs : (fs.map Prod.fst).Nodup := hnf fs rfl
    rcases v with _ | b | n | s | xs | gs
    · simp [jTruthy] at htr
    · exact removeDef_conclusions_nonobj fs (.bool b) wd cnt marked wd2 hd hnfs hfs
        (fun gs h => JVal.noConfusion h) hloop hfin
    · exact removeDef_conclusions_nonobj fs (.num n) wd cnt marked wd2 hd hnfs hfs
        (fun gs h => JVal.noConfusion h) hloop hfin
    · exact removeDef_conclusions_nonobj fs (.str s) wd cnt marked wd2 hd hnfs hfs
        (fun gs h => JVal.noConfusion h) hloop hfin
    · exact removeDef_conclusions_nonobj fs (.arr xs) wd cnt marked wd2 hd hnfs hfs
        (fun gs h => JVal.noConfusion h) hloop hfin
    · exact removeDef_conclusions_obj fs gs wd cnt marked wd2 hd hnfs
        (hng fs gs rfl hfs) hnh hfs hloop hfin


/-! ### Assembling the removal operations: the binary variant; claims C4 and C10 -/
theorem jsIncludes_ok (c : JVal) (b : String) (r : Bool)
    (h : jsIncludes c b = .ok r) : r = includesSem c b := by
  cases c with
  | str s => exact (Except.ok.inj h).symm
  | arr xs => exact (Except.ok.inj h).symm
  | null => exact absurd h (by simp [jsIncludes])
  | bool bb => exact absurd h (by simp [jsIncludes])
  | num n => exact absurd h (by simp [jsIncludes])
  | obj fs => exact absurd h (by simp [jsIncludes])

theorem hookHasBinary_ok (b : String) (h : JVal) (r : Bool)
    (hr : hookHasBinary b h = .ok r) : r = specHookSel b h := by
  by_cases hnull : h = .null
  · subst hnull
    exact absurd hr (by simp [hookHasBinary, jsGetProp, Bind.bind, Except.bind])
  have hget : jsGetProp (some h) "command" = .ok (jProp h "command") := by
    cases h with
    | null => exact absurd rfl hnull
    | bool bb => rfl
    | num n => rfl
    | str s => rfl
    | arr xs => rfl
    | obj fs => rfl
  have hr2 : (match jProp h "command" with
      | some c => if jTruthy c then jsIncludes c b else pure false
      | none => (pure false : Except JsErr Bool)) = .ok r := by
    have hr3 : (jsGetProp (some h) "command" >>= fun cmd =>
        match cmd with
        | some c => if jTruthy c then jsIncludes c b else pure false
        | none => pure false) = .ok r := hr
    rw [hget] at hr3
    simpa [Bind.bind, Except.bind] using hr3
  rcases hcmd : jProp h "command" with _ | c
  · rw [hcmd] at hr2
    have hr4 : (pure false : Except JsErr Bool) = .ok r := hr2
    have : r = false := by
      simpa [pure, Except.pure] using (Except.ok.inj hr4).symm
    subst this
    simp [specHookSel, hcmd]
  · rw [hcmd] at hr2
    have hr4 : (if jTruthy c = true then jsIncludes c b else pure false) = .ok r := hr2
    by_cases htr : jTruthy c = true
    · rw [if_pos htr] at hr4
      rw [jsIncludes_ok c b r hr4]
      simp [specHookSel, hcmd, htr]
    · have hf : jTruthy c = false := by revert htr; cases jTruthy c <;> simp
      rw [if_neg htr] at hr4
      have : r = false := by
        simpa [pure, Except.pure] using (Except.ok.inj hr4).symm
      subst this
      simp [specHookSel, hcmd, hf]

theorem jsSomeHasBinary_ok (b : String) :
    ∀ (hs : List JVal) (r : Bool), jsSomeHasBinary b hs = .ok r →
      r = hs.any (specHookSel b) := by
  intro hs
  induction hs with
  | nil =>
    intro r hr
    have : r = false := by
      simpa [jsSomeHasBinary, pure, Except.pure] using (Except.ok.inj hr).symm
    subst this
    simp
  | cons h hs ih =>
    intro r hr
    have hr2 : (hookHasBinary b h >>= fun x =>
        if x then pure true else jsSomeHasBinary b hs) = .ok r := hr
    rcases hhb : hookHasBinary b h with e | x
    · rw [hhb] at hr2
      exact absurd hr2 (by simp [Bind.bind, Except.bind])
    rw [hhb] at hr2
    have hx := hookHasBinary_ok b h x hhb
    cases x with
    | true =>
      have hok : (Except.ok true : Except JsErr Bool) = .ok r := by
        simpa [Bind.bind, Except.bind, pure, Except.pure] using hr2
      obtain rfl : r = true := (Except.ok.inj hok).symm
      simp [List.any_cons, ← hx]
    | false =>
      have hr3 : jsSomeHasBinary b hs = .ok r := by
        simpa [Bind.bind, Except.bind] using hr2
      rw [ih r hr3]
      simp [List.any_cons, ← hx]



theorem matcherHasBinary_ok (b : String) (m : JVal) (sel : Option Bool)
    (h : matcherHasBinary b m = .ok sel) :
    (match sel with | some r => r | none => false) = specBinSelected b m := by
  by_cases hnull : m = .null
  · subst hnull
    exact absurd h (by simp [matcherHasBinary, jsGetProp, Bind.bind, Except.bind])
  have hget : jsGetProp (some m) "hooks" = .ok (jProp m "hooks") := by
    cases m with
    | null => exact absurd rfl hnull
    | bool bb => rfl
    | num n => rfl
    | str s => rfl
    | arr xs => rfl
    | obj fs => rfl
  have h2 : (match jProp m "hooks" with
      | some (.arr hs) => do
        let r ← jsSomeHasBinary b hs
        pure (some r)
      | _ => (pure none : Except JsErr (Option Bool))) = .ok sel := by
    have h3 : (jsGetProp (some m) "hooks" >>= fun hv =>
        match hv with
        | some (.arr hs) => do
          let r ← jsSomeHasBinary b hs
          pure (some r)
        | _ => pure none) = .ok sel := h
    rw [hget] at h3
    simpa [Bind.bind, Except.bind] using h3
  rcases hv : jProp m "hooks" with _ | v
  · rw [hv] at h2
    have h4 : (pure none : Except JsErr (Option Bool)) = .ok sel := h2
    obtain rfl : sel = none := by
      simpa [pure, Except.pure] using (Except.ok.inj h4).symm
    simp [specBinSelected, hv]
  · rw [hv] at h2
    cases v with
    | arr hs =>
      have h4 : (jsSomeHasBinary b hs >>= fun r =>
          pure (some r) : Except JsErr (Option Bool)) = .ok sel := h2
      rcases hsome : jsSomeHasBinary b hs with e | r
      · rw [hsome] at h4
        exact absurd h4 (by simp [Bind.bind, Except.bind])
      · rw [hsome] at h4
        obtain rfl : sel = some r := by
          have h5 : (Except.ok (some r) : Except JsErr (Option Bool)) = .ok sel := by
            simpa [Bind.bind, Except.bind, pure, Except.pure] using h4
          exact (Except.ok.inj h5).symm
        simp [specBinSelected, hv, jsSomeHasBinary_ok b hs r hsome]
    | null =>
      have h4 : (pure none : Except JsErr (Option Bool)) = .ok sel := h2
      obtain rfl : sel = none := by
        simpa [pure, Except.pure] using (Except.ok.inj h4).symm
      simp [specBinSelected, hv]
    | bool bb =>
      have h4 : (pure none : Except JsErr (Option Bool)) = .ok sel := h2
      obtain rfl : sel = none := by
        simpa [pure, Except.pure] using (Except.ok.inj h4).symm
      simp [specBinSelected, hv]
    | num n =>
      have h4 : (pure none : Except JsErr (Option Bool)) = .ok sel := h2
      obtain rfl : sel = none := by
        simpa [pure, Except.pure] using (Except.ok.inj h4).symm
      simp [specBinSelected, hv]
    | str s =>
      have h4 : (pure none : Except JsErr (Option Bool)) = .ok sel := h2
      obtain rfl : sel = none := by
        simpa [pure, Except.pure] using (Except.ok.inj h4).symm
      simp [specBinSelected, hv]
    | obj fs =>
      have h4 : (pure none : Except JsErr (Option Bool)) = .ok sel := h2
      obtain rfl : sel = none := by
        simpa [pure, Except.pure] using (Except.ok.inj h4).symm
      simp [specBinSelected, hv]

theorem binScan_ok (b : String) :
    ∀ (ms : List JVal) (i : Nat) (idxs : List Nat),
      binScan b i ms = .ok idxs → idxs = idxsWhere (specBinSelected b) i ms := by
  intro ms
  induction ms with
  | nil =>
    intro i idxs h
    have h4 : (pure [] : Except JsErr (List Nat)) = .ok idxs := h
    obtain rfl : idxs = [] := by
      simpa [pure, Except.pure] using (Except.ok.inj h4).symm
    simp [idxsWhere]
  | cons m ms ih =>
    intro i idxs h
    have h2 : (matcherHasBinary b m >>= fun sel =>
        binScan b (i + 1) ms >>= fun rest =>
        match sel with
        | some true => pure (i :: rest)
        | _ => pure rest) = .ok idxs := h
    rcases hsel : matcherHasBinary b m with e | sel
    · rw [hsel] at h2
      exact absurd h2 (by simp [Bind.bind, Except.bind])
    rw [hsel] at h2
    have h3 : (binScan b (i + 1) ms >>= fun rest =>
        match sel with
        | some true => pure (i :: rest)
        | _ => pure rest) = .ok idxs := by
      simpa [Bind.bind, Except.bind] using h2
    rcases hrest : binScan b (i + 1) ms with e | rest
    · rw [hrest] at h3
      exact absurd h3 (by simp [Bind.bind, Except.bind])
    rw [hrest] at h3
    have h4 : (match sel with
        | some true => (pure (i :: rest) : Except JsErr (List Nat))
        | _ => pure rest) = .ok idxs := by
      simpa [Bind.bind, Except.bind] using h3
    have hspec := matcherHasBinary_ok b m sel hsel
    have hrest2 := ih (i + 1) rest hrest
    rcases sel with _ | r
    · have hp : specBinSelected b m = false := by simpa using hspec.symm
      obtain rfl : idxs = rest := by
        simpa [pure, Except.pure] using (Except.ok.inj h4).symm
      rw [hrest2]
      simp [idxsWhere, hp]
    · cases r with
      | true =>
        have hp : specBinSelected b m = true := by simpa using hspec.symm
        obtain rfl : idxs = i :: rest := by
          simpa [pure, Except.pure] using (Except.ok.inj h4).symm
        rw [hrest2]
        simp [idxsWhere, hp]
      | false =>
        have hp : specBinSelected b m = false := by simpa using hspec.symm
        obtain rfl : idxs = rest := by
          simpa [pure, Except.pure] using (Except.ok.inj h4).symm
        rw [hrest2]
        simp [idxsWhere, hp]



theorem remBinLoop_spec (b : String) :
    ∀ (entries : List (String × JVal)) (fs gs : List (String × JVal)) (cnt : Nat)
      (marked : List String) (out : JVal × Nat × List String),
      (entries.map Prod.fst).Nodup →
      fs.lookup "hooks" = some (.obj gs) →
      (∀ p ∈ entries, gs.lookup p.1 = some p.2) →
      remBinLoop b (JVal.obj fs) cnt marked entries = .ok out →
      ∃ fs' gs',
        out.1 = .obj fs' ∧
        fs'.map Prod.fst = fs.map Prod.fst ∧
        gs'.map Prod.fst = gs.map Prod.fst ∧
        fs'.lookup "hooks" = some (.obj gs') ∧
        (∀ k, k ≠ "hooks" → fs'.lookup k = fs.lookup k) ∧
        (∀ e, e ∉ entries.map Prod.fst → gs'.lookup e = gs.lookup e) ∧
        (∀ p ∈ entries,
          if binEvMarks b p.2 then gs'.lookup p.1 = some p.2
          else gs'.lookup p.1 = some (binEvKeep b p.2)) ∧
        out.2.1 = cnt + countBinSelected entries b ∧
        out.2.2 = marked ++ binMarkedEvents b entries := by
  intro entries
  induction entries with
  | nil =>
    intro fs gs cnt marked out _ hfs _ hrun
    simp only [remBinLoop] at hrun
    obtain rfl : (JVal.obj fs, cnt, marked) = out := by simpa using hrun
    exact ⟨fs, gs, rfl, rfl, rfl, hfs, fun _ _ => rfl, fun _ _ => rfl, by simp,
      by simp [countBinSelected], by simp [binMarkedEvents]⟩
  | cons ep rest ih =>
    obtain ⟨ev, v⟩ := ep
    intro fs gs cnt marked out hnd hfs hrel hrun
    simp only [List.map_cons, List.nodup_cons] at hnd
    obtain ⟨hev, hndr⟩ := hnd
    have hrelev : gs.lookup ev = some v := hrel (ev, v) (List.mem_cons_self _ _)
    have hrelr : ∀ p ∈ rest, gs.lookup p.1 = some p.2 :=
      fun p hp => hrel p (List.mem_cons_of_mem _ hp)
    have hrun0 : (binClassify b v >>= fun x =>
        match x with
        | (a, c) => applyEvAction (JVal.obj fs) ev a >>= fun wd' =>
            remBinLoop b wd' (cnt + c) (marked ++ markedOf ev a) rest) = .ok out := hrun
    cases v with
    | arr ems =>
      rcases hscan : binScan b 0 ems with e | idxs
      · have hcl : binClassify b (JVal.arr ems) = .error e := by
          have : binClassify b (JVal.arr ems) = (binScan b 0 ems >>= fun idxs =>
              pure (classifyIdxs idxs ems.length, idxs.length)) := rfl
          rw [this, hscan]
          simp [Bind.bind, Except.bind]
        rw [hcl] at hrun0
        exact absurd hrun0 (by simp [Bind.bind, Except.bind])
      · obtain rfl : idxs = idxsWhere (specBinSelected b) 0 ems :=
          binScan_ok b ems 0 idxs hscan
        have hcl : binClassify b (JVal.arr ems) =
            .ok (classifyIdxs (idxsWhere (specBinSelected b) 0 ems) ems.length,
              (idxsWhere (specBinSelected b) 0 ems).length) := by
          have : binClassify b (JVal.arr ems) = (binScan b 0 ems >>= fun idxs =>
              pure (classifyIdxs idxs ems.length, idxs.length)) := rfl
          rw [this, hscan]
          simp [Bind.bind, Except.bind, pure, Except.pure]
        rw [hcl] at hrun0
        have hrun2 : (applyEvAction (JVal.obj fs) ev
            (classifyIdxs (idxsWhere (specBinSelected b) 0 ems) ems.length) >>=
            fun wd' =>
              remBinLoop b wd'
                (cnt + (idxsWhere (specBinSelected b) 0 ems).length)
                (marked ++ markedOf ev
                  (classifyIdxs (idxsWhere (specBinSelected b) 0 ems) ems.length))
                rest) = .ok out := by
          simpa [Bind.bind, Except.bind] using hrun0
        obtain ⟨fs1, gs1, happ, hkf1, hkg1, hfs1, hgs1, hfr1, hgr1⟩ :=
          processEvent_spec ev (specBinSelected b) fs gs ems hfs hrelev
        rw [happ] at hrun2
        have hrun' : remBinLoop b (JVal.obj fs1)
            (cnt + (idxsWhere (specBinSelected b) 0 ems).length)
            (marked ++ markedOf ev
              (classifyIdxs (idxsWhere (specBinSelected b) 0 ems) ems.length)) rest =
            .ok out := by
          simpa [Bind.bind, Except.bind] using hrun2
        have hrelr1 : ∀ p ∈ rest, gs1.lookup p.1 = some p.2 := by
          intro p hp
          have hne : p.1 ≠ ev := by
            intro hh
            exact hev (hh ▸ List.mem_map_of_mem Prod.fst hp)
          rw [hgr1 p.1 hne]
          exact hrelr p hp
        obtain ⟨fs', gs', h1, h2, h3, h4, h5, h6, h7, h8, h9⟩ :=
          ih fs1 gs1 _ _ out hndr hfs1 hrelr1 hrun'
        refine ⟨fs', gs', h1, h2.trans hkf1, h3.trans hkg1, h4, ?_, ?_, ?_, ?_, ?_⟩
        · intro k hk
          rw [h5 k hk, hfr1 k hk]
        · intro e he
          simp only [List.map_cons, List.mem_cons, not_or] at he
          rw [h6 e he.2, hgr1 e he.1]
        · intro p hp
          rcases List.mem_cons.mp hp with rfl | hp
          · have hvev : gs'.lookup ev = gs1.lookup ev := h6 ev hev
            by_cases hmk : (ems.filter (specBinSelected b)).length = ems.length
            · rw [if_pos (by simp only [binEvMarks]; exact beq_iff_eq.mpr hmk)]
              rw [hvev, hgs1, if_pos hmk]
            · rw [if_neg (by simp only [binEvMarks]; simp [hmk])]
              rw [hvev, hgs1, if_neg hmk]
              rfl
          · exact h7 p hp
        · rw [h8, idxsWhere_length]
          simp only [countBinSelected, List.map_cons, List.sum_cons]
          have heta : (List.filter (fun m => specBinSelected b m) ems).length =
              (List.filter (specBinSelected b) ems).length := rfl
          omega
        · rw [h9]
          have hmof : markedOf ev (classifyIdxs (idxsWhere (specBinSelected b) 0 ems)
              ems.length) =
              if binEvMarks b (JVal.arr ems) then [ev] else [] := by
            by_cases hmk : (ems.filter (specBinSelected b)).length = ems.length
            · have hb : ((idxsWhere (specBinSelected b) 0 ems).length == ems.length) =
                  true := by
                rw [idxsWhere_length]
                exact beq_iff_eq.mpr hmk
              simp [classifyIdxs, hb, markedOf, binEvMarks, beq_iff_eq.mpr hmk]
            · have hb : ((idxsWhere (specBinSelected b) 0 ems).length == ems.length) =
                  false := by
                rw [idxsWhere_length]
                exact beq_eq_false_iff_ne.mpr hmk
              have hb2 : ((ems.filter (specBinSelected b)).length == ems.length) =
                  false := beq_eq_false_iff_ne.mpr hmk
              by_cases hpos : 0 < (idxsWhere (specBinSelected b) 0 ems).length <;>
                simp [classifyIdxs, hb, hpos, markedOf, binEvMarks, hb2]
          rw [hmof]
          simp only [binMarkedEvents, List.filter_cons]
          by_cases hmk : binEvMarks b (JVal.arr ems)
          · simp [hmk, List.map_cons, List.append_assoc]
          · simp [hmk]
    | null =>
      have hcl : binClassify b JVal.null = .ok (.skip, 0) := rfl
      rw [hcl] at hrun0
      have hrun' : remBinLoop b (JVal.obj fs) (cnt + 0)
          (marked ++ markedOf ev .skip) rest = .ok out := by
        simpa [applyEvAction, Bind.bind, Except.bind] using hrun0
      obtain ⟨fs', gs', h1, h2, h3, h4, h5, h6, h7, h8, h9⟩ :=
        ih fs gs _ _ out hndr hfs hrelr hrun'
      refine ⟨fs', gs', h1, h2, h3, h4, h5, ?_, ?_, ?_, ?_⟩
      · intro e he
        simp only [List.map_cons, List.mem_cons, not_or] at he
        exact h6 e he.2
      · intro p hp
        rcases List.mem_cons.mp hp with rfl | hp
        · simp only [binEvMarks, Bool.false_eq_true, if_false]
          rw [h6 ev hev, hrelev]
          rfl
        · exact h7 p hp
      · rw [h8]
        simp [countBinSelected, List.map_cons, List.sum_cons]
      · rw [h9]
        simp [markedOf, binMarkedEvents, List.filter_cons, binEvMarks]
    | bool bb =>
      have hcl : binClassify b (JVal.bool bb) = .ok (.skip, 0) := rfl
      rw [hcl] at hrun0
      have hrun' : remBinLoop b (JVal.obj fs) (cnt + 0)
          (marked ++ markedOf ev .skip) rest = .ok out := by
        simpa [applyEvAction, Bind.bind, Except.bind] using hrun0
      obtain ⟨fs', gs', h1, h2, h3, h4, h5, h6, h7, h8, h9⟩ :=
        ih fs gs _ _ out hndr hfs hrelr hrun'
      refine ⟨fs', gs', h1, h2, h3, h4, h5, ?_, ?_, ?_, ?_⟩
      · intro e he
        simp only [List.map_cons, List.mem_cons, not_or] at he
        exact h6 e he.2
      · intro p hp
        rcases List.mem_cons.mp hp with rfl | hp
        · simp only [binEvMarks, Bool.false_eq_true, if_false]
          rw [h6 ev hev, hrelev]
          rfl
        · exact h7 p hp
      · rw [h8]
        simp [countBinSelected, List.map_cons, List.sum_cons]
      · rw [h9]
        simp [markedOf, binMarkedEvents, List.filter_cons, binEvMarks]
    | num nn =>
      have hcl : binClassify b (JVal.num nn) = .ok (.skip, 0) := rfl
      rw [hcl] at hrun0
      have hrun' : remBinLoop b (JVal.obj fs) (cnt + 0)
          (marked ++ markedOf ev .skip) rest = .ok out := by
        simpa [applyEvAction, Bind.bind, Except.bind] using hrun0
      obtain ⟨fs', gs', h1, h2, h3, h4, h5, h6, h7, h8, h9⟩ :=
        ih fs gs _ _ out hndr hfs hrelr hrun'
      refine ⟨fs', gs', h1, h2, h3, h4, h5, ?_, ?_, ?_, ?_⟩
      · intro e he
        simp only [List.map_cons, List.mem_cons, not_or] at he
        exact h6 e he.2
      · intro p hp
        rcases List.mem_cons.mp hp with rfl | hp
        · simp only [binEvMarks, Bool.false_eq_true, if_false]
          rw [h6 ev hev, hrelev]
          rfl
        · exact h7 p hp
      · rw [h8]
        simp [countBinSelected, List.map_cons, List.sum_cons]
      · rw [h9]
        simp [markedOf, binMarkedEvents, List.filter_cons, binEvMarks]
    | str ss =>
      have hcl : binClassify b (JVal.str ss) = .ok (.skip, 0) := rfl
      rw [hcl] at hrun0
      have hrun' : remBinLoop b (JVal.obj fs) (cnt + 0)
          (marked ++ markedOf ev .skip) rest = .ok out := by
        simpa [applyEvAction, Bind.bind, Except.bind] using hrun0
      obtain ⟨fs', gs', h1, h2, h3, h4, h5, h6, h7, h8, h9⟩ :=
        ih fs gs _ _ out hndr hfs hrelr hrun'
      refine ⟨fs', gs', h1, h2, h3, h4, h5, ?_, ?_, ?_, ?_⟩
      · intro e he
        simp only [List.map_cons, List.mem_cons, not_or] at he
        exact h6 e he.2
      · intro p hp
        rcases List.mem_cons.mp hp with rfl | hp
        · simp only [binEvMarks, Bool.false_eq_true, if_false]
          rw [h6 ev hev, hrelev]
          rfl
        · exact h7 p hp
      · rw [h8]
        simp [countBinSelected, List.map_cons, List.sum_cons]
      · rw [h9]
        simp [markedOf, binMarkedEvents, List.filter_cons, binEvMarks]
    | obj oo =>
      have hcl : binClassify b (JVal.obj oo) = .ok (.skip, 0) := rfl
      rw [hcl] at hrun0
      have hrun' : remBinLoop b (JVal.obj fs) (cnt + 0)
          (marked ++ markedOf ev .skip) rest = .ok out := by
        simpa [applyEvAction, Bind.bind, Except.bind] using hrun0
      obtain ⟨fs', gs', h1, h2, h3, h4, h5, h6, h7, h8, h9⟩ :=
        ih fs gs _ _ out hndr hfs hrelr hrun'
      refine ⟨fs', gs', h1, h2, h3, h4, h5, ?_, ?_, ?_, ?_⟩
      · intro e he
        simp only [List.map_cons, List.mem_cons, not_or] at he
        exact h6 e he.2
      · intro p hp
        rcases List.mem_cons.mp hp with rfl | hp
        · simp only [binEvMarks, Bool.false_eq_true, if_false]
          rw [h6 ev hev, hrelev]
          rfl
        · exact h7 p hp
      · rw [h8]
        simp [countBinSelected, List.map_cons, List.sum_cons]
      · rw [h9]
        simp [markedOf, binMarkedEvents, List.filter_cons, binEvMarks]



theorem remBinLoop_hooks_nonobj (b : String) :
    ∀ (entries : List (String × JVal)) (fs : List (String × JVal)) (v : JVal)
      (cnt : Nat) (marked : List String) (out : JVal × Nat × List String),
      fs.lookup "hooks" = some v →
      (∀ gs, v ≠ .obj gs) →
      remBinLoop b (JVal.obj fs) cnt marked entries = .ok out →
      out.1 = .obj fs ∧ out.2.2 = marked ++ binMarkedEvents b entries := by
  intro entries
  induction entries with
  | nil =>
    intro fs v cnt marked out _ _ hrun
    simp only [remBinLoop] at hrun
    obtain rfl : (JVal.obj fs, cnt, marked) = out := by simpa using hrun
    exact ⟨rfl, by simp [binMarkedEvents]⟩
  | cons ep rest ih =>
    obtain ⟨ev, w⟩ := ep
    intro fs v cnt marked out hfs hnv hrun
    have hrun0 : (binClassify b w >>= fun x =>
        match x with
        | (a, c) => applyEvAction (JVal.obj fs) ev a >>= fun wd' =>
            remBinLoop b wd' (cnt + c) (marked ++ markedOf ev a) rest) = .ok out := hrun
    cases w with
    | arr ems =>
      rcases hscan : binScan b 0 ems with e | idxs
      · have hcl : binClassify b (JVal.arr ems) = .error e := by
          have : binClassify b (JVal.arr ems) = (binScan b 0 ems >>= fun idxs =>
              pure (classifyIdxs idxs ems.length, idxs.length)) := rfl
          rw [this, hscan]
          simp [Bind.bind, Except.bind]
        rw [hcl] at hrun0
        exact absurd hrun0 (by simp [Bind.bind, Except.bind])
      · obtain rfl : idxs = idxsWhere (specBinSelected b) 0 ems :=
          binScan_ok b ems 0 idxs hscan
        have hcl : binClassify b (JVal.arr ems) =
            .ok (classifyIdxs (idxsWhere (specBinSelected b) 0 ems) ems.length,
              (idxsWhere (specBinSelected b) 0 ems).length) := by
          have : binClassify b (JVal.arr ems) = (binScan b 0 ems >>= fun idxs =>
              pure (classifyIdxs idxs ems.length, idxs.length)) := rfl
          rw [this, hscan]
          simp [Bind.bind, Except.bind, pure, Except.pure]
        rw [hcl] at hrun0
        have hrun2 : (applyEvAction (JVal.obj fs) ev
            (classifyIdxs (idxsWhere (specBinSelected b) 0 ems) ems.length) >>=
            fun wd' =>
              remBinLoop b wd'
                (cnt + (idxsWhere (specBinSelected b) 0 ems).length)
                (marked ++ markedOf ev
                  (classifyIdxs (idxsWhere (specBinSelected b) 0 ems) ems.length))
                rest) = .ok out := by
          simpa [Bind.bind, Except.bind] using hrun0
        have hskip : applyEvAction (JVal.obj fs) ev
            (classifyIdxs (idxsWhere (specBinSelected b) 0 ems) ems.length) =
            .ok (JVal.obj fs) := by
          rcases hclx : classifyIdxs (idxsWhere (specBinSelected b) 0 ems) ems.length
            with _ | _ | S
          · rfl
          · rfl
          · exfalso
            obtain ⟨hSeq, hpos⟩ := classifyIdxs_edit_inv _ _ _ hclx
            have hSne : S ≠ [] := by
              subst hSeq
              exact List.ne_nil_of_length_pos hpos
            rcases hres : applyEvAction (JVal.obj fs) ev (.edit S) with e | o
            · rw [hclx] at hrun2
              rw [hres] at hrun2
              simp [Bind.bind, Except.bind] at hrun2
            · exact applyEdit_hooks_nonobj ev S fs v hfs hnv hSne o hres
        rw [hskip] at hrun2
        have hrun' : remBinLoop b (JVal.obj fs)
            (cnt + (idxsWhere (specBinSelected b) 0 ems).length)
            (marked ++ markedOf ev
              (classifyIdxs (idxsWhere (specBinSelected b) 0 ems) ems.length)) rest =
            .ok out := by
          simpa [Bind.bind, Except.bind] using hrun2
        obtain ⟨h1, h2⟩ := ih fs v _ _ out hfs hnv hrun'
        refine ⟨h1, ?_⟩
        rw [h2, markedOf_classifyIdxs]
        simp only [binMarkedEvents, List.filter_cons, binEvMarks]
        by_cases hmk : (ems.filter (specBinSelected b)).length = ems.length
        · have heta : (List.filter (fun m => specBinSelected b m) ems).length =
              (List.filter (specBinSelected b) ems).length := rfl
          have hb : ((List.filter (fun m => specBinSelected b m) ems).length ==
              ems.length) = true := by
            rw [heta]
            exact beq_iff_eq.mpr hmk
          simp [hmk, hb, List.append_assoc]
        · have heta : (List.filter (fun m => specBinSelected b m) ems).length =
              (List.filter (specBinSelected b) ems).length := rfl
          have hb : ((List.filter (fun m => specBinSelected b m) ems).length ==
              ems.length) = false := by
            rw [heta]
            exact beq_eq_false_iff_ne.mpr hmk
          simp [hmk, hb]
    | null =>
      have hcl : binClassify b JVal.null = .ok (.skip, 0) := rfl
      rw [hcl] at hrun0
      have hrun' : remBinLoop b (JVal.obj fs) (cnt + 0)
          (marked ++ markedOf ev .skip) rest = .ok out := by
        simpa [applyEvAction, Bind.bind, Except.bind] using hrun0
      obtain ⟨h1, h2⟩ := ih fs v _ _ out hfs hnv hrun'
      refine ⟨h1, ?_⟩
      rw [h2]
      simp [markedOf, binMarkedEvents, List.filter_cons, binEvMarks]
    | bool bb =>
      have hcl : binClassify b (JVal.bool bb) = .ok (.skip, 0) := rfl
      rw [hcl] at hrun0
      have hrun' : remBinLoop b (JVal.obj fs) (cnt + 0)
          (marked ++ markedOf ev .skip) rest = .ok out := by
        simpa [applyEvAction, Bind.bind, Except.bind] using hrun0
      obtain ⟨h1, h2⟩ := ih fs v _ _ out hfs hnv hrun'
      refine ⟨h1, ?_⟩
      rw [h2]
      simp [markedOf, binMarkedEvents, List.filter_cons, binEvMarks]
    | num nn =>
      have hcl : binClassify b (JVal.num nn) = .ok (.skip, 0) := rfl
      rw [hcl] at hrun0
      have hrun' : remBinLoop b (JVal.obj fs) (cnt + 0)
          (marked ++ markedOf ev .skip) rest = .ok out := by
        simpa [applyEvAction, Bind.bind, Except.bind] using hrun0
      obtain ⟨h1, h2⟩ := ih fs v _ _ out hfs hnv hrun'
      refine ⟨h1, ?_⟩
      rw [h2]
      simp [markedOf, binMarkedEvents, List.filter_cons, binEvMarks]
    | str ss =>
      have hcl : binClassify b (JVal.str ss) = .ok (.skip, 0) := rfl
      rw [hcl] at hrun0
      have hrun' : remBinLoop b (JVal.obj fs) (cnt + 0)
          (marked ++ markedOf ev .skip) rest = .ok out := by
        simpa [applyEvAction, Bind.bind, Except.bind] using hrun0
      obtain ⟨h1, h2⟩ := ih fs v _ _ out hfs hnv hrun'
      refine ⟨h1, ?_⟩
      rw [h2]
      simp [markedOf, binMarkedEvents, List.filter_cons, binEvMarks]
    | obj oo =>
      have hcl : binClassify b (JVal.obj oo) = .ok (.skip, 0) := rfl
      rw [hcl] at hrun0
      have hrun' : remBinLoop b (JVal.obj fs) (cnt + 0)
          (marked ++ markedOf ev .skip) rest = .ok out := by
        simpa [applyEvAction, Bind.bind, Except.bind] using hrun0
      obtain ⟨h1, h2⟩ := ih fs v _ _ out hfs hnv hrun'
      refine ⟨h1, ?_⟩
      rw [h2]
      simp [markedOf, binMarkedEvents, List.filter_cons, binEvMarks]



theorem removeBin_unfold_truthy (fs : List (String × JVal)) (v : JVal) (b : String)
    (hfs : fs.lookup "hooks" = some v) (htr : jTruthy v = true) :
    removeHooksWithBinaryJ (some (.obj fs)) b =
      (remBinLoop b (JVal.obj fs) 0 [] (jEntries v) >>= fun x =>
        match x with
        | (wd, cnt, marked) =>
          finishRemoval wd marked >>= fun wd2 => Except.ok (wd2, cnt)) := by
  show (match jProp (JVal.obj fs) "hooks" with
    | none => Except.ok (JVal.obj fs, 0)
    | some hooksVal =>
      if jTruthy hooksVal then do
        let (wd, cnt, marked) ← remBinLoop b (JVal.obj fs) 0 [] (jEntries hooksVal)
        let wd ← finishRemoval wd marked
        Except.ok (wd, cnt)
      else Except.ok (JVal.obj fs, 0)) = _
  rw [show jProp (JVal.obj fs) "hooks" = some v from hfs]
  simp only [htr, if_true]

theorem removeBin_eq_of_hooks_none (doc : JVal) (b : String)
    (hnn : doc ≠ .null) (h : jProp doc "hooks" = none) :
    removeHooksWithBinaryJ (some doc) b = .ok (doc, 0) := by
  cases doc with
  | null => exact absurd rfl hnn
  | obj fs => simp [removeHooksWithBinaryJ, h]
  | arr xs => simp [removeHooksWithBinaryJ, h]
  | num n => simp [removeHooksWithBinaryJ, h]
  | str s => simp [removeHooksWithBinaryJ, h]
  | bool bb => simp [removeHooksWithBinaryJ, h]

theorem removeBin_eq_of_hooks_falsy (doc v : JVal) (b : String)
    (hnn : doc ≠ .null) (h : jProp doc "hooks" = some v) (hf : jTruthy v = false) :
    removeHooksWithBinaryJ (some doc) b = .ok (doc, 0) := by
  cases doc with
  | null => exact absurd rfl hnn
  | obj fs => simp [removeHooksWithBinaryJ, h, hf]
  | arr xs => simp [removeHooksWithBinaryJ, h, hf]
  | num n => simp [removeHooksWithBinaryJ, h, hf]
  | str s => simp [removeHooksWithBinaryJ, h, hf]
  | bool bb => simp [removeHooksWithBinaryJ, h, hf]

theorem mem_jEntries_arr (xs : List JVal) (i : Nat) (e : JVal)
    (h : xs.get? i = some e) : (toString i, e) ∈ jEntries (.arr xs) := by
  obtain ⟨hi, hget⟩ := List.get?_eq_some.mp h
  have hz : i < ((List.range xs.length).zip xs).length := by
    simpa [List.length_zip, List.length_range] using hi
  have hel : ((List.range xs.length).zip xs)[i] = (i, e) := by
    rw [List.getElem_zip, List.getElem_range]
    have hx : xs[i] = e := by
      simpa [List.get_eq_getElem] using hget
    rw [hx]
  have hmem : (i, e) ∈ (List.range xs.length).zip xs := by
    rw [← hel]
    exact List.getElem_mem _
  have := List.mem_map_of_mem (fun p => (toString p.1, p.2)) hmem
  simpa [jEntries] using this



theorem mem_binMarkedEvents {b : String} {gs : List (String × JVal)}
    {p : String × JVal} (hp : p ∈ gs) (hmk : binEvMarks b p.2 = true) :
    p.1 ∈ binMarkedEvents b gs :=
  List.mem_map_of_mem Prod.fst (List.mem_filter.mpr ⟨hp, hmk⟩)

theorem binMarkedEvents_subset_keys {b : String} {gs : List (String × JVal)}
    {e : String} (h : e ∈ binMarkedEvents b gs) : e ∈ gs.map Prod.fst := by
  obtain ⟨q, hq, rfl⟩ := List.mem_map.mp h
  exact List.mem_map_of_mem Prod.fst (List.mem_filter.mp hq).1

theorem mem_binMarkedEvents_iff {b : String} {gs : List (String × JVal)}
    {p : String × JVal} (hngs : (gs.map Prod.fst).Nodup) (hp : p ∈ gs) :
    p.1 ∈ binMarkedEvents b gs ↔ binEvMarks b p.2 = true := by
  constructor
  · intro h
    obtain ⟨q, hq, hq1⟩ := List.mem_map.mp h
    obtain ⟨hqg, hqm⟩ := List.mem_filter.mp hq
    have : q.2 = p.2 := by
      have h1 : (q.1, q.2) ∈ gs := by simpa using hqg
      have h2 : (q.1, p.2) ∈ gs := by
        rw [hq1]
        simpa using hp
      exact nodup_keys_unique hngs h1 h2
    rw [← this]
    exact hqm
  · intro h
    exact mem_binMarkedEvents hp h

theorem binEvKeep_ne_empty (b : String) (v : JVal) (h : binEvMarks b v = false) :
    binEvKeep b v ≠ .arr [] := by
  cases v with
  | arr ms =>
    intro hc
    have hfn : (ms.filter fun m => !specBinSelected b m) = [] := by
      simpa [binEvKeep] using hc
    have hlen := filter_length_of_filter_not_nil hfn
    rw [binEvMarks] at h
    rw [beq_eq_false_iff_ne] at h
    exact h hlen
  | null => intro hc; exact JVal.noConfusion hc
  | bool bb => intro hc; exact JVal.noConfusion hc
  | num n => intro hc; exact JVal.noConfusion hc
  | str s => intro hc; exact JVal.noConfusion hc
  | obj fs => intro hc; exact JVal.noConfusion hc

theorem removeBin_obj_run (fs gs : List (String × JVal)) (b : String)
    (out : JVal × Nat)
    (hnfs : (fs.map Prod.fst).Nodup) (hngs : (gs.map Prod.fst).Nodup)
    (hfs : fs.lookup "hooks" = some (.obj gs))
    (hrun : removeHooksWithBinaryJ (some (.obj fs)) b = .ok out) :
    out.2 = countBinSelected gs b ∧
    (∀ p ∈ gs, eventValue out.1 p.1 =
      if binEvMarks b p.2 then none else some (binEvKeep b p.2)) ∧
    (∀ e, e ∉ gs.map Prod.fst → eventValue out.1 e = none) ∧
    jProp out.1 "hooks" ≠ some (.obj []) := by
  rw [removeBin_unfold_truthy fs (.obj gs) b hfs rfl] at hrun
  have hje : jEntries (JVal.obj gs) = gs := rfl
  rw [hje] at hrun
  rcases hloop : remBinLoop b (JVal.obj fs) 0 [] gs with e | lout
  · rw [hloop] at hrun
    exact absurd hrun (by simp [Bind.bind, Except.bind])
  obtain ⟨wd, cnt, marked⟩ := lout
  rw [hloop] at hrun
  have hrun2 : (finishRemoval wd marked >>= fun wd2 => Except.ok (wd2, cnt))
      = .ok out := by
    simpa [Bind.bind, Except.bind] using hrun
  rcases hfin : finishRemoval wd marked with e | wd2
  · rw [hfin] at hrun2
    exact absurd hrun2 (by simp [Bind.bind, Except.bind])
  rw [hfin] at hrun2
  obtain rfl : out = (wd2, cnt) := by
    have h3 := hrun2
    simp [Bind.bind, Except.bind] at h3
    exact h3.symm
  obtain ⟨fs', gs', h1, h2, h3, h4, h5, h6, h7, h8, h9⟩ :=
    remBinLoop_spec b gs fs gs 0 [] (wd, cnt, marked) hngs hfs
      (fun p hp => lookup_of_mem_nodup gs p.1 p.2 hngs (by simpa using hp)) hloop
  have hwd' : wd = .obj fs' := h1
  subst hwd'
  have hcnt : cnt = countBinSelected gs b := by simpa using h8
  have hmarked : marked = binMarkedEvents b gs := by simpa using h9
  obtain ⟨fs1, hk1, hl1, _hf1, hdisj⟩ := finishRemoval_obj_spec fs' gs' marked h4
  have hnfs' : (fs'.map Prod.fst).Nodup := by rw [h2]; exact hnfs
  have hngs' : (gs'.map Prod.fst).Nodup := by rw [h3]; exact hngs
  have hnfs1 : (fs1.map Prod.fst).Nodup := by rw [hk1]; exact hnfs'
  obtain ⟨hGlookup, _⟩ := foldl_removeF_spec marked gs' hngs'
  rcases hdisj with ⟨hGnil, hfeq⟩ | ⟨hGne, hfeq⟩
  · -- hooks key removed entirely
    have hw2 : wd2 = .obj (removeF fs1 "hooks") := Except.ok.inj (hfin.symm.trans hfeq)
    subst hw2
    have hnone := lookup_removeF_self fs1 "hooks" hnfs1
    refine ⟨hcnt, ?_, ?_, ?_⟩
    · intro p hp
      by_cases hmk : binEvMarks b p.2 = true
      · rw [if_pos hmk]
        simp [eventValue, jProp, hnone]
      · exfalso
        have hpm : p.1 ∉ marked := by
          rw [hmarked]
          intro hcm
          exact hmk ((mem_binMarkedEvents_iff hngs hp).mp hcm)
        have hx := hGlookup p.1
        rw [hGnil, if_neg hpm] at hx
        have h7p := h7 p hp
        rw [if_neg (by simpa using hmk)] at h7p
        rw [h7p] at hx
        simp [List.lookup] at hx
    · intro e _
      simp [eventValue, jProp, hnone]
    · simp [jProp, hnone]
  · have hw2 : wd2 = .obj fs1 := Except.ok.inj (hfin.symm.trans hfeq)
    subst hw2
    refine ⟨hcnt, ?_, ?_, ?_⟩
    · intro p hp
      have hev : eventValue (JVal.obj fs1, cnt).1 p.1 =
          (marked.foldl removeF gs').lookup p.1 := by
        simp [eventValue, jProp, hl1]
      rw [hev, hGlookup p.1]
      by_cases hmk : binEvMarks b p.2 = true
      · rw [if_pos hmk]
        rw [if_pos (by rw [hmarked]; exact (mem_binMarkedEvents_iff hngs hp).mpr hmk)]
      · have hpm : p.1 ∉ marked := by
          rw [hmarked]
          intro hcm
          exact hmk ((mem_binMarkedEvents_iff hngs hp).mp hcm)
        rw [if_neg hpm, if_neg (by simpa using hmk)]
        have h7p := h7 p hp
        rw [if_neg (by simpa using hmk)] at h7p
        exact h7p
    · intro e he
      have hev : eventValue (JVal.obj fs1, cnt).1 e =
          (marked.foldl removeF gs').lookup e := by
        simp [eventValue, jProp, hl1]
      rw [hev, hGlookup e]
      have hem : e ∉ marked := by
        rw [hmarked]
        intro hcm
        exact he (binMarkedEvents_subset_keys hcm)
      rw [if_neg hem, h6 e he]
      exact lookup_eq_none_of_not_mem gs e he
    · intro hc
      rw [show jProp ((JVal.obj fs1, cnt).1) "hooks" =
        some (.obj (marked.foldl removeF gs')) from hl1] at hc
      exact hGne (JVal.obj.inj (Option.some.inj hc))



theorem removeBin_conclusions_nonobj
    (fs : List (String × JVal)) (v wd : JVal) (cnt : Nat) (marked : List String)
    (wd2 : JVal) (b : String)
    (hnfs : (fs.map Prod.fst).Nodup)
    (hfs : fs.lookup "hooks" = some v) (hnv : ∀ gs, v ≠ .obj gs)
    (hloop : remBinLoop b (JVal.obj fs) 0 [] (jEntries v) = .ok (wd, cnt, marked))
    (hfin : finishRemoval wd marked = .ok wd2) :
    (∀ ev, eventValue wd2 ev ≠ some (.arr [])) ∧
    jProp wd2 "hooks" ≠ some (.obj []) := by
  obtain ⟨hwd, hmk⟩ := remBinLoop_hooks_nonobj b (jEntries v) fs v 0 []
    (wd, cnt, marked) hfs hnv hloop
  have hwd' : wd = .obj fs := hwd
  subst hwd'
  have hmk' : marked = binMarkedEvents b (jEntries v) := by simpa using hmk
  obtain ⟨hmnil, hdisj⟩ := finishRemoval_hooks_nonobj fs v marked wd2 hfs hnv hfin
  rcases hdisj with ⟨_, _, hw2⟩ | ⟨_, hw2⟩
  · subst hw2
    have hnone := lookup_removeF_self fs "hooks" hnfs
    constructor
    · intro ev hc
      simp [eventValue, jProp, hnone] at hc
    · simp [jProp, hnone]
  · subst hw2
    have hdm : binMarkedEvents b (jEntries v) = [] := by rw [← hmk']; exact hmnil
    constructor
    · intro ev hc
      have hc2 : jProp v ev = some (.arr []) := by
        simpa [eventValue, jProp, hfs] using hc
      cases v with
      | arr xs =>
        simp only [jProp] at hc2
        by_cases hci : isCanonicalIndex ev = true
        · rw [if_pos hci] at hc2
          have hment := mem_jEntries_arr xs ev.toNat! (.arr []) hc2
          have hmarks : binEvMarks b (JVal.arr []) = true := rfl
          have := mem_binMarkedEvents hment hmarks
          rw [hdm] at this
          simp at this
        · rw [if_neg hci] at hc2
          exact Option.noConfusion hc2
      | null => exact Option.noConfusion hc2
      | bool bb => exact Option.noConfusion hc2
      | num n => exact Option.noConfusion hc2
      | str s => exact Option.noConfusion hc2
      | obj gs => exact absurd rfl (hnv gs)
    · intro hc
      rw [show jProp (JVal.obj fs) "hooks" = some v from hfs] at hc
      exact hnv [] (Option.some.inj hc)



theorem removeBin_run_nonobj
    (fs : List (String × JVal)) (v : JVal) (b : String) (out : JVal × Nat)
    (hnfs : (fs.map Prod.fst).Nodup)
    (hfs : fs.lookup "hooks" = some v)
    (htr : jTruthy v = true) (hnv : ∀ gs, v ≠ .obj gs)
    (hrun : removeHooksWithBinaryJ (some (.obj fs)) b = .ok out) :
    (∀ ev, eventValue out.1 ev ≠ some (.arr [])) ∧
    jProp out.1 "hooks" ≠ some (.obj []) := by
  rw [removeBin_unfold_truthy fs v b hfs htr] at hrun
  rcases hloop : remBinLoop b (JVal.obj fs) 0 [] (jEntries v) with e | lout
  · rw [hloop] at hrun
    exact absurd hrun (by simp [Bind.bind, Except.bind])
  obtain ⟨wd, cnt, marked⟩ := lout
  rw [hloop] at hrun
  have hrun2 : (finishRemoval wd marked >>= fun wd2 => Except.ok (wd2, cnt))
      = .ok out := by
    simpa [Bind.bind, Except.bind] using hrun
  rcases hfin : finishRemoval wd marked with e | wd2
  · rw [hfin] at hrun2
    exact absurd hrun2 (by simp [Bind.bind, Except.bind])
  rw [hfin] at hrun2
  obtain rfl : out = (wd2, cnt) := by
    have h3 := hrun2
    simp [Bind.bind, Except.bind] at h3
    exact h3.symm
  exact removeBin_conclusions_nonobj fs v wd cnt marked wd2 b hnfs hfs hnv hloop hfin

theorem removeBin_no_empty_remnants
    (parsed : JsVal) (b : String) (out : JVal × Nat)
    (hnf : ∀ fs, parsed = some (.obj fs) → (fs.map Prod.fst).Nodup)
    (hng : ∀ fs gs, parsed = some (.obj fs) → fs.lookup "hooks" = some (.obj gs) →
      (gs.map Prod.fst).Nodup)
    (hrun : removeHooksWithBinaryJ parsed b = .ok out) :
    (∀ ev, eventValue out.1 ev ≠ some (.arr [])) ∧
    jProp out.1 "hooks" ≠ some (.obj []) := by
  rcases parsed with _ | doc
  · exact absurd (show (Except.error JsErr.typeError : Except JsErr (JVal × Nat))
      = .ok out from hrun) (by simp)
  by_cases hnull : doc = .null
  · subst hnull
    exact absurd (show (Except.error JsErr.typeError : Except JsErr (JVal × Nat))
      = .ok out from hrun) (by simp)
  rcases hh : jProp doc "hooks" with _ | v
  · rw [removeBin_eq_of_hooks_none doc b hnull hh] at hrun
    obtain rfl : out = (doc, 0) := (Except.ok.inj hrun).symm
    constructor
    · intro ev hc
      simp [eventValue, hh] at hc
    · rw [show jProp (doc, 0).1 "hooks" = none from hh]
      simp
  by_cases htr : jTruthy v = true
  case neg =>
    have hf : jTruthy v = false := by revert htr; cases jTruthy v <;> simp
    rw [removeBin_eq_of_hooks_falsy doc v b hnull hh hf] at hrun
    obtain rfl : out = (doc, 0) := (Except.ok.inj hrun).symm
    constructor
    · intro ev hc
      have hc2 : (match jProp doc "hooks" with
        | some h => jProp h ev
        | none => none) = some (JVal.arr []) := hc
      rw [hh] at hc2
      rcases v with _ | bb | nn | ss | xs | gs2
      · simp [jProp] at hc2
      · simp [jProp] at hc2
      · simp [jProp] at hc2
      · simp [jProp] at hc2
      · simp [jTruthy] at hf
      · simp [jTruthy] at hf
    · intro hc
      rw [show jProp (doc, 0).1 "hooks" = some v from hh] at hc
      obtain rfl := Option.some.inj hc
      simp [jTruthy] at hf
  case pos =>
    obtain ⟨fs, rfl, hfs⟩ := jProp_some_obj hooks_not_canonical hh
    have hnfs : (fs.map Prod.fst).Nodup := hnf fs rfl
    rcases v with _ | bb | nn | ss | xs | gs
    · simp [jTruthy] at htr
    · exact removeBin_run_nonobj fs (.bool bb) b out hnfs hfs htr
        (fun gs h => JVal.noConfusion h) hrun
    · exact removeBin_run_nonobj fs (.num nn) b out hnfs hfs htr
        (fun gs h => JVal.noConfusion h) hrun
    · exact removeBin_run_nonobj fs (.str ss) b out hnfs hfs htr
        (fun gs h => JVal.noConfusion h) hrun
    · exact removeBin_run_nonobj fs (.arr xs) b out hnfs hfs htr
        (fun gs h => JVal.noConfusion h) hrun
    · obtain ⟨_hcnt, hper, hnotin, hhne⟩ :=
        removeBin_obj_run fs gs b out hnfs (hng fs gs rfl hfs) hfs hrun
      refine ⟨?_, hhne⟩
      intro ev
      by_cases hevk : ev ∈ gs.map Prod.fst
      · obtain ⟨p, hp, rfl⟩ := List.mem_map.mp hevk
        rw [hper p hp]
        by_cases hmk : binEvMarks b p.2 = true
        · rw [if_pos hmk]
          simp
        · rw [if_neg (by simpa using hmk)]
          intro hc
          exact binEvKeep_ne_empty b p.2
            (by revert hmk; cases binEvMarks b p.2 <;> simp) (Option.some.inj hc)
      · rw [hnotin ev hevk]
        simp

/-- **Claim C4 (amended).**  After `removeHooksWithDefinition`, no event
key named in the removal instruction maps to an empty array, and the
`hooks` key never remains with an empty-object value (assuming the
parsed document and its `hooks` object have duplicate-free keys, as
`JSON.parse`d settings do).  The binary-name variant
`removeHooksWithBinary`, which iterates every event of the document,
satisfies the full invariant: *no* event key at all maps to an empty
array and the `hooks` key is never an empty object. -/
theorem c4_amended_cleanup :
    (∀ (parsed : JsVal) (hd : HooksDef) (out : JVal × Nat),
      (∀ fs, parsed = some (.obj fs) → (fs.map Prod.fst).Nodup) →
      (∀ fs gs, parsed = some (.obj fs) → fs.lookup "hooks" = some (.obj gs) →
        (gs.map Prod.fst).Nodup) →
      (hd.map Prod.fst).Nodup →
      removeHooksWithDefinitionJ parsed hd = .ok out →
      (∀ ev ∈ hd.map Prod.fst, eventValue out.1 ev ≠ some (.arr [])) ∧
      jProp out.1 "hooks" ≠ some (.obj [])) ∧
    (∀ (parsed : JsVal) (b : String) (out : JVal × Nat),
      (∀ fs, parsed = some (.obj fs) → (fs.map Prod.fst).Nodup) →
      (∀ fs gs, parsed = some (.obj fs) → fs.lookup "hooks" = some (.obj gs) →
        (gs.map Prod.fst).Nodup) →
      removeHooksWithBinaryJ parsed b = .ok out →
      (∀ ev, eventValue out.1 ev ≠ some (.arr [])) ∧
      jProp out.1 "hooks" ≠ some (.obj [])) :=
  ⟨fun parsed hd out hnf hng hnh hrun =>
      removeDef_no_empty_remnants parsed hd out hnf hng hnh hrun,
    fun parsed b out hnf hng hrun =>
      removeBin_no_empty_remnants parsed b out hnf hng hrun⟩

/-- Closed instance of `c4_amended_cleanup`: removing the installed
definition from a document holding exactly it leaves no empty event
array and no empty `hooks` object, in both variants. -/
theorem c4_amended_witness :
    ((∀ ev ∈ hdHappy.map Prod.fst,
        eventValue ((JVal.obj [] : JVal), 1).1 ev ≠ some (.arr [])) ∧
      jProp ((JVal.obj [] : JVal), 1).1 "hooks" ≠ some (.obj [])) ∧
    ((∀ ev, eventValue ((JVal.obj [] : JVal), 1).1 ev ≠ some (.arr [])) ∧
      jProp ((JVal.obj [] : JVal), 1).1 "hooks" ≠ some (.obj [])) :=
  ⟨c4_amended_cleanup.1 (some docHappy) hdHappy ((JVal.obj [] : JVal), 1)
      (by intro fs h; simp only [docHappy, Option.some.injEq, JVal.obj.injEq] at h;
          subst h; decide)
      (by intro fs gs h hg; simp only [docHappy, Option.some.injEq, JVal.obj.injEq] at h;
          subst h; simp only [List.lookup] at hg;
          simp only [show (("hooks" == "hooks") : Bool) = true from rfl] at hg;
          obtain rfl := JVal.obj.inj (Option.some.inj hg); decide)
      (by decide)
      (by rfl),
    c4_amended_cleanup.2 (some docCmdArr) "happy-coder-hooks" ((JVal.obj [] : JVal), 1)
      (by intro fs h; simp only [docCmdArr, Option.some.injEq, JVal.obj.injEq] at h;
          subst h; decide)
      (by intro fs gs h hg; simp only [docCmdArr, Option.some.injEq, JVal.obj.injEq] at h;
          subst h; simp only [List.lookup] at hg;
          simp only [show (("hooks" == "hooks") : Bool) = true from rfl] at hg;
          obtain rfl := JVal.obj.inj (Option.some.inj hg); decide)
      (by rfl)⟩

/-- **Claim C10 (amended).**  `removeHooksWithBinary` removes matcher
entries at whole-entry granularity: with the settings document's keys
duplicate-free, an entry of an event array is selected iff its `hooks`
field is an array some hook of which has a truthy `command` that
`includes` the binary name under JavaScript semantics (substring
containment for string commands, string-element membership for array
commands); a partially-selected event keeps exactly its unselected
entries (sibling hooks of a selected entry disappear with it), a fully
selected event is deleted, and `removedCount` is the total number of
selected entries. -/
theorem c10_amended_selection :
    ∀ (fs gs : List (String × JVal)) (b : String) (out : JVal × Nat),
      (fs.map Prod.fst).Nodup →
      (gs.map Prod.fst).Nodup →
      fs.lookup "hooks" = some (.obj gs) →
      removeHooksWithBinaryJ (some (.obj fs)) b = .ok out →
      out.2 = countBinSelected gs b ∧
      (∀ p ∈ gs, eventValue out.1 p.1 =
        if binEvMarks b p.2 then none else some (binEvKeep b p.2)) :=
  fun fs gs b out hnfs hngs hfs hrun =>
    ⟨(removeBin_obj_run fs gs b out hnfs hngs hfs hrun).1,
     (removeBin_obj_run fs gs b out hnfs hngs hfs hrun).2.1⟩

/-- Closed instance of `c10_amended_selection` on the array-valued
command document: the single entry is selected by array membership, the
event is fully removed, and the count is 1. -/
theorem c10_amended_witness :
    ((JVal.obj [] : JVal), 1).2 =
      countBinSelected [("PreToolUse", JVal.arr [.obj [("matcher", .str "*"),
        ("hooks", .arr [hookCmdArr])]])] "happy-coder-hooks" ∧
    (∀ p ∈ [("PreToolUse", JVal.arr [.obj [("matcher", JVal.str "*"),
        ("hooks", .arr [hookCmdArr])]])],
      eventValue ((JVal.obj [] : JVal), 1).1 p.1 =
        if binEvMarks "happy-coder-hooks" p.2 then none
        else some (binEvKeep "happy-coder-hooks" p.2)) :=
  c10_amended_selection
    [("hooks", JVal.obj [("PreToolUse", JVal.arr [.obj [("matcher", JVal.str "*"),
      ("hooks", .arr [hookCmdArr])]])])]
    [("PreToolUse", JVal.arr [.obj [("matcher", JVal.str "*"),
      ("hooks", .arr [hookCmdArr])]])]
    "happy-coder-hooks" ((JVal.obj [] : JVal), 1)
    (by decide) (by decide) (by rfl) (by rfl)


/-! ### `addHooks` and claim C2 -/
theorem addHooksSeq_spec :
    ∀ (hd : HooksDef) (fs gs : List (String × JVal)),
      (hd.map Prod.fst).Nodup →
      fs.lookup "hooks" = some (.obj gs) →
      ∃ fs' gs',
        addHooksSeq (.obj fs) hd = .ok (.obj fs') ∧
        fs'.lookup "hooks" = some (.obj gs') ∧
        (∀ k, k ≠ "hooks" → fs'.lookup k = fs.lookup k) ∧
        (∀ e, e ∉ hd.map Prod.fst → gs'.lookup e = gs.lookup e) ∧
        (∀ p ∈ hd, gs'.lookup p.1 = some (hooksConfigToJ p.2)) := by
  intro hd
  induction hd with
  | nil =>
    intro fs gs _ hfs
    exact ⟨fs, gs, rfl, hfs, fun _ _ => rfl, fun _ _ => rfl, by simp⟩
  | cons p rest ih =>
    obtain ⟨ev, cfg⟩ := p
    intro fs gs hnd hfs
    simp only [List.map_cons, List.nodup_cons] at hnd
    obtain ⟨hev, hndr⟩ := hnd
    have hstep : jsoncSetField2 (JVal.obj fs) "hooks" ev (hooksConfigToJ cfg) =
        .ok (.obj (setF fs "hooks" (.obj (setF gs ev (hooksConfigToJ cfg))))) := by
      simp [jsoncSetField2, hfs]
    have hfs1 : (setF fs "hooks" (.obj (setF gs ev
        (hooksConfigToJ cfg)))).lookup "hooks" =
        some (.obj (setF gs ev (hooksConfigToJ cfg))) :=
      lookup_setF_self fs "hooks" _
    obtain ⟨fs', gs', hrun, hl, hfk, hge, hgp⟩ :=
      ih (setF fs "hooks" (.obj (setF gs ev (hooksConfigToJ cfg))))
        (setF gs ev (hooksConfigToJ cfg)) hndr hfs1
    refine ⟨fs', gs', ?_, hl, ?_, ?_, ?_⟩
    · have : addHooksSeq (JVal.obj fs) ((ev, cfg) :: rest) =
          (jsoncSetField2 (JVal.obj fs) "hooks" ev (hooksConfigToJ cfg) >>= fun d =>
            addHooksSeq d rest) := by
        simp [addHooksSeq, List.foldlM_cons]
      rw [this, hstep]
      simpa [Bind.bind, Except.bind] using hrun
    · intro k hk
      rw [hfk k hk, lookup_setF_ne fs "hooks" k _ hk]
    · intro e he
      simp only [List.map_cons, List.mem_cons, not_or] at he
      rw [hge e he.2, lookup_setF_ne gs ev e _ he.1]
    · intro q hq
      rcases List.mem_cons.mp hq with rfl | hq
      · show gs'.lookup ev = some (hooksConfigToJ cfg)
        rw [hge ev (by simpa using hev), lookup_setF_self]
      · exact hgp q hq



theorem addHooks_reset_spec (fs : List (String × JVal)) (hd : HooksDef) (out : JVal)
    (hnd : (hd.map Prod.fst).Nodup)
    (h1 : jTruthyV (fs.lookup "hooks") = false)
    (hrun : addHooksModel (some (some (.obj fs))) hd = .ok out) :
    ∃ fs' gs', out = .obj fs' ∧ fs'.lookup "hooks" = some (.obj gs') ∧
      (∀ k, k ≠ "hooks" → fs'.lookup k = fs.lookup k) ∧
      (∀ e, e ∉ hd.map Prod.fst → gs'.lookup e = none) ∧
      (∀ p ∈ hd, gs'.lookup p.1 = some (hooksConfigToJ p.2)) := by
  have hfs1 : (setF fs "hooks" (JVal.obj [])).lookup "hooks" = some (.obj []) :=
    lookup_setF_self fs "hooks" _
  obtain ⟨fs', gs', hseq, hl, hfk, hge, hgp⟩ :=
    addHooksSeq_spec hd (setF fs "hooks" (JVal.obj [])) [] hnd hfs1
  have hcore : addHooksCore (some (.obj fs)) hd = .ok (.obj fs') := by
    have h2 : jTruthyV (jProp (JVal.obj fs) "hooks") = false := h1
    simp only [addHooksCore, h2, Bool.false_eq_true, if_false, jsoncSetField,
      Bind.bind, Except.bind]
    exact hseq
  have hmod : addHooksModel (some (some (.obj fs))) hd = .ok (.obj fs') := by
    simp [addHooksModel, hcore]
  rw [hmod] at hrun
  obtain rfl : out = .obj fs' := (Except.ok.inj hrun).symm
  refine ⟨fs', gs', rfl, hl, ?_, ?_, hgp⟩
  · intro k hk
    rw [hfk k hk, lookup_setF_ne fs "hooks" k _ hk]
  · intro e he
    rw [hge e he]
    simp [List.lookup]

/-- Happy path of `addHooks` (root is an object whose `hooks` field is
absent, falsy, or an object): every root key other than `hooks` keeps
its value, each installed event's value is *replaced* by the
definition's serialized matcher list wholesale, and events the
definition does not name keep their previous value. -/
theorem addHooks_happy_spec (fs : List (String × JVal)) (hd : HooksDef) (out : JVal)
    (hok : hooksFieldOkay (fs.lookup "hooks") = true)
    (hnd : (hd.map Prod.fst).Nodup)
    (hrun : addHooksModel (some (some (.obj fs))) hd = .ok out) :
    (∀ k, k ≠ "hooks" → jProp out k = fs.lookup k) ∧
    (∀ p ∈ hd, eventValue out p.1 = some (hooksConfigToJ p.2)) ∧
    (∀ ev, ev ∉ hd.map Prod.fst → eventValue out ev = eventValue (.obj fs) ev) := by
  rcases hql : fs.lookup "hooks" with _ | v
  · obtain ⟨fs', gs', rfl, hl, hfk, hge, hgp⟩ :=
      addHooks_reset_spec fs hd out hnd (by rw [hql]; rfl) hrun
    refine ⟨?_, ?_, ?_⟩
    · intro k hk
      exact hfk k hk
    · intro p hp
      simp [eventValue, jProp, hl, hgp p hp]
    · intro ev hev
      have hout : eventValue (JVal.obj fs') ev = none := by
        simp [eventValue, jProp, hl, hge ev hev]
      have hdoc : eventValue (JVal.obj fs) ev = none := by
        simp [eventValue, jProp, hql]
      rw [hout, hdoc]
  · cases v with
    | obj gs =>
      obtain ⟨fs', gs', hseq, hl, hfk, hge, hgp⟩ := addHooksSeq_spec hd fs gs hnd hql
      have hcore : addHooksCore (some (.obj fs)) hd = .ok (.obj fs') := by
        have h2 : jTruthyV (jProp (JVal.obj fs) "hooks") = true := by
          have : jProp (JVal.obj fs) "hooks" = some (.obj gs) := hql
          rw [this]
          rfl
        simp only [addHooksCore, h2, if_true, pure, Except.pure, Bind.bind, Except.bind]
        exact hseq
      have hmod : addHooksModel (some (some (.obj fs))) hd = .ok (.obj fs') := by
        simp [addHooksModel, hcore]
      rw [hmod] at hrun
      obtain rfl : out = .obj fs' := (Except.ok.inj hrun).symm
      refine ⟨?_, ?_, ?_⟩
      · intro k hk
        exact hfk k hk
      · intro p hp
        simp [eventValue, jProp, hl, hgp p hp]
      · intro ev hev
        have hout : eventValue (JVal.obj fs') ev = gs.lookup ev := by
          simp [eventValue, jProp, hl, hge ev hev]
        have hdoc : eventValue (JVal.obj fs) ev = gs.lookup ev := by
          simp [eventValue, jProp, hql]
        rw [hout, hdoc]
    | null =>
      obtain ⟨fs', gs', rfl, hl, hfk, hge, hgp⟩ :=
        addHooks_reset_spec fs hd out hnd (by rw [hql]; rfl) hrun
      refine ⟨fun k hk => hfk k hk, fun p hp => by
        simp [eventValue, jProp, hl, hgp p hp], ?_⟩
      intro ev hev
      have hout : eventValue (JVal.obj fs') ev = none := by
        simp [eventValue, jProp, hl, hge ev hev]
      have hdoc : eventValue (JVal.obj fs) ev = none := by
        simp [eventValue, jProp, hql]
      rw [hout, hdoc]
    | bool bb =>
      have hfb : jTruthy (JVal.bool bb) = false := by
        have hok2 : hooksFieldOkay (some (JVal.bool bb)) = true := by
          rw [← hql]; exact hok
        simpa [hooksFieldOkay] using hok2
      obtain ⟨fs', gs', rfl, hl, hfk, hge, hgp⟩ :=
        addHooks_reset_spec fs hd out hnd (by rw [hql]; simpa [jTruthyV] using hfb) hrun
      refine ⟨fun k hk => hfk k hk, fun p hp => by
        simp [eventValue, jProp, hl, hgp p hp], ?_⟩
      intro ev hev
      have hout : eventValue (JVal.obj fs') ev = none := by
        simp [eventValue, jProp, hl, hge ev hev]
      have hdoc : eventValue (JVal.obj fs) ev = none := by
        simp [eventValue, jProp, hql]
      rw [hout, hdoc]
    | num nn =>
      have hfb : jTruthy (JVal.num nn) = false := by
        have hok2 : hooksFieldOkay (some (JVal.num nn)) = true := by
          rw [← hql]; exact hok
        simpa [hooksFieldOkay] using hok2
      obtain ⟨fs', gs', rfl, hl, hfk, hge, hgp⟩ :=
        addHooks_reset_spec fs hd out hnd (by rw [hql]; simpa [jTruthyV] using hfb) hrun
      refine ⟨fun k hk => hfk k hk, fun p hp => by
        simp [eventValue, jProp, hl, hgp p hp], ?_⟩
      intro ev hev
      have hout : eventValue (JVal.obj fs') ev = none := by
        simp [eventValue, jProp, hl, hge ev hev]
      have hdoc : eventValue (JVal.obj fs) ev = none := by
        simp [eventValue, jProp, hql]
      rw [hout, hdoc]
    | str ss =>
      have hfb : jTruthy (JVal.str ss) = false := by
        have hok2 : hooksFieldOkay (some (JVal.str ss)) = true := by
          rw [← hql]; exact hok
        simpa [hooksFieldOkay] using hok2
      obtain ⟨fs', gs', rfl, hl, hfk, hge, hgp⟩ :=
        addHooks_reset_spec fs hd out hnd (by rw [hql]; simpa [jTruthyV] using hfb) hrun
      refine ⟨fun k hk => hfk k hk, fun p hp => by
        simp [eventValue, jProp, hl, hgp p hp], ?_⟩
      intro ev hev
      have hout : eventValue (JVal.obj fs') ev = none := by
        simp [eventValue, jProp, hl, hge ev hev]
      have hdoc : eventValue (JVal.obj fs) ev = none := by
        simp [eventValue, jProp, hql]
      rw [hout, hdoc]
    | arr xs =>
      exfalso
      have : hooksFieldOkay (fs.lookup "hooks") = false := by
        rw [hql]
        rfl
      rw [this] at hok
      exact Bool.noConfusion hok



theorem matcherToJ_bash_ne_star : matcherToJ hmBash ≠ matcherToJ hmStar := by
  simp [matcherToJ, hmBash, hmStar]

/-- **Claim C2 is false as stated.**  Installing over a document whose
`PreToolUse` event holds only a user-authored matcher replaces the whole
event array: the user matcher is not part of the installed definition,
yet it is absent from the result. -/
theorem c2_counterexample : ¬claimC2Additive := by
  intro hcl
  obtain ⟨_, h2⟩ := hcl (some docC2) hdHappy
    (JVal.obj [("keep", JVal.num 1),
      ("hooks", JVal.obj [("PreToolUse", hooksConfigToJ [hmStar])])])
    docC2 (by rfl) rfl
  have hmem : matcherToJ hmBash ∈ eventEntries docC2 "PreToolUse" := by
    show matcherToJ hmBash ∈ [matcherToJ hmBash]
    exact List.mem_cons_self _ _
  have hnotin : ∀ pr ∈ hdHappy, matcherToJ hmBash ∉ pr.2.map matcherToJ := by
    intro pr hpr
    rcases List.mem_cons.mp hpr with rfl | hpr
    · simp [matcherToJ_bash_ne_star]
    · simp at hpr
  have hres := h2 "PreToolUse" (matcherToJ hmBash) hmem hnotin
  have hev : eventEntries (JVal.obj [("keep", JVal.num 1),
      ("hooks", JVal.obj [("PreToolUse", hooksConfigToJ [hmStar])])]) "PreToolUse" =
      [matcherToJ hmStar] := rfl
  rw [hev] at hres
  exact matcherToJ_bash_ne_star (List.mem_singleton.mp hres)



/-- The `catch`-branch rebuild: starting from the literal `'{}'`, the
result holds the installed definition and nothing else. -/
theorem freshBuildE_spec (hd : HooksDef) (hnd : (hd.map Prod.fst).Nodup) :
    ∃ fs' gs',
      freshBuildE hd = .ok (.obj fs') ∧
      fs'.lookup "hooks" = some (.obj gs') ∧
      (∀ k, k ≠ "hooks" → fs'.lookup k = none) ∧
      (∀ e, e ∉ hd.map Prod.fst → gs'.lookup e = none) ∧
      (∀ p ∈ hd, gs'.lookup p.1 = some (hooksConfigToJ p.2)) := by
  obtain ⟨fs', gs', hseq, hl, hfk, hge, hgp⟩ :=
    addHooksSeq_spec hd [("hooks", JVal.obj [])] [] hnd (by simp [List.lookup])
  refine ⟨fs', gs', ?_, hl, ?_, ?_, hgp⟩
  · show (jsoncSetField (JVal.obj []) "hooks" (JVal.obj []) >>= fun c1 =>
      addHooksSeq c1 hd) = _
    simp only [jsoncSetField, setF, Bind.bind, Except.bind]
    exact hseq
  · intro k hk
    rw [hfk k hk]
    have hb : (k == "hooks") = false := beq_eq_false_iff_ne.mpr hk
    simp [List.lookup, hb]
  · intro e he
    rw [hge e he]
    simp [List.lookup]

/-- A truthy non-object `hooks` value makes the first per-event
`jsonc.modify` throw (a `setProperty` path error), so `addHooksCore`
fails whenever at least one event is to be installed. -/
theorem addHooksCore_error_of_bad_hooks (fs : List (String × JVal)) (v : JVal)
    (ev : String) (cfg : List HookMatcher) (rest : HooksDef)
    (hfs : fs.lookup "hooks" = some v) (htr : jTruthy v = true)
    (hnv : ∀ gs, v ≠ .obj gs) :
    addHooksCore (some (.obj fs)) ((ev, cfg) :: rest) = .error .editError := by
  have h2 : jTruthyV (jProp (JVal.obj fs) "hooks") = true := by
    have h3 : jProp (JVal.obj fs) "hooks" = some v := hfs
    rw [h3]
    simpa [jTruthyV] using htr
  have hset : jsoncSetField2 (JVal.obj fs) "hooks" ev (hooksConfigToJ cfg) =
      .error .editError := by
    cases v with
    | obj gs => exact absurd rfl (hnv gs)
    | null => simp [jTruthy] at htr
    | bool bb => simp [jsoncSetField2, hfs]
    | num nn => simp [jsoncSetField2, hfs]
    | str ss => simp [jsoncSetField2, hfs]
    | arr xs => simp [jsoncSetField2, hfs]
  simp only [addHooksCore, h2, if_true, pure, Except.pure, Bind.bind, Except.bind]
  have hcons : addHooksSeq (JVal.obj fs) ((ev, cfg) :: rest) =
      (jsoncSetField2 (JVal.obj fs) "hooks" ev (hooksConfigToJ cfg) >>= fun d =>
        addHooksSeq d rest) := by
    simp [addHooksSeq, List.foldlM_cons]
  rw [hcons, hset]
  simp [Bind.bind, Except.bind]

/-- Destructive path of `addHooks`: a truthy non-object `hooks` value
with a nonempty definition throws inside the `try`, and the `catch`
rebuild destroys every other root key. -/
theorem addHooks_rebuild_destroys (fs : List (String × JVal)) (v : JVal)
    (hd : HooksDef) (out : JVal)
    (hne : hd ≠ []) (hnd : (hd.map Prod.fst).Nodup)
    (hfs : fs.lookup "hooks" = some v) (htr : jTruthy v = true)
    (hnv : ∀ gs, v ≠ .obj gs)
    (hrun : addHooksModel (some (some (.obj fs))) hd = .ok out) :
    (∀ k, k ≠ "hooks" → jProp out k = none) ∧
    (∀ p ∈ hd, eventValue out p.1 = some (hooksConfigToJ p.2)) ∧
    (∀ e, e ∉ hd.map Prod.fst → eventValue out e = none) := by
  obtain ⟨ev, cfg, rest, rfl⟩ : ∃ ev cfg rest, hd = (ev, cfg) :: rest := by
    cases hd with
    | nil => exact absurd rfl hne
    | cons p rest =>
      obtain ⟨e0, c0⟩ := p
      exact ⟨e0, c0, rest, rfl⟩
  have hcore := addHooksCore_error_of_bad_hooks fs v ev cfg rest hfs htr hnv
  have hmod : addHooksModel (some (some (.obj fs))) ((ev, cfg) :: rest) =
      freshBuildE ((ev, cfg) :: rest) := by
    simp [addHooksModel, hcore]
  obtain ⟨fs', gs', hfb, hl, hfk, hge, hgp⟩ := freshBuildE_spec ((ev, cfg) :: rest) hnd
  rw [hmod, hfb] at hrun
  obtain rfl : out = .obj fs' := (Except.ok.inj hrun).symm
  refine ⟨?_, ?_, ?_⟩
  · intro k hk
    exact hfk k hk
  · intro p hp
    simp [eventValue, jProp, hl, hgp p hp]
  · intro e he
    simp [eventValue, jProp, hl, hge e he]

/-- A non-object parse result always throws inside the `try`:
`undefined`/`null` at `existingData.hooks`, any other non-object when
the absent `hooks` property sends `jsonc.modify(content, ['hooks'], {})`
into a root that is not an object. -/
theorem addHooksCore_error_of_nonobj (doc : JVal) (hd : HooksDef)
    (hnv : ∀ fs, doc ≠ .obj fs) :
    ∃ e, addHooksCore (some doc) hd = .error e := by
  cases doc with
  | obj fs => exact absurd rfl (hnv fs)
  | null => exact ⟨.typeError, rfl⟩
  | arr xs =>
    refine ⟨.editError, ?_⟩
    have h : jTruthyV (jProp (JVal.arr xs) "hooks") = false := by
      simp [jProp, hooks_not_canonical, jTruthyV]
    simp [addHooksCore, h, jsoncSetField, Bind.bind, Except.bind]
  | num nn =>
    refine ⟨.editError, ?_⟩
    have h : jTruthyV (jProp (JVal.num nn) "hooks") = false := rfl
    simp [addHooksCore, h, jsoncSetField, Bind.bind, Except.bind]
  | str ss =>
    refine ⟨.editError, ?_⟩
    have h : jTruthyV (jProp (JVal.str ss) "hooks") = false := rfl
    simp [addHooksCore, h, jsoncSetField, Bind.bind, Except.bind]
  | bool bb =>
    refine ⟨.editError, ?_⟩
    have h : jTruthyV (jProp (JVal.bool bb) "hooks") = false := rfl
    simp [addHooksCore, h, jsoncSetField, Bind.bind, Except.bind]

/-- The other rebuild triggers: no settings file (`fs.readFile` throws),
an `undefined` `jsonc.parse` result, or any non-object parse result
(`null` throws at `existingData.hooks`, the rest at the first
`jsonc.modify`); the result again holds the installed definition and
nothing else. -/
theorem addHooks_fresh_cases (f : Option JsVal) (hd : HooksDef) (out : JVal)
    (hnd : (hd.map Prod.fst).Nodup)
    (hf : f = none ∨ f = some none ∨
      ∃ doc, f = some (some doc) ∧ ∀ fs, doc ≠ .obj fs)
    (hrun : addHooksModel f hd = .ok out) :
    (∀ k, k ≠ "hooks" → jProp out k = none) ∧
    (∀ p ∈ hd, eventValue out p.1 = some (hooksConfigToJ p.2)) ∧
    (∀ e, e ∉ hd.map Prod.fst → eventValue out e = none) := by
  obtain ⟨fs', gs', hfb, hl, hfk, hge, hgp⟩ := freshBuildE_spec hd hnd
  have hmod : addHooksModel f hd = freshBuildE hd := by
    rcases hf with rfl | rfl | ⟨doc, rfl, hnv⟩
    · rfl
    · rfl
    · obtain ⟨e, he⟩ := addHooksCore_error_of_nonobj doc hd hnv
      simp [addHooksModel, he]
  rw [hmod, hfb] at hrun
  obtain rfl : out = .obj fs' := (Except.ok.inj hrun).symm
  refine ⟨?_, ?_, ?_⟩
  · intro k hk
    exact hfk k hk
  · intro p hp
    simp [eventValue, jProp, hl, hgp p hp]
  · intro e he
    simp [eventValue, jProp, hl, hge e he]

/-- Both paths of `addHooks` end by issuing the write, and no prompt of
any kind appears in the trace. -/
theorem addHooksRun_no_gate (w : UWorld) (hd : HooksDef) :
    UEv.settingsWrite ∈ (addHooksRun w hd).2 ∧
    UEv.promptParent ∉ (addHooksRun w hd).2 ∧
    UEv.promptDiff ∉ (addHooksRun w hd).2 := by
  by_cases hse : w.settingsExists = true
  · rcases hc : addHooksCore w.parsed hd with e | d
    · by_cases hw : w.writeSettingsThrows = true
      · have hr : addHooksRun w hd = (false, [UEv.readSettings, UEv.settingsWrite]) := by
          simp [addHooksRun, hse, hw, hc]
        rw [hr]
        decide
      · have hwf : w.writeSettingsThrows = false := by
          revert hw
          cases w.writeSettingsThrows <;> simp
        have hr : addHooksRun w hd = (true, [UEv.readSettings, UEv.settingsWrite]) := by
          simp [addHooksRun, hse, hwf, hc]
        rw [hr]
        decide
    · by_cases hw : w.writeSettingsThrows = true
      · have hr : addHooksRun w hd =
            (false, [UEv.readSettings, UEv.settingsWrite, UEv.settingsWrite]) := by
          simp [addHooksRun, hse, hw, hc]
        rw [hr]
        decide
      · have hwf : w.writeSettingsThrows = false := by
          revert hw
          cases w.writeSettingsThrows <;> simp
        have hr : addHooksRun w hd = (true, [UEv.readSettings, UEv.settingsWrite]) := by
          simp [addHooksRun, hse, hwf, hc]
        rw [hr]
        decide
  · have hsf : w.settingsExists = false := by
      revert hse
      cases w.settingsExists <;> simp
    by_cases hw : w.writeSettingsThrows = true
    · have hr : addHooksRun w hd = (false, [UEv.readSettings, UEv.settingsWrite]) := by
        simp [addHooksRun, hsf, hw]
      rw [hr]
      decide
    · have hwf : w.writeSettingsThrows = false := by
        revert hw
        cases w.writeSettingsThrows <;> simp
      have hr : addHooksRun w hd = (true, [UEv.readSettings, UEv.settingsWrite]) := by
        simp [addHooksRun, hsf, hwf]
      rw [hr]
      decide

/-- **Claim C2 (amended).**  `addHooks` is additive only in a restricted
frame sense, and only on its happy path.  (1) When the root is an object
whose `hooks` field is absent, falsy, or an object (event names
distinct, as `JSON.parse` guarantees), every root key other than
`hooks` keeps its value and events the definition does not name keep
theirs, but each named event's whole matcher array is *replaced* by the
definition's serialized list — pre-existing entries under installed
event names are dropped, not merged.  (2) Off that path the function is
destructive: a truthy non-object `hooks` value (with at least one event
to install) makes `jsonc.modify` throw and the `catch` rebuilds from
`'{}'`, so every other root key is destroyed.  (3) The same rebuild
serves a missing settings file, an `undefined` parse result, and every
non-object parse result (`null` throws at `existingData.hooks`, the
rest at the first `jsonc.modify`).
(4) The write is issued on every run — both the `try` and the `catch`
path end with `fs.writeFile` — and no confirmation prompt of any kind
is ever shown. -/
theorem c2_amended_install_semantics :
    (∀ (fs : List (String × JVal)) (hd : HooksDef) (out : JVal),
      hooksFieldOkay (fs.lookup "hooks") = true →
      (hd.map Prod.fst).Nodup →
      addHooksModel (some (some (.obj fs))) hd = .ok out →
      (∀ k, k ≠ "hooks" → jProp out k = fs.lookup k) ∧
      (∀ p ∈ hd, eventValue out p.1 = some (hooksConfigToJ p.2)) ∧
      (∀ ev, ev ∉ hd.map Prod.fst → eventValue out ev = eventValue (.obj fs) ev)) ∧
    (∀ (fs : List (String × JVal)) (v : JVal) (hd : HooksDef) (out : JVal),
      hd ≠ [] →
      (hd.map Prod.fst).Nodup →
      fs.lookup "hooks" = some v →
      jTruthy v = true →
      (∀ gs, v ≠ .obj gs) →
      addHooksModel (some (some (.obj fs))) hd = .ok out →
      (∀ k, k ≠ "hooks" → jProp out k = none) ∧
      (∀ p ∈ hd, eventValue out p.1 = some (hooksConfigToJ p.2)) ∧
      (∀ e, e ∉ hd.map Prod.fst → eventValue out e = none)) ∧
    (∀ (f : Option JsVal) (hd : HooksDef) (out : JVal),
      (hd.map Prod.fst).Nodup →
      (f = none ∨ f = some none ∨
        ∃ doc, f = some (some doc) ∧ ∀ fs, doc ≠ .obj fs) →
      addHooksModel f hd = .ok out →
      (∀ k, k ≠ "hooks" → jProp out k = none) ∧
      (∀ p ∈ hd, eventValue out p.1 = some (hooksConfigToJ p.2)) ∧
      (∀ e, e ∉ hd.map Prod.fst → eventValue out e = none)) ∧
    (∀ (w : UWorld) (hd : HooksDef),
      UEv.settingsWrite ∈ (addHooksRun w hd).2 ∧
      UEv.promptParent ∉ (addHooksRun w hd).2 ∧
      UEv.promptDiff ∉ (addHooksRun w hd).2) :=
  ⟨fun fs hd out hok hnd hrun => addHooks_happy_spec fs hd out hok hnd hrun,
    fun fs v hd out hne hnd hfs htr hnv hrun =>
      addHooks_rebuild_destroys fs v hd out hne hnd hfs htr hnv hrun,
    fun f hd out hnd hf hrun => addHooks_fresh_cases f hd out hnd hf hrun,
    fun w hd => addHooksRun_no_gate w hd⟩

/-- Closed instance of `c2_amended_install_semantics`, exercising all
four parts: the happy path keeps the `keep` key and replaces the user
matcher under `PreToolUse`; the rebuild on `{"hooks":"x","other":1}`
destroys `other`; the missing-file rebuild holds only the installed
hooks; and a concrete existing-file run issues the write with no
prompt. -/
theorem c2_amended_witness :
    ((∀ k, k ≠ "hooks" →
      jProp (JVal.obj [("keep", JVal.num 1),
        ("hooks", JVal.obj [("PreToolUse", hooksConfigToJ [hmStar])])]) k =
      (([("keep", JVal.num 1), ("hooks", JVal.obj [("PreToolUse",
        JVal.arr [matcherToJ hmBash])])] : List (String × JVal)).lookup k)) ∧
    (∀ p ∈ hdHappy, eventValue (JVal.obj [("keep", JVal.num 1),
        ("hooks", JVal.obj [("PreToolUse", hooksConfigToJ [hmStar])])]) p.1 =
      some (hooksConfigToJ p.2)) ∧
    (∀ ev, ev ∉ hdHappy.map Prod.fst →
      eventValue (JVal.obj [("keep", JVal.num 1),
        ("hooks", JVal.obj [("PreToolUse", hooksConfigToJ [hmStar])])]) ev =
      eventValue (JVal.obj [("keep", JVal.num 1), ("hooks", JVal.obj [("PreToolUse",
        JVal.arr [matcherToJ hmBash])])]) ev)) ∧
    ((∀ k, k ≠ "hooks" →
      jProp (JVal.obj [("hooks", JVal.obj [("PreToolUse",
        hooksConfigToJ [hmStar])])]) k = none) ∧
    (∀ p ∈ hdHappy, eventValue (JVal.obj [("hooks", JVal.obj [("PreToolUse",
        hooksConfigToJ [hmStar])])]) p.1 = some (hooksConfigToJ p.2)) ∧
    (∀ e, e ∉ hdHappy.map Prod.fst →
      eventValue (JVal.obj [("hooks", JVal.obj [("PreToolUse",
        hooksConfigToJ [hmStar])])]) e = none)) ∧
    ((∀ k, k ≠ "hooks" →
      jProp (JVal.obj [("hooks", JVal.obj [("PreToolUse",
        hooksConfigToJ [hmStar])])]) k = none) ∧
    (∀ p ∈ hdHappy, eventValue (JVal.obj [("hooks", JVal.obj [("PreToolUse",
        hooksConfigToJ [hmStar])])]) p.1 = some (hooksConfigToJ p.2)) ∧
    (∀ e, e ∉ hdHappy.map Prod.fst →
      eventValue (JVal.obj [("hooks", JVal.obj [("PreToolUse",
        hooksConfigToJ [hmStar])])]) e = none)) ∧
    (UEv.settingsWrite ∈
        (addHooksRun ⟨true, some docC2, none, none, false, false, false⟩ hdHappy).2 ∧
      UEv.promptParent ∉
        (addHooksRun ⟨true, some docC2, none, none, false, false, false⟩ hdHappy).2 ∧
      UEv.promptDiff ∉
        (addHooksRun ⟨true, some docC2, none, none, false, false, false⟩ hdHappy).2) :=
  ⟨c2_amended_install_semantics.1
      [("keep", JVal.num 1),
        ("hooks", JVal.obj [("PreToolUse", JVal.arr [matcherToJ hmBash])])]
      hdHappy
      (JVal.obj [("keep", JVal.num 1),
        ("hooks", JVal.obj [("PreToolUse", hooksConfigToJ [hmStar])])])
      (by rfl) (by decide) (by rfl),
    c2_amended_install_semantics.2.1
      [("hooks", JVal.str "x"), ("other", JVal.num 1)] (JVal.str "x") hdHappy
      (JVal.obj [("hooks", JVal.obj [("PreToolUse", hooksConfigToJ [hmStar])])])
      (by simp [hdHappy]) (by decide) (by rfl) (by rfl)
      (fun gs h => JVal.noConfusion h) (by rfl),
    c2_amended_install_semantics.2.2.1 none hdHappy
      (JVal.obj [("hooks", JVal.obj [("PreToolUse", hooksConfigToJ [hmStar])])])
      (by decide) (Or.inl rfl) (by rfl),
    c2_amended_install_semantics.2.2.2
      ⟨true, some docC2, none, none, false, false, false⟩ hdHappy⟩

end HooksMgr
